import Mathlib

/-!
# Reverse-mode dot product and elementary functions of the AD library

A shallow embedding of the dot-product node of the reverse-mode engine
(`stan/math/rev/mat/fun/dot_product.hpp`) and of the `atanh` overloads its tests
exercise.

Modelling conventions.

* `double` is an arbitrary commutative ring `R` (a linearly ordered field where
  a domain is checked): the development is about the algebra of the forward
  value and of the adjoint updates, in exact arithmetic.  Rounding is not
  modelled.
* A `vari*` is the position of the node in `var_stack_`; a `var` wraps one such
  pointer.  Arrays (`vari**`, `const var*`, `double*`) are blocks of memory that
  live either in the arena (`memalloc_`) or in caller-owned memory (`heap`); a
  pointer to an array is the position of its block.
* Reading through a dangling pointer is undefined in C++.  Here such a read
  yields a default (`0`, the empty array) and such a write is dropped; theorems
  carry the validity hypotheses they rely on.
* A function that may throw returns the error or the result together with the
  state it leaves behind.
-/

namespace stan.math

/-- An array in memory: either node pointers (`vari*[]`, and likewise `var[]`,
whose only member is the pointer `vi_`) or plain numbers (`double[]`). -/
inductive block (R : Type) where
  | vis (ps : List Nat)
  | dbl (ds : List R)
  deriving DecidableEq, Repr

/-- A raw address of an array: caller-owned memory or a block of the arena. -/
inductive ptr where
  | heap (a : Nat)
  | arena (a : Nat)
  deriving DecidableEq, Repr

/-- A typed array pointer, `dot_product_store_type<T>::type`: `vari**` for
`T = var` (also used for `const var*`) and `double*` for `T = double`. -/
inductive store where
  | vari_pp (p : ptr)
  | double_p (p : ptr)
  deriving DecidableEq, Repr

/-- Members that `dot_product_vari<T1, T2>` adds to `vari`. -/
structure dot_product_vari where
  v1_ : store
  v2_ : store
  length_ : Nat
  deriving DecidableEq, Repr

/-- The dynamic type of a tape node, which fixes its `chain()`: a plain `vari`
(empty `chain()`), a dot-product node, or a node of a scalar operation, which
refers to its operand nodes and carries the partial derivative with respect to
each. -/
inductive chainable (R : Type) where
  | vari
  | dot_product (d : dot_product_vari)
  | op_vari (operands : List Nat) (partials : List R)
  deriving DecidableEq, Repr

/-- A tape node: `val_` and `adj_` of `vari`, and its dynamic type. -/
structure vari (R : Type) where
  val_ : R
  adj_ : R
  op : chainable R
  deriving DecidableEq, Repr

/-- The dot-product members of a node, if it is a dot-product node. -/
def vari.dot {R : Type} (n : vari R) : Option dot_product_vari :=
  match n.op with
  | .dot_product d => some d
  | _ => none

/-- The scalar handle: a pointer to its node. -/
structure var where
  vi_ : Nat
  deriving DecidableEq, Repr

/-- Program state: the tape and the arena of `ChainableStack::instance_`, and the
caller-owned arrays. -/
structure State (R : Type) where
  var_stack_ : List (vari R)
  memalloc_ : List (block R)
  heap : List (block R)
  deriving DecidableEq, Repr

namespace Eigen

/-- An Eigen matrix by value: its shape and its coefficients in storage order. -/
structure Matrix (R : Type) where
  rows : Nat
  cols : Nat
  data : block R
  deriving DecidableEq, Repr

end Eigen

/-- Number of elements of an array. -/
def block.size {R : Type} : block R → Nat
  | .vis ps => ps.length
  | .dbl ds => ds.length

/-- Whether the element type of the array is `var`. -/
def block.is_var {R : Type} : block R → Bool
  | .vis _ => true
  | .dbl _ => false

/-- Whether the typed pointer is a `vari**`. -/
def store.is_var : store → Bool
  | .vari_pp _ => true
  | .double_p _ => false

/-- The raw address under a typed pointer. -/
def store.addr : store → ptr
  | .vari_pp p => p
  | .double_p p => p

/-- Total number of coefficients, `size()`. -/
def Eigen.Matrix.size {R : Type} (m : Eigen.Matrix R) : Nat := m.rows * m.cols

section memory

variable {R : Type}

/-- The array stored at an address, if any. -/
def State.load (σ : State R) : ptr → Option (block R)
  | .heap a => σ.heap[a]?
  | .arena a => σ.memalloc_[a]?

/-- The first `length` node pointers at `p`: `Eigen::Map<vector_vi>(p, length)`. -/
def State.vis (σ : State R) (p : ptr) (length : Nat) : List Nat :=
  match σ.load p with
  | some (.vis ps) => ps.take length
  | _ => []

/-- The first `length` numbers at `p`: `Eigen::Map<vector_d>(p, length)`. -/
def State.dbl (σ : State R) (p : ptr) (length : Nat) : List R :=
  match σ.load p with
  | some (.dbl ds) => ds.take length
  | _ => []

/-- Dynamic type of the node at `vi`. -/
def State.op (σ : State R) (vi : Nat) : chainable R :=
  match σ.var_stack_[vi]? with
  | some n => n.op
  | none => .vari

/-- Members of the dot-product node at `vi`. -/
def State.dot (σ : State R) (vi : Nat) : Option dot_product_vari :=
  match σ.var_stack_[vi]? with
  | some n => n.dot
  | none => none

/-- Bump allocation from the arena, `memalloc_.alloc`, followed by filling the new
block with `b`; returns the address of the new block. -/
def State.alloc (σ : State R) (b : block R) : ptr × State R :=
  (.arena σ.memalloc_.length, { σ with memalloc_ := σ.memalloc_ ++ [b] })

end memory

section values

variable {R : Type} [CommRing R]

/-- The value `vi->val_`. -/
def State.val (σ : State R) (vi : Nat) : R :=
  match σ.var_stack_[vi]? with
  | some n => n.val_
  | none => 0

/-- The adjoint `vi->adj_`. -/
def State.adj (σ : State R) (vi : Nat) : R :=
  match σ.var_stack_[vi]? with
  | some n => n.adj_
  | none => 0

/-- Coefficientwise `.val()` of an array: the node values for `var` elements, the
numbers themselves for `double` elements. -/
def State.block_val (σ : State R) : block R → List R
  | .vis ps => ps.map σ.val
  | .dbl ds => ds

/-- Coefficientwise `.val()` of the `length` elements behind a typed pointer. -/
def State.val_of (σ : State R) (s : store) (length : Nat) : List R :=
  match s with
  | .vari_pp p => (σ.vis p length).map σ.val
  | .double_p p => σ.dbl p length

/-- Eigen's `a.dot(b)` on two coefficient lists. -/
def dot (a b : List R) : R := (List.zipWith (fun x y => x * y) a b).sum

/-- First overload, `var_dot(vari** v1, vari** v2, size_t length)`. -/
def var_dot_vari (σ : State R) (v1 v2 : ptr) (length : Nat) : R :=
  dot ((σ.vis v1 length).map σ.val) ((σ.vis v2 length).map σ.val)

/-- Second overload, `var_dot(const T1* v1, const T2* v2, size_t length)`. -/
def var_dot (σ : State R) (v1 v2 : store) (length : Nat) : R :=
  dot (σ.val_of v1 length) (σ.val_of v2 length)

/-- Third overload, `var_dot(const Eigen::DenseBase&, const Eigen::DenseBase&)`. -/
def var_dot_eigen (σ : State R) (v1 v2 : Eigen.Matrix R) : R :=
  dot (σ.block_val v1.data) (σ.block_val v2.data)

end values

section construction

variable {R : Type} [CommRing R]

/-- Modelled from the spec: the base-class constructor `vari(double x)` (in
`stan/math/rev/core`, outside the sources at hand).  The record step appends the
node to the tape in calling order, and the adjoint is initialized to 0; the
reference returned is the position of the node. -/
def State.record (σ : State R) (x : R) (ext : chainable R) : Nat × State R :=
  (σ.var_stack_.length,
   { σ with var_stack_ := σ.var_stack_ ++ [{ val_ := x, adj_ := 0, op := ext }] })

/-- The two `initialize` overloads that read a raw array (`const var* inv` into
`vari**& mem_v`, `const double* ind` into `double*& mem_d`): without `shared`, a
fresh arena block of `length_` elements receives a copy of the input; with
`shared`, the member is set to the shared pointer and nothing is allocated. -/
def initialize_array (σ : State R) (length_ : Nat) (inv : store) (shared : Option store) :
    store × State R :=
  match shared with
  | none =>
    match inv with
    | .vari_pp p =>
      let r := σ.alloc (.vis (σ.vis p length_))
      (.vari_pp r.1, r.2)
    | .double_p p =>
      let r := σ.alloc (.dbl (σ.dbl p length_))
      (.double_p r.1, r.2)
  | some s => (s, σ)

/-- The two `initialize` overloads that read an Eigen object
(`const Eigen::DenseBase<Derived>&`). -/
def initialize_eigen (σ : State R) (length_ : Nat) (inv : block R) (shared : Option store) :
    store × State R :=
  match shared with
  | none =>
    match inv with
    | .vis ps =>
      let r := σ.alloc (.vis (ps.take length_))
      (.vari_pp r.1, r.2)
    | .dbl ds =>
      let r := σ.alloc (.dbl (ds.take length_))
      (.double_p r.1, r.2)
  | some s => (s, σ)

/-- The member `shared->v1_` of an optional sharing node (`NULL` is `none`). -/
def State.shared_v1 (σ : State R) (shared : Option Nat) : Option store :=
  match shared with
  | none => none
  | some s => (σ.dot s).map (fun d => d.v1_)

/-- The member `shared->v2_` of an optional sharing node (`NULL` is `none`). -/
def State.shared_v2 (σ : State R) (shared : Option Nat) : Option store :=
  match shared with
  | none => none
  | some s => (σ.dot s).map (fun d => d.v2_)

/-- First constructor, `dot_product_vari(vari** v1, vari** v2, size_t length)`:
the pointers are stored as given.  Returns the new node pointer. -/
def dot_product_vari.of_ptrs (σ : State R) (v1 v2 : ptr) (length : Nat) : Nat × State R :=
  σ.record (var_dot_vari σ v1 v2 length)
    (.dot_product { v1_ := .vari_pp v1, v2_ := .vari_pp v2, length_ := length })

/-- Second constructor, `dot_product_vari(const T1* v1, const T2* v2, size_t
length, shared_v1 = NULL, shared_v2 = NULL)`.  The value is computed from the
inputs, then `v1_` and `v2_` are initialized.  (The base constructor records the
node before the body runs; recording touches only the tape and `initialize` only
the arena blocks, so the node is recorded here once its members are known.) -/
def dot_product_vari.of_arrays (σ : State R) (v1 v2 : store) (length : Nat)
    (shared_v1 shared_v2 : Option Nat) : Nat × State R :=
  let x := var_dot σ v1 v2 length
  let r1 := initialize_array σ length v1 (σ.shared_v1 shared_v1)
  let r2 := initialize_array r1.2 length v2 (σ.shared_v2 shared_v2)
  r2.2.record x (.dot_product { v1_ := r1.1, v2_ := r2.1, length_ := length })

/-- Third and fourth constructors (Eigen operands, `shared_v1 = NULL`,
`shared_v2 = NULL`), whose bodies are the same; `length_` is `v1.size()`. -/
def dot_product_vari.of_eigen (σ : State R) (v1 v2 : Eigen.Matrix R)
    (shared_v1 shared_v2 : Option Nat) : Nat × State R :=
  let x := var_dot_eigen σ v1 v2
  let r1 := initialize_eigen σ v1.size v1.data (σ.shared_v1 shared_v1)
  let r2 := initialize_eigen r1.2 v1.size v2.data (σ.shared_v2 shared_v2)
  r2.2.record x (.dot_product { v1_ := r1.1, v2_ := r2.1, length_ := v1.size })

end construction

section chain

variable {R : Type} [CommRing R]

/-- The statement `vi->adj_ += d`. -/
def State.add_adj (σ : State R) (vi : Nat) (d : R) : State R :=
  match σ.var_stack_[vi]? with
  | some n => { σ with var_stack_ := σ.var_stack_.set vi { n with adj_ := n.adj_ + d } }
  | none => σ

/-- The statement `vd.adj() += a * wd.val()` on two arrays of node pointers,
coefficient by coefficient in index order; `a` was read when the expression was
built. -/
def adj_add_val (σ : State R) (a : R) (vd wd : List Nat) : State R :=
  (vd.zip wd).foldl (fun s p => s.add_adj p.1 (a * s.val p.2)) σ

/-- The statement `vd.adj() += a * c` with `c` an array of numbers. -/
def adj_add_dbl (σ : State R) (a : R) (vd : List Nat) (c : List R) : State R :=
  (vd.zip c).foldl (fun s p => s.add_adj p.1 (a * p.2)) σ

/-- Overload `chain(vari** v1, vari** v2)` of the node at `self`. -/
def chain_vari_vari (σ : State R) (self : Nat) (v1 v2 : ptr) (length_ : Nat) : State R :=
  let vd1 := σ.vis v1 length_
  let vd2 := σ.vis v2 length_
  let σ1 := adj_add_val σ (σ.adj self) vd1 vd2
  adj_add_val σ1 (σ1.adj self) vd2 vd1

/-- Overload `chain(double* v1, vari** v2)` of the node at `self`. -/
def chain_double_vari (σ : State R) (self : Nat) (v1 v2 : ptr) (length_ : Nat) : State R :=
  adj_add_dbl σ (σ.adj self) (σ.vis v2 length_) (σ.dbl v1 length_)

/-- Overload `chain(vari** v1, double* v2)` of the node at `self`. -/
def chain_vari_double (σ : State R) (self : Nat) (v1 v2 : ptr) (length_ : Nat) : State R :=
  adj_add_dbl σ (σ.adj self) (σ.vis v1 length_) (σ.dbl v2 length_)

/-- Modelled from the spec: the chain procedure of a scalar operation node (the
operation nodes themselves are in `stan/math/rev`, outside the sources at
hand).  It reads the node's own adjoint and adds into each operand's adjoint
according to the partial-derivative rule of the operation. -/
def chain_op_vari (σ : State R) (self : Nat) (operands : List Nat) (partials : List R) :
    State R :=
  adj_add_dbl σ (σ.adj self) operands partials

/-- The virtual `chain()` of the node at `self`: `chain(v1_, v2_)` for a
dot-product node, resolved by the types of `v1_` and `v2_`; a plain `vari` does
nothing.  (No overload exists for two `double*`; that class is never built.) -/
def chain (σ : State R) (self : Nat) : State R :=
  match σ.op self with
  | .vari => σ
  | .op_vari operands partials => chain_op_vari σ self operands partials
  | .dot_product d =>
    match d.v1_, d.v2_ with
    | .vari_pp v1, .vari_pp v2 => chain_vari_vari σ self v1 v2 d.length_
    | .double_p v1, .vari_pp v2 => chain_double_vari σ self v1 v2 d.length_
    | .vari_pp v1, .double_p v2 => chain_vari_double σ self v1 v2 d.length_
    | .double_p _, .double_p _ => σ

end chain

section entry

variable {R : Type} [CommRing R]

/-- Errors reported to the caller.  `not_vector` and `size_mismatch` are the
shape and length cases of the size-mismatch kind, `domain_error` is the domain
kind; each carries the function and argument names passed to the check. -/
inductive error where
  | not_vector (function name : String)
  | size_mismatch (function name1 name2 : String)
  | domain_error (function name : String)
  deriving DecidableEq, Repr

/-- Modelled from the spec: `check_vector` (in `stan/math/prim/mat/err`, outside
the sources at hand).  An operand must be vector-shaped, a single row or a
single column; a violation is a reported error. -/
def check_vector (function name : String) (x : Eigen.Matrix R) : Except error Unit :=
  if x.rows = 1 ∨ x.cols = 1 then .ok () else .error (.not_vector function name)

/-- Modelled from the spec: `check_matching_sizes` (in `stan/math/prim/arr/err`,
outside the sources at hand).  Operand lengths must match; a mismatch is a
reported error. -/
def check_matching_sizes (function name1 : String) (size1 : Nat) (name2 : String)
    (size2 : Nat) : Except error Unit :=
  if size1 = size2 then .ok () else .error (.size_mismatch function name1 name2)

namespace std

/-- A `std::vector<T>` seen from the callee: the typed pointer `&v[0]` to its
storage and its `size()`. -/
structure vector where
  data : store
  size : Nat
  deriving DecidableEq, Repr

end std

/-- The overload `dot_product(const Eigen::Matrix<T1, R1, C1>&, const
Eigen::Matrix<T2, R2, C2>&)`; it takes part in overload resolution only when
`T1` or `T2` is `var`.  The result is the returned handle or the error thrown,
together with the state the call leaves behind. -/
def dot_product_eigen (σ : State R) (v1 v2 : Eigen.Matrix R) : Except error var × State R :=
  match check_vector "dot_product" "v1" v1 with
  | .error e => (.error e, σ)
  | .ok _ =>
    match check_vector "dot_product" "v2" v2 with
    | .error e => (.error e, σ)
    | .ok _ =>
      match check_matching_sizes "dot_product" "v1" v1.size "v2" v2.size with
      | .error e => (.error e, σ)
      | .ok _ =>
        let r := dot_product_vari.of_eigen σ v1 v2 none none
        (.ok ⟨r.1⟩, r.2)

/-- The overload `dot_product(const T1* v1, const T2* v2, size_t length)`. -/
def dot_product_array (σ : State R) (v1 v2 : store) (length : Nat) : var × State R :=
  let r := dot_product_vari.of_arrays σ v1 v2 length none none
  (⟨r.1⟩, r.2)

/-- The overload `dot_product(const std::vector<T1>&, const std::vector<T2>&)`. -/
def dot_product_vector (σ : State R) (v1 v2 : std.vector) : Except error var × State R :=
  match check_matching_sizes "dot_product" "v1" v1.size "v2" v2.size with
  | .error e => (.error e, σ)
  | .ok _ =>
    let r := dot_product_vari.of_arrays σ v1.data v2.data v1.size none none
    (.ok ⟨r.1⟩, r.2)

/-- Modelled from the spec: step 1 of the gradient driver (in
`stan/math/rev/core`, outside the sources at hand), which zeroes the adjoint of
every node of the session. -/
def State.set_zero_all_adjoints (σ : State R) : State R :=
  { σ with var_stack_ := σ.var_stack_.map (fun n => { n with adj_ := 0 }) }

/-- Modelled from the spec: step 2 of the gradient driver, which sets the
adjoint of the output node to the seed. -/
def State.set_adj (σ : State R) (vi : Nat) (seed : R) : State R :=
  match σ.var_stack_[vi]? with
  | some n => { σ with var_stack_ := σ.var_stack_.set vi { n with adj_ := seed } }
  | none => σ

end entry

/-! ## Elementary functions: `atanh`

The implementations of `atanh` are outside the sources at hand (only their tests
are); they are modelled from the spec.  The scalar is a linearly ordered field,
and the numeric evaluator of the math library is a parameter `f`. -/

section elementary

variable {R : Type} [LinearOrderedField R]

/-- The forward-mode dual `fvar<T>`: a value and a derivative. -/
structure fvar (T : Type) where
  val_ : T
  d_ : T
  deriving DecidableEq, Repr

/-- Modelled from the spec: the plain-numeric overload of `atanh` (in
`stan/math/prim`, outside the sources at hand).  An argument outside (-1, 1) is
reported as a domain error at the numeric-evaluation layer; otherwise the
numeric evaluator `f` gives the value. -/
def atanh (f : R → R) (x : R) : Except error R :=
  if -1 < x ∧ x < 1 then .ok (f x) else .error (.domain_error "atanh" "x")

/-- Modelled from the spec: `atanh` on an integer argument, which is promoted to
the plain numeric type. -/
def atanh_int (f : R → R) (x : Int) : Except error R :=
  atanh f (x : R)

/-- Modelled from the spec: the reverse-mode overload of `atanh` (in
`stan/math/rev`, outside the sources at hand).  The value is evaluated
numerically first, so a domain error is reported before any node is recorded;
otherwise exactly one node is recorded, whose chain applies the analytic
derivative `1 / (1 - x * x)` to the incoming adjoint. -/
def atanh_var (f : R → R) (σ : State R) (a : var) : Except error var × State R :=
  match atanh f (σ.val a.vi_) with
  | .error e => (.error e, σ)
  | .ok y =>
    let r := σ.record y (.op_vari [a.vi_] [1 / (1 - σ.val a.vi_ * σ.val a.vi_)])
    (.ok ⟨r.1⟩, r.2)

/-- Modelled from the spec: the forward-mode overload of `atanh` on a dual of
plain numbers (in `stan/math/fwd`, outside the sources at hand), by the unary
rule `f((a, a')) = (f(a), f'(a) * a')`. -/
def atanh_fvar (f : R → R) (x : fvar R) : Except error (fvar R) :=
  match atanh f x.val_ with
  | .error e => .error e
  | .ok y => .ok ⟨y, 1 / (1 - x.val_ * x.val_) * x.d_⟩

/-- Modelled from the spec: the product of two reverse-mode scalars (operator
overloads are in `stan/math/rev/core`, outside the sources at hand): the
forward value, and one recorded node with the partial derivatives with respect
to both operands. -/
def multiply (σ : State R) (a b : var) : var × State R :=
  let r := σ.record (σ.val a.vi_ * σ.val b.vi_)
    (.op_vari [a.vi_, b.vi_] [σ.val b.vi_, σ.val a.vi_])
  (⟨r.1⟩, r.2)

/-- Modelled from the spec: a plain number minus a reverse-mode scalar. -/
def subtract_dv (σ : State R) (c : R) (a : var) : var × State R :=
  let r := σ.record (c - σ.val a.vi_) (.op_vari [a.vi_] [-1])
  (⟨r.1⟩, r.2)

/-- Modelled from the spec: a plain number divided by a reverse-mode scalar. -/
def divide_dv (σ : State R) (c : R) (a : var) : var × State R :=
  let r := σ.record (c / σ.val a.vi_) (.op_vari [a.vi_] [-c / (σ.val a.vi_ * σ.val a.vi_)])
  (⟨r.1⟩, r.2)

/-- Modelled from the spec: the forward-over-reverse overload of `atanh`, on a
dual of reverse-mode scalars.  The same unary rule, with the arithmetic of the
component type: the value is `atanh` of the reverse-mode value, the derivative is
`f'(a) * a'` with `f'(a) = 1 / (1 - a * a)` built from reverse-mode operations. -/
def atanh_fvar_var (f : R → R) (σ : State R) (x : fvar var) :
    Except error (fvar var) × State R :=
  match atanh_var f σ x.val_ with
  | (.error e, σ1) => (.error e, σ1)
  | (.ok y, σ1) =>
    let sq := multiply σ1 x.val_ x.val_
    let den := subtract_dv sq.2 1 sq.1
    let fp := divide_dv den.2 1 den.1
    let t := multiply fp.2 fp.1 x.d_
    (.ok ⟨y, t.1⟩, t.2)

end elementary

section notions

variable {R : Type} [CommRing R]

/-- The value of element `i` of an operand array: the value of the node it
points to for `var` elements, the number itself for `double` elements. -/
def State.value_at (σ : State R) : block R → Nat → R
  | .vis ps, i =>
    match ps[i]? with
    | some p => σ.val p
    | none => 0
  | .dbl ds, i =>
    match ds[i]? with
    | some d => d
    | none => 0

/-- The node pointers among the elements of an operand array (none for numbers). -/
def block.nodes {R : Type} : block R → List Nat
  | .vis ps => ps
  | .dbl _ => []

/-- What `vd.adj() += a * c` adds to the adjoint of node `q`: `a * c[i]` for every
position `i` of `vd` that holds `q`. -/
def contrib (a : R) (q : Nat) (vd : List Nat) (c : List R) : R :=
  ((vd.zip c).map (fun p => if p.1 = q then a * p.2 else 0)).sum

/-- The typed pointer `s` points to the array `b`, of its element type. -/
def State.holds (σ : State R) (s : store) (b : block R) : Prop :=
  σ.load s.addr = some b ∧ s.is_var = b.is_var

end notions

section returns

variable {R : Type} [CommRing R]

/-- The pair `r` (handle, state left behind) is what a successful call of one of
the three `dot_product` overloads returns in state `σ` on operands whose
coefficient arrays are `b1` and `b2`, of `n` elements each: the raw-array
overload on pointers to such arrays, the `std::vector` overload on vectors with
that storage and size, or the Eigen overload on matrices with those coefficients. -/
def dot_product_returns (σ : State R) (b1 b2 : block R) (n : Nat) (r : var × State R) : Prop :=
  (∃ v1 v2 : store, σ.holds v1 b1 ∧ σ.holds v2 b2 ∧ dot_product_array σ v1 v2 n = r)
  ∨ (∃ v1 v2 : std.vector, σ.holds v1.data b1 ∧ σ.holds v2.data b2 ∧ v1.size = n
      ∧ dot_product_vector σ v1 v2 = (.ok r.1, r.2))
  ∨ (∃ m1 m2 : Eigen.Matrix R, m1.data = b1 ∧ m2.data = b2 ∧ m1.size = n
      ∧ dot_product_eigen σ m1 m2 = (.ok r.1, r.2))

/-- Seed the output adjoint of the node just built (the pair a constructor
returns) with `a` and run its `chain()`. -/
def seed_and_chain (r : Nat × State R) (a : R) : State R :=
  chain (r.2.set_adj r.1 a) r.1

/-- The node pointers read through one member of a dot-product node of length
`k` (none through a `double*`). -/
def State.side (σ : State R) (s : store) (k : Nat) : List Nat :=
  match s with
  | .vari_pp p => σ.vis p k
  | .double_p _ => []

/-- The node pointers a dot-product node reads through its members. -/
def State.operands (σ : State R) (d : dot_product_vari) : List Nat :=
  σ.side d.v1_ d.length_ ++ σ.side d.v2_ d.length_

/-- The operand references of the node at `vi`. -/
def State.refs (σ : State R) (vi : Nat) : List Nat :=
  match σ.op vi with
  | .vari => []
  | .op_vari operands _ => operands
  | .dot_product d => σ.operands d

/-- The topological-order invariant of the tape: operand nodes appear earlier in
the sequence than the nodes that reference them (and the arrays a dot-product
node points to exist). -/
def State.topological (σ : State R) : Prop :=
  ∀ self, (∀ p ∈ σ.refs self, p < self)
    ∧ ∀ d, σ.dot self = some d →
        (σ.load d.v1_.addr).isSome = true ∧ (σ.load d.v2_.addr).isSome = true

end returns

section examples

/-- A state over the integers: four leaf nodes with values 2, 3, 5, 7 and three
caller-owned arrays, two of handles and one of numbers. -/
def σ0 : State Int :=
  { var_stack_ := [⟨2, 0, .vari⟩, ⟨3, 0, .vari⟩, ⟨5, 0, .vari⟩, ⟨7, 0, .vari⟩],
    memalloc_ := [],
    heap := [.vis [0, 1], .vis [2, 3], .dbl [4, 6]] }

/-- A state over the integers holding a dot-product node of two handle arrays:
leaves valued 2, 3, 5, 7 with adjoints 10, 20, 30, 40 and, at position 4, the
node of `[0, 1]` against `[2, 3]` with adjoint 6. -/
def σ1 : State Int :=
  { var_stack_ := [⟨2, 10, .vari⟩, ⟨3, 20, .vari⟩, ⟨5, 30, .vari⟩, ⟨7, 40, .vari⟩,
      ⟨31, 6, .dot_product ⟨.vari_pp (.arena 0), .vari_pp (.arena 1), 2⟩⟩],
    memalloc_ := [.vis [0, 1], .vis [2, 3]],
    heap := [] }

/-- A state over the integers holding a dot-product node of a numeric array
against a handle array: leaves valued 2, 3, 5 and, at position 3, the node of
the numbers `[4, 6]` against the handles `[0, 1]`, with adjoint 6. -/
def σ2 : State Int :=
  { var_stack_ := [⟨2, 10, .vari⟩, ⟨3, 20, .vari⟩, ⟨5, 30, .vari⟩,
      ⟨26, 6, .dot_product ⟨.double_p (.arena 1), .vari_pp (.arena 0), 2⟩⟩],
    memalloc_ := [.vis [0, 1], .dbl [4, 6]],
    heap := [] }

/-- A state over the integers with one leaf node valued 3 and one caller-owned
array holding a handle to it. -/
def σ3 : State Int :=
  { var_stack_ := [⟨3, 0, .vari⟩], memalloc_ := [], heap := [.vis [0]] }

/-- The dot product of that array with itself, `dot_product(v, v)`. -/
def r3 : var × State Int :=
  dot_product_array σ3 (.vari_pp (.heap 0)) (.vari_pp (.heap 0)) 1

/-- The dot product of the two handle arrays of `σ0`. -/
def r0 : var × State Int :=
  dot_product_array σ0 (.vari_pp (.heap 0)) (.vari_pp (.heap 1)) 2

/-- The node of `[0, 1]` against the numbers `[4, 6]` built by the raw-array
constructor in `σ0`. -/
def r8 : Nat × State Int :=
  dot_product_vari.of_arrays σ0 (.vari_pp (.heap 0)) (.double_p (.heap 2)) 2 none none

/-- The state `r8` left, after the caller has overwritten both input arrays. -/
def τ8 : State Int :=
  { var_stack_ := r8.2.var_stack_,
    memalloc_ := r8.2.memalloc_,
    heap := [.vis [3, 3], .vis [2, 3], .dbl [100, 200]] }

/-- The state `r8` left, after the caller has overwritten the handle array at
heap address 0, from which node 4 took its snapshot `[0, 1]`, with `[2, 3]`. -/
def τ7 : State Int :=
  { var_stack_ := r8.2.var_stack_,
    memalloc_ := r8.2.memalloc_,
    heap := [.vis [2, 3], .vis [2, 3], .dbl [4, 6]] }

/-- The node of the handle arrays `[0, 1]` and `[2, 3]` of `σ0` built by the
first constructor, which stores the two pointers as given. -/
def r_ptrs : Nat × State Int :=
  dot_product_vari.of_ptrs σ0 (.heap 0) (.heap 1) 2

/-- The state `r_ptrs` left, after the caller has replaced element 0 of the
first handle array by a handle to node 3. -/
def τ_ptrs : State Int :=
  { var_stack_ := r_ptrs.2.var_stack_,
    memalloc_ := r_ptrs.2.memalloc_,
    heap := [.vis [3, 1], .vis [2, 3], .dbl [4, 6]] }

end examples

section aliasing

variable {R : Type} [CommRing R]

/-- The sum of the partner values over all occurrences of node `q` among the
operands `ps`, `qs` of a dot product, under the value assignment `v`: `v(qs[i])`
for every position `i` with `ps[i] = q`, and `v(ps[i])` for every position `i`
with `qs[i] = q`. -/
def partner_sum (v : Nat → R) (q : Nat) (ps qs : List Nat) : R :=
  contrib 1 q ps (qs.map v) + contrib 1 q qs (ps.map v)

/-- The number of positions at which both operands hold node `q`. -/
def both_count (q : Nat) (ps qs : List Nat) : R :=
  ((ps.zip qs).map (fun p => if p.1 = q ∧ p.2 = q then (1 : R) else 0)).sum

/-- A state over the reals holding the node of `dot_product(v, v)` for `v = [x]`:
the leaf `x` valued 3 with adjoint 10, and at position 1 the dot-product node,
valued 9 with adjoint 5, whose two snapshots both hold the handle of `x`. -/
def σ17 : State ℝ :=
  { var_stack_ := [⟨3, 10, .vari⟩,
      ⟨9, 5, .dot_product ⟨.vari_pp (.arena 0), .vari_pp (.arena 1), 1⟩⟩],
    memalloc_ := [.vis [0], .vis [0]],
    heap := [] }

end aliasing

/-! ## `log_sum_exp` (`stan/math/prim/fun/log_sum_exp.hpp`)

The library functions `std::exp`, `std::log` and the helper `log1p_exp` (whose
header is outside the sources at hand) are parameters.  A `double` that may be
negative infinity is a `WithBot R`, with `⊥` for negative infinity. -/

section log_sum_exp

variable {R : Type} [LinearOrderedField R]

/-- The two-argument overload `log_sum_exp(const T2& a, const T1& b)`. -/
def log_sum_exp (log1p_exp : R → R) (a b : R) : R :=
  if a > b then a + log1p_exp (b - a) else b + log1p_exp (a - b)

/-- One step of the loop `if (xx > max) max = xx;`. -/
def max_step (max xx : WithBot R) : WithBot R :=
  if xx > max then xx else max

/-- One step of the loop `if (x[ii] != -infinity) sum += exp(x[ii] - max);`.  The
difference is taken when both are finite; an element that is not negative
infinity never meets a negative-infinite `max`, which is at least that element. -/
def sum_step (exp : R → R) (max : WithBot R) (sum : R) (xi : WithBot R) : R :=
  match xi, max with
  | some v, some m => sum + exp (v - m)
  | some _, none => sum
  | none, _ => sum

/-- The return value `max + log(sum)`; with `max` negative infinity the sum is 0
and the result is negative infinity. -/
def max_plus_log (log : R → R) (max : WithBot R) (sum : R) : WithBot R :=
  match max with
  | some m => some (m + log sum)
  | none => none

/-- The overload `log_sum_exp(const std::vector<double>& x)`. -/
def log_sum_exp_vector (exp log : R → R) (x : List (WithBot R)) : WithBot R :=
  let max := x.foldl max_step ⊥
  let sum := x.foldl (sum_step exp max) 0
  max_plus_log log max sum

/-- The overload `log_sum_exp(const Eigen::Matrix<double, R, C>& x)`, on a matrix
seen through its `size()` and its linear coefficient access `x(i)`. -/
def log_sum_exp_matrix (exp log : R → R) (size : Nat) (x : Nat → WithBot R) : WithBot R :=
  let max := (List.range size).foldl (fun m i => max_step m (x i)) ⊥
  let sum := (List.range size).foldl (fun s i => sum_step exp max s (x i)) 0
  max_plus_log log max sum

end log_sum_exp

/-! ## `sort_indices_desc` and `sort_indices_asc`

Both forward to the function template `sort_indices<ascending>`, whose header
(`stan/math/prim/fun/sort_indices.hpp`) is outside the sources at hand; it is a
parameter, applied to the template argument and the container.  The result type
`std::vector<int>` is a list of integers. -/

section sort_indices

variable {α : Type}

/-- The function `sort_indices_desc(const C& xs)`: `return sort_indices<false>(xs);`. -/
def sort_indices_desc (sort_indices : Bool → List α → List Int) (xs : List α) : List Int :=
  sort_indices false xs

/-- The function `sort_indices_asc(const C& xs)`: `return sort_indices<true>(xs);`. -/
def sort_indices_asc (sort_indices : Bool → List α → List Int) (xs : List α) : List Int :=
  sort_indices true xs

end sort_indices

/-! ## Elementary functions: `asinh`, scalar arithmetic and the gradient driver

Like `atanh`, the implementations of `asinh`, of the arithmetic of reverse-mode
scalars and of forward-mode duals, and of the gradient driver are outside the
sources at hand; they are modelled from the spec.  The numeric evaluators of the
math library (`atanh`, `asinh`, `sqrt`) are the parameters `f`, `g`, `rt`. -/

section elementary_asinh

variable {R : Type} [LinearOrderedField R]

/-- Modelled from the spec: the plain-numeric overload of `asinh` (in
`stan/math/prim`, outside the sources at hand); every number is in its domain
and the numeric evaluator `g` gives the value. -/
def asinh (g : R → R) (x : R) : R := g x

/-- Modelled from the spec: the sum of two reverse-mode scalars (operator
overloads are in `stan/math/rev/core`, outside the sources at hand): the
forward value, and one recorded node with the partial derivatives. -/
def add_vv (σ : State R) (a b : var) : var × State R :=
  let r := σ.record (σ.val a.vi_ + σ.val b.vi_) (.op_vari [a.vi_, b.vi_] [1, 1])
  (⟨r.1⟩, r.2)

/-- Modelled from the spec: a plain number plus a reverse-mode scalar. -/
def add_dv (σ : State R) (c : R) (a : var) : var × State R :=
  let r := σ.record (c + σ.val a.vi_) (.op_vari [a.vi_] [1])
  (⟨r.1⟩, r.2)

/-- Modelled from the spec: the square root of a reverse-mode scalar, with the
analytic derivative `1 / (2 * sqrt(a))`. -/
def sqrt_var (rt : R → R) (σ : State R) (a : var) : var × State R :=
  let r := σ.record (rt (σ.val a.vi_)) (.op_vari [a.vi_] [1 / (2 * rt (σ.val a.vi_))])
  (⟨r.1⟩, r.2)

/-- Modelled from the spec: the reverse-mode overload of `asinh` (in
`stan/math/rev`, outside the sources at hand): exactly one node is recorded,
whose chain applies the analytic derivative `1 / sqrt(1 + x * x)` to the incoming
adjoint. -/
def asinh_var (g rt : R → R) (σ : State R) (a : var) : var × State R :=
  let r := σ.record (asinh g (σ.val a.vi_))
    (.op_vari [a.vi_] [1 / rt (1 + σ.val a.vi_ * σ.val a.vi_)])
  (⟨r.1⟩, r.2)

/-- Modelled from the spec: the forward-mode overload of `asinh` on a dual of
plain numbers, by the unary rule `f((a, a')) = (f(a), f'(a) * a')`. -/
def asinh_fvar (g rt : R → R) (x : fvar R) : fvar R :=
  ⟨asinh g x.val_, 1 / rt (1 + x.val_ * x.val_) * x.d_⟩

/-- Modelled from the spec: the forward-over-reverse overload of `asinh`, on a
dual of reverse-mode scalars: the value is `asinh` of the reverse-mode value, the
derivative is `f'(a) * a'` with `f'(a) = 1 / sqrt(1 + a * a)` built from
reverse-mode operations. -/
def asinh_fvar_var (g rt : R → R) (σ : State R) (x : fvar var) : fvar var × State R :=
  let y := asinh_var g rt σ x.val_
  let sq := multiply y.2 x.val_ x.val_
  let s1 := add_dv sq.2 1 sq.1
  let r := sqrt_var rt s1.2 s1.1
  let fp := divide_dv r.2 1 r.1
  let t := multiply fp.2 fp.1 x.d_
  (⟨y.1, t.1⟩, t.2)

end elementary_asinh

section driver

variable {R : Type} [CommRing R]

/-- Modelled from the spec: step 3 of the gradient driver, which visits the
given nodes in order and invokes the chain procedure of each. -/
def sweep (σ : State R) (nodes : List Nat) : State R :=
  nodes.foldl chain σ

/-- Modelled from the spec: the gradient driver (in `stan/math/rev/core`, outside
the sources at hand).  Every adjoint is zeroed, the adjoint of the output node
is seeded with 1, and the nodes are visited in strict reverse creation order;
afterwards the adjoint of an input node is the partial derivative of the output
with respect to it. -/
def grad (σ : State R) (output : Nat) : State R :=
  sweep ((σ.set_zero_all_adjoints).set_adj output 1) (List.range σ.var_stack_.length).reverse

end driver

section elementary_examples

/-- A tape over the rationals with two independent variables, valued 1 / 2 and
13 / 10: the value and the tangent of the dual built in the `atanh` tests. -/
def σ11 : State ℚ :=
  { var_stack_ := [⟨1 / 2, 0, .vari⟩, ⟨13 / 10, 0, .vari⟩], memalloc_ := [], heap := [] }

end elementary_examples

/-! ## Nested duals

The forward-mode dual is generic in its component type: `fvar<double>`,
`fvar<var>`, `fvar<fvar<var>>`.  Its arithmetic is outside the sources at hand
and is modelled from the spec, as a construction that turns the operations of a
scalar kind into the operations of the dual over it. -/

section nested

variable {R : Type} [LinearOrderedField R]

/-- Modelled from the spec: the operations of a scalar kind `T` that the unary
rules of `asinh` and `atanh` use.  Every operation runs against the tape, since
for reverse-mode scalars it records a node; `c` stands for a plain number. -/
structure scalar_ops (R : Type) (T : Type) where
  /-- The sum `a + b`. -/
  add : State R → T → T → T × State R
  /-- The product `a * b`. -/
  mul : State R → T → T → T × State R
  /-- The sum `c + a`. -/
  add_d : State R → R → T → T × State R
  /-- The difference `c - a`. -/
  sub_d : State R → R → T → T × State R
  /-- The quotient `c / a`. -/
  div_d : State R → R → T → T × State R
  /-- The square root. -/
  sqrt : State R → T → T × State R
  /-- The inverse hyperbolic tangent, which may report a domain error. -/
  atanh : State R → T → Except error T × State R
  /-- The inverse hyperbolic sine. -/
  asinh : State R → T → T × State R

/-- Modelled from the spec: the operations on plain numbers; the tape is not
involved. -/
def double_ops (f g rt : R → R) : scalar_ops R R where
  add σ a b := (a + b, σ)
  mul σ a b := (a * b, σ)
  add_d σ c a := (c + a, σ)
  sub_d σ c a := (c - a, σ)
  div_d σ c a := (c / a, σ)
  sqrt σ a := (rt a, σ)
  atanh σ a := (stan.math.atanh f a, σ)
  asinh σ a := (stan.math.asinh g a, σ)

/-- Modelled from the spec: the operations on reverse-mode scalars, each
recording one node. -/
def var_ops (f g rt : R → R) : scalar_ops R var where
  add := add_vv
  mul := multiply
  add_d := add_dv
  sub_d := subtract_dv
  div_d := divide_dv
  sqrt := sqrt_var rt
  atanh := atanh_var f
  asinh := asinh_var g rt

/-- Modelled from the spec: the operations on duals over a scalar kind with
operations `o`, by the rules `(a, a') + (b, b') = (a + b, a' + b')`,
`(a, a') * (b, b') = (a * b, a' * b + a * b')` and, for a unary function,
`f((a, a')) = (f(a), f'(a) * a')`, every component computed with `o`. -/
def fvar_ops {T : Type} (o : scalar_ops R T) : scalar_ops R (fvar T) where
  add σ a b :=
    let v := o.add σ a.val_ b.val_
    let d := o.add v.2 a.d_ b.d_
    (⟨v.1, d.1⟩, d.2)
  mul σ a b :=
    let v := o.mul σ a.val_ b.val_
    let l := o.mul v.2 a.d_ b.val_
    let r := o.mul l.2 a.val_ b.d_
    let d := o.add r.2 l.1 r.1
    (⟨v.1, d.1⟩, d.2)
  add_d σ c a :=
    let v := o.add_d σ c a.val_
    (⟨v.1, a.d_⟩, v.2)
  sub_d σ c a :=
    let v := o.sub_d σ c a.val_
    let d := o.sub_d v.2 0 a.d_
    (⟨v.1, d.1⟩, d.2)
  div_d σ c a :=
    let v := o.div_d σ c a.val_
    let sq := o.mul v.2 a.val_ a.val_
    let k := o.div_d sq.2 (-c) sq.1
    let d := o.mul k.2 k.1 a.d_
    (⟨v.1, d.1⟩, d.2)
  sqrt σ a :=
    let v := o.sqrt σ a.val_
    let k := o.div_d v.2 (1 / 2) v.1
    let d := o.mul k.2 k.1 a.d_
    (⟨v.1, d.1⟩, d.2)
  atanh σ a :=
    match o.atanh σ a.val_ with
    | (.error e, σ1) => (.error e, σ1)
    | (.ok y, σ1) =>
      let sq := o.mul σ1 a.val_ a.val_
      let den := o.sub_d sq.2 1 sq.1
      let fp := o.div_d den.2 1 den.1
      let t := o.mul fp.2 fp.1 a.d_
      (.ok ⟨y, t.1⟩, t.2)
  asinh σ a :=
    let y := o.asinh σ a.val_
    let sq := o.mul y.2 a.val_ a.val_
    let s1 := o.add_d sq.2 1 sq.1
    let r := o.sqrt s1.2 s1.1
    let fp := o.div_d r.2 1 r.1
    let t := o.mul fp.2 fp.1 a.d_
    (⟨y.1, t.1⟩, t.2)

/-- The tape of `τ` extends the tape of `σ`: the nodes of `σ` are still there,
unchanged, and nodes may have been recorded after them. -/
def State.extended_by (σ τ : State R) : Prop :=
  ∃ l, τ.var_stack_ = σ.var_stack_ ++ l

/-- The reverse-mode scalar `a` is a node of the tape of `σ` and its value is
`w`. -/
def var.has (σ : State R) (a : var) (w : R) : Prop :=
  a.vi_ < σ.var_stack_.length ∧ σ.val a.vi_ = w

/-- The components of the dual `a` have the values of the components of `w`. -/
def fvar.has {T V : Type} (h : State R → T → V → Prop) (σ : State R) (a : fvar T)
    (w : fvar V) : Prop :=
  h σ a.val_ w.val_ ∧ h σ a.d_ w.d_

/-- The operations `o` on handles compute what the operations `p` compute on
values: from operands that have the values `wa`, `wb` the operation of `o`
extends the tape and returns a handle that has the value the operation of `p`
returns; and what a handle has, it keeps when the tape is extended. -/
structure sim {T V : Type} (o : scalar_ops R T) (p : scalar_ops R V)
    (h : State R → T → V → Prop) : Prop where
  /-- What a handle has, it keeps when the tape is extended. -/
  mono : ∀ σ τ a w, σ.extended_by τ → h σ a w → h τ a w
  /-- The sum. -/
  add : ∀ σ σ' a b wa wb, h σ a wa → h σ b wb →
    σ.extended_by (o.add σ a b).2 ∧ h (o.add σ a b).2 (o.add σ a b).1 (p.add σ' wa wb).1
  /-- The product. -/
  mul : ∀ σ σ' a b wa wb, h σ a wa → h σ b wb →
    σ.extended_by (o.mul σ a b).2 ∧ h (o.mul σ a b).2 (o.mul σ a b).1 (p.mul σ' wa wb).1
  /-- The sum with a plain number. -/
  add_d : ∀ σ σ' c a wa, h σ a wa →
    σ.extended_by (o.add_d σ c a).2
      ∧ h (o.add_d σ c a).2 (o.add_d σ c a).1 (p.add_d σ' c wa).1
  /-- The difference from a plain number. -/
  sub_d : ∀ σ σ' c a wa, h σ a wa →
    σ.extended_by (o.sub_d σ c a).2
      ∧ h (o.sub_d σ c a).2 (o.sub_d σ c a).1 (p.sub_d σ' c wa).1
  /-- The quotient of a plain number. -/
  div_d : ∀ σ σ' c a wa, h σ a wa →
    σ.extended_by (o.div_d σ c a).2
      ∧ h (o.div_d σ c a).2 (o.div_d σ c a).1 (p.div_d σ' c wa).1
  /-- The square root. -/
  sqrt : ∀ σ σ' a wa, h σ a wa →
    σ.extended_by (o.sqrt σ a).2 ∧ h (o.sqrt σ a).2 (o.sqrt σ a).1 (p.sqrt σ' wa).1
  /-- The inverse hyperbolic tangent, where it is defined on the value. -/
  atanh : ∀ σ σ' a wa w, h σ a wa → (p.atanh σ' wa).1 = .ok w →
    ∃ y, (o.atanh σ a).1 = .ok y ∧ σ.extended_by (o.atanh σ a).2 ∧ h (o.atanh σ a).2 y w
  /-- The inverse hyperbolic sine. -/
  asinh : ∀ σ σ' a wa, h σ a wa →
    σ.extended_by (o.asinh σ a).2 ∧ h (o.asinh σ a).2 (o.asinh σ a).1 (p.asinh σ' wa).1

end nested

section nested_examples

/-- A tape over the rationals with four independent variables valued 1 / 2, 1,
0, 0: the components of the dual of duals built in the `atanh` test. -/
def σ13 : State ℚ :=
  { var_stack_ := [⟨1 / 2, 0, .vari⟩, ⟨1, 0, .vari⟩, ⟨0, 0, .vari⟩, ⟨0, 0, .vari⟩],
    memalloc_ := [], heap := [] }

end nested_examples

/-! ## Properties -/

section lemmas

variable {R : Type} [CommRing R]

theorem dot_nil_left (b : List R) : dot ([] : List R) b = 0 := by
  simp [dot]

theorem dot_cons (x y : R) (a b : List R) : dot (x :: a) (y :: b) = x * y + dot a b := by
  simp [dot]

/-- Eigen's dot product of two coefficient lists of length `n` is the indexed sum. -/
theorem dot_eq_sum (n : Nat) : ∀ (a b : List R), a.length = n → b.length = n →
    dot a b = ∑ i in Finset.range n, a.getD i 0 * b.getD i 0 := by
  induction n with
  | zero =>
    intro a b ha hb
    have : a = [] := List.length_eq_zero.mp ha
    subst this
    simp [dot]
  | succ n ih =>
    intro a b ha hb
    match a, b, ha, hb with
    | x :: a, y :: b, ha, hb =>
      have ha1 : a.length = n := by simpa using ha
      have hb1 : b.length = n := by simpa using hb
      rw [dot_cons, Finset.sum_range_succ', ih a b ha1 hb1]
      simp [add_comm]

theorem val_record (σ : State R) (x : R) (ext : chainable R) :
    (σ.record x ext).2.val (σ.record x ext).1 = x := by
  simp [State.record, State.val]

theorem value_at_eq (σ : State R) (b : block R) (i : Nat) :
    σ.value_at b i = (σ.block_val b).getD i 0 := by
  cases b with
  | vis ps =>
    simp only [State.value_at, State.block_val, List.getD_eq_getElem?_getD, List.getElem?_map]
    cases ps[i]? <;> rfl
  | dbl ds =>
    simp only [State.value_at, State.block_val, List.getD_eq_getElem?_getD]
    cases ds[i]? <;> rfl

theorem length_block_val (σ : State R) (b : block R) : (σ.block_val b).length = b.size := by
  cases b <;> simp [State.block_val, block.size]

theorem val_of_holds (σ : State R) (s : store) (b : block R) (n : Nat) (h : σ.holds s b) :
    σ.val_of s n = (σ.block_val b).take n := by
  obtain ⟨hl, ht⟩ := h
  cases s with
  | vari_pp p =>
    cases b with
    | vis ps =>
      simp only [store.addr] at hl
      simp [State.val_of, State.vis, hl, State.block_val, List.map_take]
    | dbl ds => simp [store.is_var, block.is_var] at ht
  | double_p p =>
    cases b with
    | vis ps => simp [store.is_var, block.is_var] at ht
    | dbl ds =>
      simp only [store.addr] at hl
      simp [State.val_of, State.dbl, hl, State.block_val]

theorem getD_take_of_lt (l : List R) (n i : Nat) (h : i < n) :
    (l.take n).getD i 0 = l.getD i 0 := by
  simp [List.getD_eq_getElem?_getD, List.getElem?_take, h]

/-- The dot product of the first `n` values of two operand arrays is the indexed
sum of the products of their element values. -/
theorem dot_take_eq_sum (σ : State R) (b1 b2 : block R) (n : Nat)
    (h1 : n ≤ b1.size) (h2 : n ≤ b2.size) :
    dot ((σ.block_val b1).take n) ((σ.block_val b2).take n)
      = ∑ i in Finset.range n, σ.value_at b1 i * σ.value_at b2 i := by
  rw [dot_eq_sum n _ _ (by simp [length_block_val, h1]) (by simp [length_block_val, h2])]
  refine Finset.sum_congr rfl ?_
  intro i hi
  have hi1 : i < n := Finset.mem_range.mp hi
  rw [getD_take_of_lt _ _ _ hi1, getD_take_of_lt _ _ _ hi1, value_at_eq, value_at_eq]

end lemmas


section memory_lemmas

variable {R : Type}

theorem dot_lt_length (σ : State R) (self : Nat) (d : dot_product_vari)
    (h : σ.dot self = some d) : self < σ.var_stack_.length := by
  unfold State.dot at h
  cases hs : σ.var_stack_[self]? with
  | none => simp [hs] at h
  | some n => exact (List.getElem?_eq_some_iff.mp hs).1

theorem op_of_dot (σ : State R) (self : Nat) (d : dot_product_vari)
    (h : σ.dot self = some d) : σ.op self = .dot_product d := by
  unfold State.dot at h
  unfold State.op
  cases hs : σ.var_stack_[self]? with
  | none => simp [hs] at h
  | some n =>
    simp only [hs, vari.dot] at h ⊢
    cases ho : n.op with
    | vari => simp [ho] at h
    | op_vari a b => simp [ho] at h
    | dot_product d1 =>
      simp only [ho, Option.some.injEq] at h
      rw [h]

theorem vis_of_holds (σ : State R) (p : ptr) (ps : List Nat) (n : Nat)
    (h : σ.holds (.vari_pp p) (.vis ps)) (hn : ps.length = n) : σ.vis p n = ps := by
  have hl : σ.load p = some (.vis ps) := h.1
  simp [State.vis, hl, ← hn]

theorem dbl_of_holds (σ : State R) (p : ptr) (ds : List R) (n : Nat)
    (h : σ.holds (.double_p p) (.dbl ds)) (hn : ds.length = n) : σ.dbl p n = ds := by
  have hl : σ.load p = some (.dbl ds) := h.1
  simp [State.dbl, hl, ← hn]

end memory_lemmas

section chain_lemmas
variable {R : Type} [CommRing R]

theorem add_adj_length (σ : State R) (p : Nat) (d : R) :
    (σ.add_adj p d).var_stack_.length = σ.var_stack_.length := by
  unfold State.add_adj
  cases σ.var_stack_[p]? <;> simp

theorem add_adj_memalloc (σ : State R) (p : Nat) (d : R) :
    (σ.add_adj p d).memalloc_ = σ.memalloc_ := by
  unfold State.add_adj
  cases σ.var_stack_[p]? <;> rfl

theorem add_adj_heap (σ : State R) (p : Nat) (d : R) :
    (σ.add_adj p d).heap = σ.heap := by
  unfold State.add_adj
  cases σ.var_stack_[p]? <;> rfl

theorem add_adj_val (σ : State R) (p : Nat) (d : R) (q : Nat) :
    (σ.add_adj p d).val q = σ.val q := by
  unfold State.add_adj
  cases h : σ.var_stack_[p]? with
  | none => rfl
  | some n =>
    simp only [State.val, List.getElem?_set]
    by_cases hpq : p = q
    · subst hpq
      have hp : p < σ.var_stack_.length := by
        rcases List.getElem?_eq_some_iff.mp h with ⟨hp, _⟩
        exact hp
      simp [hp, h]
    · simp [hpq]

theorem add_adj_dot (σ : State R) (p : Nat) (d : R) (q : Nat) :
    (σ.add_adj p d).dot q = σ.dot q := by
  unfold State.add_adj
  cases h : σ.var_stack_[p]? with
  | none => rfl
  | some n =>
    simp only [State.dot, List.getElem?_set]
    by_cases hpq : p = q
    · subst hpq
      have hp : p < σ.var_stack_.length := by
        rcases List.getElem?_eq_some_iff.mp h with ⟨hp, _⟩
        exact hp
      simp [hp, h, vari.dot]
    · simp [hpq]

theorem add_adj_adj (σ : State R) (p : Nat) (d : R) (q : Nat)
    (hq : q < σ.var_stack_.length) :
    (σ.add_adj p d).adj q = σ.adj q + (if p = q then d else 0) := by
  unfold State.add_adj
  cases h : σ.var_stack_[p]? with
  | none =>
    have hp : σ.var_stack_.length ≤ p := List.getElem?_eq_none_iff.mp h
    have hpq : p ≠ q := by omega
    simp [hpq]
  | some n =>
    simp only [State.adj, List.getElem?_set]
    by_cases hpq : p = q
    · subst hpq
      simp [hq, h]
    · simp [hpq]


theorem adj_add_dbl_nil (σ : State R) (a : R) (c : List R) : adj_add_dbl σ a [] c = σ := by
  simp [adj_add_dbl]

theorem adj_add_dbl_nil_right (σ : State R) (a : R) (vd : List Nat) :
    adj_add_dbl σ a vd [] = σ := by
  simp [adj_add_dbl]

theorem adj_add_dbl_cons (σ : State R) (a : R) (p : Nat) (vd : List Nat) (x : R) (c : List R) :
    adj_add_dbl σ a (p :: vd) (x :: c) = adj_add_dbl (σ.add_adj p (a * x)) a vd c := by
  simp [adj_add_dbl]

/-- Values are not written by `add_adj`, so reading them lazily or up front is the same. -/
theorem adj_add_val_eq (a : R) (vd : List Nat) : ∀ (wd : List Nat) (σ : State R),
    adj_add_val σ a vd wd = adj_add_dbl σ a vd (wd.map σ.val) := by
  induction vd with
  | nil => intro wd σ; simp [adj_add_val, adj_add_dbl]
  | cons p vd ih =>
    intro wd σ
    cases wd with
    | nil => simp [adj_add_val, adj_add_dbl]
    | cons w wd =>
      have hv : (σ.add_adj p (a * σ.val w)).val = σ.val := funext (add_adj_val σ p _)
      have step : adj_add_val σ a (p :: vd) (w :: wd)
          = adj_add_val (σ.add_adj p (a * σ.val w)) a vd wd := by
        simp [adj_add_val]
      rw [step, ih wd, hv, List.map_cons, adj_add_dbl_cons]

theorem adj_add_dbl_length (a : R) (vd : List Nat) : ∀ (c : List R) (σ : State R),
    (adj_add_dbl σ a vd c).var_stack_.length = σ.var_stack_.length := by
  induction vd with
  | nil => intro c σ; rw [adj_add_dbl_nil]
  | cons p vd ih =>
    intro c σ
    cases c with
    | nil => rw [adj_add_dbl_nil_right]
    | cons x c => rw [adj_add_dbl_cons, ih, add_adj_length]

theorem adj_add_dbl_memalloc (a : R) (vd : List Nat) : ∀ (c : List R) (σ : State R),
    (adj_add_dbl σ a vd c).memalloc_ = σ.memalloc_ := by
  induction vd with
  | nil => intro c σ; rw [adj_add_dbl_nil]
  | cons p vd ih =>
    intro c σ
    cases c with
    | nil => rw [adj_add_dbl_nil_right]
    | cons x c => rw [adj_add_dbl_cons, ih, add_adj_memalloc]

theorem adj_add_dbl_heap (a : R) (vd : List Nat) : ∀ (c : List R) (σ : State R),
    (adj_add_dbl σ a vd c).heap = σ.heap := by
  induction vd with
  | nil => intro c σ; rw [adj_add_dbl_nil]
  | cons p vd ih =>
    intro c σ
    cases c with
    | nil => rw [adj_add_dbl_nil_right]
    | cons x c => rw [adj_add_dbl_cons, ih, add_adj_heap]

theorem adj_add_dbl_val (a : R) (vd : List Nat) (q : Nat) : ∀ (c : List R) (σ : State R),
    (adj_add_dbl σ a vd c).val q = σ.val q := by
  induction vd with
  | nil => intro c σ; rw [adj_add_dbl_nil]
  | cons p vd ih =>
    intro c σ
    cases c with
    | nil => rw [adj_add_dbl_nil_right]
    | cons x c => rw [adj_add_dbl_cons, ih, add_adj_val]

theorem adj_add_dbl_dot (a : R) (vd : List Nat) (q : Nat) : ∀ (c : List R) (σ : State R),
    (adj_add_dbl σ a vd c).dot q = σ.dot q := by
  induction vd with
  | nil => intro c σ; rw [adj_add_dbl_nil]
  | cons p vd ih =>
    intro c σ
    cases c with
    | nil => rw [adj_add_dbl_nil_right]
    | cons x c => rw [adj_add_dbl_cons, ih, add_adj_dot]

/-- The adjoint of a node after `vd.adj() += a * c`: every position of `vd` that
holds the node contributes `a * c[i]`. -/
theorem adj_add_dbl_adj (a : R) (q : Nat) (vd : List Nat) : ∀ (c : List R) (σ : State R),
    q < σ.var_stack_.length →
    (adj_add_dbl σ a vd c).adj q
      = σ.adj q + ((vd.zip c).map (fun p => if p.1 = q then a * p.2 else 0)).sum := by
  induction vd with
  | nil => intro c σ _; simp [adj_add_dbl_nil]
  | cons p vd ih =>
    intro c σ hq
    cases c with
    | nil => simp [adj_add_dbl_nil_right]
    | cons x c =>
      rw [adj_add_dbl_cons, ih c _ (by rw [add_adj_length]; exact hq), add_adj_adj σ p _ q hq]
      simp [add_assoc]

theorem sum_zip_not_mem (a : R) (q : Nat) (vd : List Nat) (hq : q ∉ vd) : ∀ (c : List R),
    ((vd.zip c).map (fun p => if p.1 = q then a * p.2 else 0)).sum = 0 := by
  induction vd with
  | nil => intro c; simp
  | cons p vd ih =>
    intro c
    cases c with
    | nil => simp
    | cons x c =>
      have h1 : p ≠ q := fun h => hq (by simp [h])
      have h2 : q ∉ vd := fun h => hq (by simp [h])
      simp [h1, ih h2]

theorem sum_zip_nodup (a : R) (q : Nat) (vd : List Nat) (hnd : vd.Nodup) :
    ∀ (cs : List R) (i : Nat) (x : R), vd[i]? = some q → cs[i]? = some x →
    ((vd.zip cs).map (fun p => if p.1 = q then a * p.2 else 0)).sum = a * x := by
  induction vd with
  | nil => intro cs i x h; simp at h
  | cons p vd ih =>
    intro cs i x hv hc
    cases cs with
    | nil => simp at hc
    | cons y cs =>
      have hnd1 : p ∉ vd ∧ vd.Nodup := List.nodup_cons.mp hnd
      cases i with
      | zero =>
        simp only [List.getElem?_cons_zero, Option.some.injEq] at hv hc
        subst hv hc
        simp [sum_zip_not_mem a p vd hnd1.1]
      | succ i =>
        simp only [List.getElem?_cons_succ] at hv hc
        have hmem : q ∈ vd := List.getElem?_mem hv
        have hpq : p ≠ q := fun h => hnd1.1 (h ▸ hmem)
        simp [hpq, ih hnd1.2 cs i x hv hc]


/-- The adjoint of any node after `chain(vari**, vari**)`, aliasing included: each
occurrence in `v1` contributes the partner value in `v2` and conversely. -/
theorem chain_vari_vari_adj (σ : State R) (self : Nat) (v1 v2 : ptr) (n q : Nat)
    (hq : q < σ.var_stack_.length) (hself : self ∉ σ.vis v1 n) :
    (chain_vari_vari σ self v1 v2 n).adj q
      = σ.adj q
        + (((σ.vis v1 n).zip ((σ.vis v2 n).map σ.val)).map
            (fun p => if p.1 = q then σ.adj self * p.2 else 0)).sum
        + (((σ.vis v2 n).zip ((σ.vis v1 n).map σ.val)).map
            (fun p => if p.1 = q then σ.adj self * p.2 else 0)).sum := by
  have hv : ∀ a : R, (adj_add_dbl σ a (σ.vis v1 n) ((σ.vis v2 n).map σ.val)).val = σ.val :=
    fun a => funext (fun r => adj_add_dbl_val a _ r _ σ)
  by_cases hs : self < σ.var_stack_.length
  · have ha : (adj_add_dbl σ (σ.adj self) (σ.vis v1 n) ((σ.vis v2 n).map σ.val)).adj self
        = σ.adj self := by
      rw [adj_add_dbl_adj _ _ _ _ σ hs, sum_zip_not_mem _ _ _ hself, add_zero]
    simp only [chain_vari_vari, adj_add_val_eq, hv, ha]
    rw [adj_add_dbl_adj _ _ _ _ _ (by rw [adj_add_dbl_length]; exact hq),
      adj_add_dbl_adj _ _ _ _ σ hq]
  · have ha : ∀ τ : State R, τ.var_stack_.length = σ.var_stack_.length → τ.adj self = 0 := by
      intro τ hτ
      have : τ.var_stack_[self]? = none := List.getElem?_eq_none_iff.mpr (by omega)
      simp [State.adj, this]
    simp only [chain_vari_vari, adj_add_val_eq, hv, ha σ rfl,
      ha _ (adj_add_dbl_length _ _ _ σ)]
    rw [adj_add_dbl_adj _ _ _ _ _ (by rw [adj_add_dbl_length]; exact hq),
      adj_add_dbl_adj _ _ _ _ σ hq]

theorem chain_vari_vari_val (σ : State R) (self : Nat) (v1 v2 : ptr) (n q : Nat) :
    (chain_vari_vari σ self v1 v2 n).val q = σ.val q := by
  simp only [chain_vari_vari, adj_add_val_eq, adj_add_dbl_val]

end chain_lemmas



section chain_general

variable {R : Type} [CommRing R]

theorem adj_of_ge (σ : State R) (q : Nat) (hq : σ.var_stack_.length ≤ q) : σ.adj q = 0 := by
  have : σ.var_stack_[q]? = none := List.getElem?_eq_none_iff.mpr hq
  simp [State.adj, this]

theorem val_of_ge (σ : State R) (q : Nat) (hq : σ.var_stack_.length ≤ q) : σ.val q = 0 := by
  have : σ.var_stack_[q]? = none := List.getElem?_eq_none_iff.mpr hq
  simp [State.val, this]

theorem contrib_nil (a : R) (q : Nat) (c : List R) : contrib a q [] c = 0 := by
  simp [contrib]

theorem chain_val (σ : State R) (self q : Nat) : (chain σ self).val q = σ.val q := by
  unfold chain
  cases σ.op self with
  | vari => rfl
  | op_vari operands partials => simp only [chain_op_vari, adj_add_dbl_val]
  | dot_product d =>
    rcases d with ⟨s1, s2, n⟩
    cases s1 <;> cases s2 <;>
      simp only [chain_vari_vari, chain_double_vari, chain_vari_double, adj_add_val_eq,
        adj_add_dbl_val]

theorem chain_dot (σ : State R) (self q : Nat) : (chain σ self).dot q = σ.dot q := by
  unfold chain
  cases σ.op self with
  | vari => rfl
  | op_vari operands partials => simp only [chain_op_vari, adj_add_dbl_dot]
  | dot_product d =>
    rcases d with ⟨s1, s2, n⟩
    cases s1 <;> cases s2 <;>
      simp only [chain_vari_vari, chain_double_vari, chain_vari_double, adj_add_val_eq,
        adj_add_dbl_dot]

theorem chain_length (σ : State R) (self : Nat) :
    (chain σ self).var_stack_.length = σ.var_stack_.length := by
  unfold chain
  cases σ.op self with
  | vari => rfl
  | op_vari operands partials => simp only [chain_op_vari, adj_add_dbl_length]
  | dot_product d =>
    rcases d with ⟨s1, s2, n⟩
    cases s1 <;> cases s2 <;>
      simp only [chain_vari_vari, chain_double_vari, chain_vari_double, adj_add_val_eq,
        adj_add_dbl_length]

theorem chain_memalloc (σ : State R) (self : Nat) : (chain σ self).memalloc_ = σ.memalloc_ := by
  unfold chain
  cases σ.op self with
  | vari => rfl
  | op_vari operands partials => simp only [chain_op_vari, adj_add_dbl_memalloc]
  | dot_product d =>
    rcases d with ⟨s1, s2, n⟩
    cases s1 <;> cases s2 <;>
      simp only [chain_vari_vari, chain_double_vari, chain_vari_double, adj_add_val_eq,
        adj_add_dbl_memalloc]

theorem chain_heap (σ : State R) (self : Nat) : (chain σ self).heap = σ.heap := by
  unfold chain
  cases σ.op self with
  | vari => rfl
  | op_vari operands partials => simp only [chain_op_vari, adj_add_dbl_heap]
  | dot_product d =>
    rcases d with ⟨s1, s2, n⟩
    cases s1 <;> cases s2 <;>
      simp only [chain_vari_vari, chain_double_vari, chain_vari_double, adj_add_val_eq,
        adj_add_dbl_heap]

/-- The adjoint of any node `q` after `chain()` of a dot-product node, for all
operand kinds and with aliasing: the adjoint before, plus the contributions of the
occurrences of `q` in the first operand, plus those in the second. -/
theorem chain_adj (σ : State R) (self : Nat) (s1 s2 : store) (n : Nat) (b1 b2 : block R)
    (q : Nat) (hd : σ.dot self = some ⟨s1, s2, n⟩) (h1 : σ.holds s1 b1) (h2 : σ.holds s2 b2)
    (hn1 : b1.size = n) (hn2 : b2.size = n) (hself : self ∉ b1.nodes)
    (hq : q < σ.var_stack_.length) :
    (chain σ self).adj q
      = σ.adj q + contrib (σ.adj self) q b1.nodes (σ.block_val b2)
          + contrib (σ.adj self) q b2.nodes (σ.block_val b1) := by
  cases s1 with
  | vari_pp p1 =>
    cases b1 with
    | dbl ds => exact absurd h1.2 (by simp [store.is_var, block.is_var])
    | vis ps =>
      have e1 : σ.vis p1 n = ps := vis_of_holds σ p1 ps n h1 hn1
      cases s2 with
      | vari_pp p2 =>
        cases b2 with
        | dbl ds => exact absurd h2.2 (by simp [store.is_var, block.is_var])
        | vis qs =>
          have e2 : σ.vis p2 n = qs := vis_of_holds σ p2 qs n h2 hn2
          have hc : chain σ self = chain_vari_vari σ self p1 p2 n := by simp only [chain, op_of_dot σ self _ hd]
          have := chain_vari_vari_adj σ self p1 p2 n q hq (by rw [e1]; exact hself)
          rw [e1, e2] at this
          rw [hc, this]
          simp [contrib, block.nodes, State.block_val]
      | double_p p2 =>
        cases b2 with
        | vis qs => exact absurd h2.2 (by simp [store.is_var, block.is_var])
        | dbl ds =>
          have e2 : σ.dbl p2 n = ds := dbl_of_holds σ p2 ds n h2 hn2
          have hc : chain σ self = chain_vari_double σ self p1 p2 n := by simp only [chain, op_of_dot σ self _ hd]
          rw [hc]
          simp only [chain_vari_double, e1, e2, adj_add_dbl_adj _ _ _ _ σ hq]
          simp [contrib, block.nodes, State.block_val]
  | double_p p1 =>
    cases b1 with
    | vis ps => exact absurd h1.2 (by simp [store.is_var, block.is_var])
    | dbl ds1 =>
      have e1 : σ.dbl p1 n = ds1 := dbl_of_holds σ p1 ds1 n h1 hn1
      cases s2 with
      | vari_pp p2 =>
        cases b2 with
        | dbl ds => exact absurd h2.2 (by simp [store.is_var, block.is_var])
        | vis qs =>
          have e2 : σ.vis p2 n = qs := vis_of_holds σ p2 qs n h2 hn2
          have hc : chain σ self = chain_double_vari σ self p1 p2 n := by simp only [chain, op_of_dot σ self _ hd]
          rw [hc]
          simp only [chain_double_vari, e1, e2, adj_add_dbl_adj _ _ _ _ σ hq]
          simp [contrib, block.nodes, State.block_val]
      | double_p p2 =>
        cases b2 with
        | vis qs => exact absurd h2.2 (by simp [store.is_var, block.is_var])
        | dbl ds =>
          have hc : chain σ self = σ := by simp only [chain, op_of_dot σ self _ hd]
          rw [hc]
          simp [contrib, block.nodes]

end chain_general



section construction_lemmas

variable {R : Type}

theorem load_mono (σ τ : State R) (ex : List (block R)) (hm : τ.memalloc_ = σ.memalloc_ ++ ex)
    (hh : τ.heap = σ.heap) (p : ptr) (b : block R) (h : σ.load p = some b) :
    τ.load p = some b := by
  cases p with
  | heap a => simpa [State.load, hh] using h
  | arena a =>
    simp only [State.load] at h ⊢
    have ha : a < σ.memalloc_.length := (List.getElem?_eq_some_iff.mp h).1
    rw [hm, List.getElem?_append_left ha]
    exact h

theorem holds_mono (σ τ : State R) (ex : List (block R)) (hm : τ.memalloc_ = σ.memalloc_ ++ ex)
    (hh : τ.heap = σ.heap) (s : store) (b : block R) (h : σ.holds s b) : τ.holds s b :=
  ⟨load_mono σ τ ex hm hh _ _ h.1, h.2⟩

theorem holds_congr (σ τ : State R) (hm : τ.memalloc_ = σ.memalloc_) (hh : τ.heap = σ.heap)
    (s : store) (b : block R) (h : σ.holds s b) : τ.holds s b :=
  holds_mono σ τ [] (by simp [hm]) hh s b h

theorem block_val_congr [CommRing R] (σ τ : State R) (b : block R)
    (h : ∀ p ∈ b.nodes, τ.val p = σ.val p) : τ.block_val b = σ.block_val b := by
  cases b with
  | vis ps =>
    simp only [State.block_val]
    exact List.map_congr_left h
  | dbl ds => rfl

/-- What `initialize` leaves behind: the member points to an array equal to the
input; the tape and caller memory are untouched; the arena only grows, by exactly
one block when nothing is shared. -/
theorem initialize_eigen_spec (σ : State R) (n : Nat) (b : block R) (sh : Option store)
    (hsz : b.size = n) (hsh : ∀ s, sh = some s → σ.holds s b) :
    (initialize_eigen σ n b sh).2.holds (initialize_eigen σ n b sh).1 b
    ∧ (initialize_eigen σ n b sh).2.var_stack_ = σ.var_stack_
    ∧ (initialize_eigen σ n b sh).2.heap = σ.heap
    ∧ (∃ ex, (initialize_eigen σ n b sh).2.memalloc_ = σ.memalloc_ ++ ex)
    ∧ (sh = none → (initialize_eigen σ n b sh).1.addr = .arena σ.memalloc_.length
        ∧ (initialize_eigen σ n b sh).2.memalloc_ = σ.memalloc_ ++ [b]) := by
  cases sh with
  | some s =>
    refine ⟨hsh s rfl, rfl, rfl, ⟨[], by simp [initialize_eigen]⟩, fun h => by simp at h⟩
  | none =>
    cases b with
    | vis ps =>
      have ht : ps.take n = ps := List.take_of_length_le (by simp [block.size] at hsz; omega)
      simp [initialize_eigen, State.alloc, ht, State.holds, State.load, store.addr,
        store.is_var, block.is_var]
    | dbl ds =>
      have ht : ds.take n = ds := List.take_of_length_le (by simp [block.size] at hsz; omega)
      simp [initialize_eigen, State.alloc, ht, State.holds, State.load, store.addr,
        store.is_var, block.is_var]

theorem initialize_array_eq (σ : State R) (n : Nat) (v : store) (b : block R)
    (sh : Option store) (h : σ.holds v b) :
    initialize_array σ n v sh = initialize_eigen σ n b sh := by
  obtain ⟨hl, ht⟩ := h
  cases sh with
  | some s => rfl
  | none =>
    cases v with
    | vari_pp p =>
      cases b with
      | vis ps =>
        simp only [store.addr] at hl
        simp [initialize_array, initialize_eigen, State.vis, hl]
      | dbl ds => simp [store.is_var, block.is_var] at ht
    | double_p p =>
      cases b with
      | vis ps => simp [store.is_var, block.is_var] at ht
      | dbl ds =>
        simp only [store.addr] at hl
        simp [initialize_array, initialize_eigen, State.dbl, hl]

theorem initialize_eigen_mem (σ : State R) (n : Nat) (b : block R) (sh : Option store) :
    (initialize_eigen σ n b sh).2.var_stack_ = σ.var_stack_
    ∧ (initialize_eigen σ n b sh).2.heap = σ.heap
    ∧ ∃ ex, (initialize_eigen σ n b sh).2.memalloc_ = σ.memalloc_ ++ ex := by
  cases sh with
  | some s => exact ⟨rfl, rfl, ⟨[], by simp [initialize_eigen]⟩⟩
  | none =>
    cases b with
    | vis ps => exact ⟨rfl, rfl, ⟨_, rfl⟩⟩
    | dbl ds => exact ⟨rfl, rfl, ⟨_, rfl⟩⟩

/-- On arrays of exactly `n` elements the raw-array constructor does what the
Eigen constructor does on the same coefficients. -/
theorem of_arrays_eq_of_eigen [CommRing R] (σ : State R) (v1 v2 : store) (n : Nat) (sh1 sh2 : Option Nat)
    (b1 b2 : block R) (h1 : σ.holds v1 b1) (h2 : σ.holds v2 b2)
    (hn1 : b1.size = n) (hn2 : b2.size = n) :
    dot_product_vari.of_arrays σ v1 v2 n sh1 sh2
      = dot_product_vari.of_eigen σ ⟨n, 1, b1⟩ ⟨n, 1, b2⟩ sh1 sh2 := by
  have t1 : (σ.block_val b1).take n = σ.block_val b1 :=
    List.take_of_length_le (by rw [length_block_val, hn1])
  have t2 : (σ.block_val b2).take n = σ.block_val b2 :=
    List.take_of_length_le (by rw [length_block_val, hn2])
  have hx : var_dot σ v1 v2 n = var_dot_eigen σ ⟨n, 1, b1⟩ ⟨n, 1, b2⟩ := by
    simp only [var_dot, var_dot_eigen, val_of_holds σ _ _ n h1, val_of_holds σ _ _ n h2, t1, t2]
  have e1 := initialize_array_eq σ n v1 b1 (σ.shared_v1 sh1) h1
  obtain ⟨_, hh, ex, hm⟩ := initialize_eigen_mem σ n b1 (σ.shared_v1 sh1)
  have h2' : (initialize_eigen σ n b1 (σ.shared_v1 sh1)).2.holds v2 b2 :=
    holds_mono σ _ ex hm hh v2 b2 h2
  have e2 := initialize_array_eq _ n v2 b2 (σ.shared_v2 sh2) h2'
  simp only [dot_product_vari.of_arrays, dot_product_vari.of_eigen, hx, e1, e2,
    Eigen.Matrix.size, Nat.mul_one]

/-- The state a constructor leaves behind: one node appended to the tape, with
the dot product as value, adjoint 0 and members pointing to arrays equal to the
operands; caller memory untouched; the arena extended. -/
theorem of_eigen_spec [CommRing R] (σ : State R) (m1 m2 : Eigen.Matrix R)
    (sh1 sh2 : Option Nat) (n : Nat)
    (hn : m1.size = n) (h1 : m1.data.size = n) (h2 : m2.data.size = n)
    (hs1 : ∀ s, σ.shared_v1 sh1 = some s → σ.holds s m1.data)
    (hs2 : ∀ s, σ.shared_v2 sh2 = some s → σ.holds s m2.data) :
    ∃ s1 s2 ex,
      dot_product_vari.of_eigen σ m1 m2 sh1 sh2
        = (σ.var_stack_.length,
            { var_stack_ := σ.var_stack_
                ++ [⟨var_dot_eigen σ m1 m2, 0, .dot_product ⟨s1, s2, n⟩⟩],
              memalloc_ := σ.memalloc_ ++ ex,
              heap := σ.heap })
      ∧ (∀ τ : State R, τ.memalloc_ = σ.memalloc_ ++ ex → τ.heap = σ.heap →
          τ.holds s1 m1.data ∧ τ.holds s2 m2.data)
      ∧ (σ.shared_v1 sh1 = none → ∃ a, s1.addr = .arena a)
      ∧ (σ.shared_v2 sh2 = none → ∃ a, s2.addr = .arena a)
      ∧ (σ.shared_v1 sh1 = none → σ.shared_v2 sh2 = none → ex = [m1.data, m2.data]) := by
  obtain ⟨a1, a2, a3, ⟨ex1, a4⟩, a5⟩ :=
    initialize_eigen_spec σ n m1.data (σ.shared_v1 sh1) h1 hs1
  obtain ⟨b1, b2, b3, ⟨ex2, b4⟩, b5⟩ :=
    initialize_eigen_spec (initialize_eigen σ n m1.data (σ.shared_v1 sh1)).2 n m2.data
      (σ.shared_v2 sh2) h2 (fun s hs => holds_mono σ _ ex1 a4 a3 s _ (hs2 s hs))
  refine ⟨(initialize_eigen σ n m1.data (σ.shared_v1 sh1)).1,
    (initialize_eigen (initialize_eigen σ n m1.data (σ.shared_v1 sh1)).2 n m2.data
      (σ.shared_v2 sh2)).1, ex1 ++ ex2, ?_, ?_, ?_, ?_, ?_⟩
  · simp only [dot_product_vari.of_eigen, State.record, hn]
    rw [b2, a2, b3, a3, b4, a4, List.append_assoc]
  · intro τ hm hh
    have hm2 : τ.memalloc_
        = (initialize_eigen (initialize_eigen σ n m1.data (σ.shared_v1 sh1)).2 n m2.data
            (σ.shared_v2 sh2)).2.memalloc_ ++ [] := by
      rw [hm, b4, a4, List.append_nil, List.append_assoc]
    have hh2 : τ.heap
        = (initialize_eigen (initialize_eigen σ n m1.data (σ.shared_v1 sh1)).2 n m2.data
            (σ.shared_v2 sh2)).2.heap := by
      rw [hh, b3, a3]
    exact ⟨holds_mono _ τ [] hm2 hh2 _ _ (holds_mono _ _ ex2 b4 b3 _ _ a1),
      holds_mono _ τ [] hm2 hh2 _ _ b1⟩
  · intro h
    exact ⟨_, (a5 h).1⟩
  · intro h
    exact ⟨_, (b5 h).1⟩
  · intro h h'
    have e1 := (a5 h).2
    have e2 := (b5 h').2
    rw [a4] at e1
    rw [b4, a4] at e2
    have x1 : ex1 = [m1.data] := List.append_cancel_left e1
    rw [x1] at e2 ⊢
    have x2 : ex2 = [m2.data] := List.append_cancel_left e2
    rw [x2]
    rfl

theorem length_set_zero [CommRing R] (σ : State R) :
    σ.set_zero_all_adjoints.var_stack_.length = σ.var_stack_.length := by
  simp [State.set_zero_all_adjoints]

theorem val_set_zero [CommRing R] (σ : State R) (q : Nat) :
    σ.set_zero_all_adjoints.val q = σ.val q := by
  simp only [State.set_zero_all_adjoints, State.val, List.getElem?_map]
  cases σ.var_stack_[q]? <;> rfl

theorem dot_set_zero [CommRing R] (σ : State R) (q : Nat) :
    σ.set_zero_all_adjoints.dot q = σ.dot q := by
  simp only [State.set_zero_all_adjoints, State.dot, List.getElem?_map]
  cases σ.var_stack_[q]? <;> rfl

theorem adj_set_zero [CommRing R] (σ : State R) (q : Nat) :
    σ.set_zero_all_adjoints.adj q = 0 := by
  simp only [State.set_zero_all_adjoints, State.adj, List.getElem?_map]
  cases σ.var_stack_[q]? <;> rfl

theorem length_set_adj (σ : State R) (vi : Nat) (a : R) :
    (σ.set_adj vi a).var_stack_.length = σ.var_stack_.length := by
  unfold State.set_adj
  cases σ.var_stack_[vi]? <;> simp

theorem memalloc_set_adj (σ : State R) (vi : Nat) (a : R) :
    (σ.set_adj vi a).memalloc_ = σ.memalloc_ := by
  unfold State.set_adj
  cases σ.var_stack_[vi]? <;> rfl

theorem heap_set_adj (σ : State R) (vi : Nat) (a : R) :
    (σ.set_adj vi a).heap = σ.heap := by
  unfold State.set_adj
  cases σ.var_stack_[vi]? <;> rfl

theorem val_set_adj [CommRing R] (σ : State R) (vi : Nat) (a : R) (q : Nat) :
    (σ.set_adj vi a).val q = σ.val q := by
  unfold State.set_adj
  cases h : σ.var_stack_[vi]? with
  | none => rfl
  | some n =>
    simp only [State.val, List.getElem?_set]
    by_cases hpq : vi = q
    · subst hpq
      have hp : vi < σ.var_stack_.length := (List.getElem?_eq_some_iff.mp h).1
      simp [hp, h]
    · simp [hpq]

theorem dot_set_adj (σ : State R) (vi : Nat) (a : R) (q : Nat) :
    (σ.set_adj vi a).dot q = σ.dot q := by
  unfold State.set_adj
  cases h : σ.var_stack_[vi]? with
  | none => rfl
  | some n =>
    simp only [State.dot, List.getElem?_set]
    by_cases hpq : vi = q
    · subst hpq
      have hp : vi < σ.var_stack_.length := (List.getElem?_eq_some_iff.mp h).1
      simp [hp, h, vari.dot]
    · simp [hpq]

theorem adj_set_adj [CommRing R] (σ : State R) (vi : Nat) (a : R) (q : Nat)
    (hvi : vi < σ.var_stack_.length) :
    (σ.set_adj vi a).adj q = if q = vi then a else σ.adj q := by
  unfold State.set_adj
  have h : σ.var_stack_[vi]? = some (σ.var_stack_[vi]) := List.getElem?_eq_getElem hvi
  rw [h]
  simp only [State.adj, List.getElem?_set]
  by_cases hpq : vi = q
  · subst hpq
    simp [hvi]
  · have : ¬ q = vi := fun e => hpq e.symm
    simp [hpq, this]

theorem val_append_left [CommRing R] (σ τ : State R) (nd : List (vari R))
    (h : τ.var_stack_ = σ.var_stack_ ++ nd) (q : Nat) (hq : q < σ.var_stack_.length) :
    τ.val q = σ.val q := by
  simp only [State.val, h, List.getElem?_append_left hq]

theorem adj_append_left [CommRing R] (σ τ : State R) (nd : List (vari R))
    (h : τ.var_stack_ = σ.var_stack_ ++ nd) (q : Nat) (hq : q < σ.var_stack_.length) :
    τ.adj q = σ.adj q := by
  simp only [State.adj, h, List.getElem?_append_left hq]

theorem dot_append_left (σ τ : State R) (nd : List (vari R))
    (h : τ.var_stack_ = σ.var_stack_ ++ nd) (q : Nat) (hq : q < σ.var_stack_.length) :
    τ.dot q = σ.dot q := by
  simp only [State.dot, h, List.getElem?_append_left hq]

theorem dot_append_new (σ τ : State R) (nd : vari R)
    (h : τ.var_stack_ = σ.var_stack_ ++ [nd]) : τ.dot σ.var_stack_.length = nd.dot := by
  simp [State.dot, h]

theorem adj_append_new [CommRing R] (σ τ : State R) (nd : vari R)
    (h : τ.var_stack_ = σ.var_stack_ ++ [nd]) : τ.adj σ.var_stack_.length = nd.adj_ := by
  simp [State.adj, h]

/-- Every one of the three overloads, when it succeeds on arrays of `n`
coefficients, returns what the Eigen constructor builds without sharing. -/
theorem returns_eq [CommRing R] (σ : State R) (b1 b2 : block R) (n : Nat) (r : var × State R)
    (hn1 : b1.size = n) (hn2 : b2.size = n) (hr : dot_product_returns σ b1 b2 n r) :
    ∃ m1 m2 : Eigen.Matrix R, m1.data = b1 ∧ m2.data = b2 ∧ m1.size = n
      ∧ r.1.vi_ = (dot_product_vari.of_eigen σ m1 m2 none none).1
      ∧ r.2 = (dot_product_vari.of_eigen σ m1 m2 none none).2 := by
  rcases hr with ⟨v1, v2, h1, h2, e⟩ | ⟨v1, v2, h1, h2, hs, e⟩ | ⟨m1, m2, h1, h2, hs, e⟩
  · refine ⟨⟨n, 1, b1⟩, ⟨n, 1, b2⟩, rfl, rfl, by simp [Eigen.Matrix.size], ?_, ?_⟩
    · rw [← e, ← of_arrays_eq_of_eigen σ v1 v2 n none none b1 b2 h1 h2 hn1 hn2]
      rfl
    · rw [← e, ← of_arrays_eq_of_eigen σ v1 v2 n none none b1 b2 h1 h2 hn1 hn2]
      rfl
  · refine ⟨⟨n, 1, b1⟩, ⟨n, 1, b2⟩, rfl, rfl, by simp [Eigen.Matrix.size], ?_, ?_⟩
    all_goals
      unfold dot_product_vector at e
      cases hc : check_matching_sizes "dot_product" "v1" v1.size "v2" v2.size with
      | error x => simp [hc] at e
      | ok u =>
        simp only [hc, Prod.mk.injEq, Except.ok.injEq] at e
        rw [← of_arrays_eq_of_eigen σ v1.data v2.data n none none b1 b2 h1 h2 hn1 hn2, ← hs]
        first
          | rw [← e.1]
          | rw [← e.2]
  · refine ⟨m1, m2, h1, h2, hs, ?_, ?_⟩
    all_goals
      unfold dot_product_eigen at e
      cases hc1 : check_vector "dot_product" "v1" m1 with
      | error x => simp [hc1] at e
      | ok u1 =>
        cases hc2 : check_vector "dot_product" "v2" m2 with
        | error x => simp [hc1, hc2] at e
        | ok u2 =>
          cases hc3 : check_matching_sizes "dot_product" "v1" m1.size "v2" m2.size with
          | error x => simp [hc1, hc2, hc3] at e
          | ok u3 =>
            simp only [hc1, hc2, hc3, Prod.mk.injEq, Except.ok.injEq] at e
            first
              | rw [← e.1]
              | rw [← e.2]

theorem holds_arena (σ τ : State R) (hm : τ.memalloc_ = σ.memalloc_) (s : store)
    (b : block R) (a : Nat) (ha : s.addr = .arena a) (h : σ.holds s b) : τ.holds s b := by
  obtain ⟨hl, ht⟩ := h
  refine ⟨?_, ht⟩
  rw [ha] at hl ⊢
  simpa [State.load, hm] using hl

/-- The adjoint of any node after `chain()` of a freshly built node, in any state
that differs from the one left by the constructor only in adjoints (and, when
nothing is shared, in caller memory): the adjoint before, plus the contributions
of the node's occurrences in either operand, with the partner values as they
were at construction. -/
theorem chain_adj_built [CommRing R] (σ τ' : State R) (m1 m2 : Eigen.Matrix R)
    (sh1 sh2 : Option Nat) (n : Nat)
    (hn : m1.size = n) (h1 : m1.data.size = n) (h2 : m2.data.size = n)
    (hs1 : ∀ s, σ.shared_v1 sh1 = some s → σ.holds s m1.data)
    (hs2 : ∀ s, σ.shared_v2 sh2 = some s → σ.holds s m2.data)
    (hv : ∀ p ∈ m1.data.nodes ++ m2.data.nodes, p < σ.var_stack_.length)
    (hlen : τ'.var_stack_.length = σ.var_stack_.length + 1)
    (hval : ∀ q, τ'.val q = (dot_product_vari.of_eigen σ m1 m2 sh1 sh2).2.val q)
    (hdot : ∀ q, τ'.dot q = (dot_product_vari.of_eigen σ m1 m2 sh1 sh2).2.dot q)
    (hmem : τ'.memalloc_ = (dot_product_vari.of_eigen σ m1 m2 sh1 sh2).2.memalloc_)
    (hheap : τ'.heap = (dot_product_vari.of_eigen σ m1 m2 sh1 sh2).2.heap
      ∨ (σ.shared_v1 sh1 = none ∧ σ.shared_v2 sh2 = none))
    (q : Nat) (hq : q < σ.var_stack_.length + 1) :
    (chain τ' σ.var_stack_.length).adj q
      = τ'.adj q
        + contrib (τ'.adj σ.var_stack_.length) q m1.data.nodes (σ.block_val m2.data)
        + contrib (τ'.adj σ.var_stack_.length) q m2.data.nodes (σ.block_val m1.data) := by
  obtain ⟨s1, s2, ex, heq, hholds, ha1, ha2, _⟩ := of_eigen_spec σ m1 m2 sh1 sh2 n hn h1 h2 hs1 hs2
  rw [heq] at hval hdot hmem hheap
  simp only at hval hdot hmem hheap
  have hd : τ'.dot σ.var_stack_.length = some ⟨s1, s2, n⟩ := by
    rw [hdot]
    simp [State.dot, vari.dot]
  have hh : τ'.holds s1 m1.data ∧ τ'.holds s2 m2.data := by
    rcases hheap with hheap | ⟨n1, n2⟩
    · exact hholds τ' hmem hheap
    · have base := hholds ⟨τ'.var_stack_, σ.memalloc_ ++ ex, σ.heap⟩ rfl rfl
      obtain ⟨a1, e1⟩ := ha1 n1
      obtain ⟨a2, e2⟩ := ha2 n2
      exact ⟨holds_arena _ τ' hmem s1 _ a1 e1 base.1, holds_arena _ τ' hmem s2 _ a2 e2 base.2⟩
  have hvq : ∀ p, p < σ.var_stack_.length → τ'.val p = σ.val p := by
    intro p hp
    rw [hval]
    exact val_append_left σ _ _ rfl p hp
  have hb1 : τ'.block_val m1.data = σ.block_val m1.data :=
    block_val_congr σ τ' _ (fun p hp => hvq p (hv p (List.mem_append_left _ hp)))
  have hb2 : τ'.block_val m2.data = σ.block_val m2.data :=
    block_val_congr σ τ' _ (fun p hp => hvq p (hv p (List.mem_append_right _ hp)))
  have hself : σ.var_stack_.length ∉ m1.data.nodes :=
    fun hm => absurd (hv _ (List.mem_append_left _ hm)) (lt_irrefl _)
  rw [chain_adj τ' σ.var_stack_.length s1 s2 n m1.data m2.data q hd hh.1 hh.2 h1 h2 hself
    (by rw [hlen]; exact hq), hb1, hb2]

theorem contrib_nodup [CommRing R] (a : R) (q : Nat) (vd : List Nat) (hnd : vd.Nodup)
    (cs : List R) (i : Nat) (x : R) (hq : vd[i]? = some q) (hx : cs[i]? = some x) :
    contrib a q vd cs = a * x :=
  sum_zip_nodup a q vd hnd cs i x hq hx

theorem contrib_not_mem [CommRing R] (a : R) (q : Nat) (vd : List Nat) (hq : q ∉ vd)
    (cs : List R) : contrib a q vd cs = 0 :=
  sum_zip_not_mem a q vd hq cs

theorem block_val_getElem? [CommRing R] (σ : State R) (b : block R) (i : Nat)
    (hi : i < b.size) : (σ.block_val b)[i]? = some (σ.value_at b i) := by
  cases b with
  | vis ps =>
    simp only [block.size] at hi
    simp [State.block_val, State.value_at, List.getElem?_eq_getElem hi]
  | dbl ds =>
    simp only [block.size] at hi
    simp [State.block_val, State.value_at, List.getElem?_eq_getElem hi]

theorem shared_v1_holds (σ : State R) (sh : Option Nat) (b : block R)
    (h : ∀ s d, sh = some s → σ.dot s = some d → σ.holds d.v1_ b) :
    ∀ s, σ.shared_v1 sh = some s → σ.holds s b := by
  intro s hs
  cases sh with
  | none => simp [State.shared_v1] at hs
  | some t =>
    simp only [State.shared_v1] at hs
    cases hd : σ.dot t with
    | none => simp [hd] at hs
    | some d =>
      simp only [hd, Option.map_some', Option.some.injEq] at hs
      rw [← hs]
      exact h t d rfl hd

theorem shared_v2_holds (σ : State R) (sh : Option Nat) (b : block R)
    (h : ∀ s d, sh = some s → σ.dot s = some d → σ.holds d.v2_ b) :
    ∀ s, σ.shared_v2 sh = some s → σ.holds s b := by
  intro s hs
  cases sh with
  | none => simp [State.shared_v2] at hs
  | some t =>
    simp only [State.shared_v2] at hs
    cases hd : σ.dot t with
    | none => simp [hd] at hs
    | some d =>
      simp only [hd, Option.map_some', Option.some.injEq] at hs
      rw [← hs]
      exact h t d rfl hd

theorem val_built [CommRing R] (σ τ : State R) (nd : vari R)
    (h : τ.var_stack_ = σ.var_stack_ ++ [nd]) (q : Nat) :
    τ.val q = if q < σ.var_stack_.length then σ.val q
      else if q = σ.var_stack_.length then nd.val_ else 0 := by
  by_cases h1 : q < σ.var_stack_.length
  · rw [if_pos h1]
    exact val_append_left σ τ _ h q h1
  · rw [if_neg h1]
    by_cases h2 : q = σ.var_stack_.length
    · rw [if_pos h2, h2]
      simp [State.val, h]
    · rw [if_neg h2]
      exact val_of_ge τ q (by rw [h]; simp; omega)

theorem adj_built [CommRing R] (σ τ : State R) (nd : vari R)
    (h : τ.var_stack_ = σ.var_stack_ ++ [nd]) (q : Nat) :
    τ.adj q = if q < σ.var_stack_.length then σ.adj q
      else if q = σ.var_stack_.length then nd.adj_ else 0 := by
  by_cases h1 : q < σ.var_stack_.length
  · rw [if_pos h1]
    exact adj_append_left σ τ _ h q h1
  · rw [if_neg h1]
    by_cases h2 : q = σ.var_stack_.length
    · rw [if_pos h2, h2]
      simp [State.adj, h]
    · rw [if_neg h2]
      exact adj_of_ge τ q (by rw [h]; simp; omega)

theorem op_append_left (σ τ : State R) (nd : List (vari R))
    (h : τ.var_stack_ = σ.var_stack_ ++ nd) (q : Nat) (hq : q < σ.var_stack_.length) :
    τ.op q = σ.op q := by
  simp only [State.op, h, List.getElem?_append_left hq]

theorem op_of_ge (σ : State R) (q : Nat) (hq : σ.var_stack_.length ≤ q) : σ.op q = .vari := by
  have : σ.var_stack_[q]? = none := List.getElem?_eq_none_iff.mpr hq
  simp [State.op, this]

theorem dot_of_ge (σ : State R) (q : Nat) (hq : σ.var_stack_.length ≤ q) : σ.dot q = none := by
  have : σ.var_stack_[q]? = none := List.getElem?_eq_none_iff.mpr hq
  simp [State.dot, this]

theorem vis_mono (σ τ : State R) (ex : List (block R)) (hm : τ.memalloc_ = σ.memalloc_ ++ ex)
    (hh : τ.heap = σ.heap) (p : ptr) (k : Nat) (h : (σ.load p).isSome = true) :
    τ.vis p k = σ.vis p k := by
  cases hl : σ.load p with
  | none => simp [hl] at h
  | some b => simp only [State.vis, hl, load_mono σ τ ex hm hh p b hl]

theorem operands_mono (σ τ : State R) (ex : List (block R))
    (hm : τ.memalloc_ = σ.memalloc_ ++ ex) (hh : τ.heap = σ.heap) (d : dot_product_vari)
    (h1 : (σ.load d.v1_.addr).isSome = true) (h2 : (σ.load d.v2_.addr).isSome = true) :
    τ.operands d = σ.operands d := by
  rcases d with ⟨s1, s2, k⟩
  cases s1 <;> cases s2 <;>
    simp only [State.operands, State.side, store.addr] at h1 h2 ⊢ <;>
    simp only [vis_mono σ τ ex hm hh _ k h1, vis_mono σ τ ex hm hh _ k h2]

theorem operand_side (τ : State R) (s : store) (b : block R) (n : Nat) (h : τ.holds s b)
    (hn : b.size = n) : τ.side s n = b.nodes := by
  cases s with
  | vari_pp p =>
    cases b with
    | vis ps => exact vis_of_holds τ p ps n h hn
    | dbl ds => exact absurd h.2 (by simp [store.is_var, block.is_var])
  | double_p p =>
    cases b with
    | vis ps => exact absurd h.2 (by simp [store.is_var, block.is_var])
    | dbl ds => rfl

/-- The adjoints after seeding the output adjoint of a freshly built node with `a`
and running its `chain()`, in a state `τ` with the tape and arena the constructor
left (caller memory may differ when nothing is shared); the right-hand side does
not mention sharing or caller memory. -/
theorem seeded_chain_adj [CommRing R] (σ τ : State R) (m1 m2 : Eigen.Matrix R)
    (sh1 sh2 : Option Nat)
    (n : Nat) (hn : m1.size = n) (h1 : m1.data.size = n) (h2 : m2.data.size = n)
    (hs1 : ∀ s, σ.shared_v1 sh1 = some s → σ.holds s m1.data)
    (hs2 : ∀ s, σ.shared_v2 sh2 = some s → σ.holds s m2.data)
    (hv : ∀ p ∈ m1.data.nodes ++ m2.data.nodes, p < σ.var_stack_.length)
    (hstack : τ.var_stack_ = (dot_product_vari.of_eigen σ m1 m2 sh1 sh2).2.var_stack_)
    (hmem : τ.memalloc_ = (dot_product_vari.of_eigen σ m1 m2 sh1 sh2).2.memalloc_)
    (hheap : τ.heap = σ.heap ∨ (σ.shared_v1 sh1 = none ∧ σ.shared_v2 sh2 = none))
    (a : R) (q : Nat) :
    (chain (τ.set_adj σ.var_stack_.length a) σ.var_stack_.length).adj q
      = (if q = σ.var_stack_.length then a else σ.adj q)
        + contrib a q m1.data.nodes (σ.block_val m2.data)
        + contrib a q m2.data.nodes (σ.block_val m1.data) := by
  obtain ⟨s1, s2, ex, heq, -⟩ := of_eigen_spec σ m1 m2 sh1 sh2 n hn h1 h2 hs1 hs2
  have hst : τ.var_stack_ = σ.var_stack_
      ++ [⟨var_dot_eigen σ m1 m2, 0, .dot_product ⟨s1, s2, n⟩⟩] := by
    rw [hstack, heq]
  have hlen : (τ.set_adj σ.var_stack_.length a).var_stack_.length
      = σ.var_stack_.length + 1 := by
    rw [length_set_adj, hst]; simp
  by_cases hq : q < σ.var_stack_.length + 1
  · have hadj : ∀ p, p < σ.var_stack_.length + 1 →
        (τ.set_adj σ.var_stack_.length a).adj p
          = if p = σ.var_stack_.length then a else σ.adj p := by
      intro p hp
      rw [adj_set_adj _ _ _ _ (by rw [hst]; simp)]
      by_cases hps : p = σ.var_stack_.length
      · simp [hps]
      · rw [if_neg hps, if_neg hps]
        exact adj_append_left σ _ _ hst p (by omega)
    rw [chain_adj_built σ _ m1 m2 sh1 sh2 n hn h1 h2 hs1 hs2 hv hlen
      (fun p => by rw [val_set_adj]; simp only [State.val, hstack])
      (fun p => by rw [dot_set_adj]; simp only [State.dot, hstack])
      (by rw [memalloc_set_adj, hmem])
      (by
        rcases hheap with hh | hh
        · left
          rw [heap_set_adj, heq]
          exact hh
        · exact Or.inr hh) q hq,
      hadj q hq, hadj _ (Nat.lt_succ_self _), if_pos rfl]
  · have hge : σ.var_stack_.length + 1 ≤ q := not_lt.mp hq
    have hq1 : q ∉ m1.data.nodes := fun hm => by
      have := hv q (List.mem_append_left _ hm); omega
    have hq2 : q ∉ m2.data.nodes := fun hm => by
      have := hv q (List.mem_append_right _ hm); omega
    rw [adj_of_ge _ q (by rw [chain_length, hlen]; exact hge), contrib_not_mem _ _ _ hq1,
      contrib_not_mem _ _ _ hq2, if_neg (by omega), adj_of_ge σ q (by omega)]
    simp

end construction_lemmas

/-! ## Claims -/

section claims

variable {R : Type} [CommRing R]

/-- C1: for operand sequences `b1`, `b2` of the same length `n` (node handles or
plain numbers), the node built by each of the three constructors (node-pointer
arrays, raw arrays with or without sharing, Eigen vectors) has forward value
`∑ i < n, value(b1[i]) * value(b2[i])`, and that value is 0 when `n = 0`. -/
theorem dot_product_value (σ : State R) (b1 b2 : block R) (n : Nat)
    (hn1 : b1.size = n) (hn2 : b2.size = n) :
    (∀ p1 p2 : ptr, σ.holds (.vari_pp p1) b1 → σ.holds (.vari_pp p2) b2 →
      (dot_product_vari.of_ptrs σ p1 p2 n).2.val (dot_product_vari.of_ptrs σ p1 p2 n).1
        = ∑ i in Finset.range n, σ.value_at b1 i * σ.value_at b2 i) ∧
    (∀ (v1 v2 : store) (shared_v1 shared_v2 : Option Nat), σ.holds v1 b1 → σ.holds v2 b2 →
      (dot_product_vari.of_arrays σ v1 v2 n shared_v1 shared_v2).2.val
          (dot_product_vari.of_arrays σ v1 v2 n shared_v1 shared_v2).1
        = ∑ i in Finset.range n, σ.value_at b1 i * σ.value_at b2 i) ∧
    (∀ (v1 v2 : Eigen.Matrix R) (shared_v1 shared_v2 : Option Nat), v1.data = b1 → v2.data = b2 →
      (dot_product_vari.of_eigen σ v1 v2 shared_v1 shared_v2).2.val
          (dot_product_vari.of_eigen σ v1 v2 shared_v1 shared_v2).1
        = ∑ i in Finset.range n, σ.value_at b1 i * σ.value_at b2 i) ∧
    (n = 0 → ∑ i in Finset.range n, σ.value_at b1 i * σ.value_at b2 i = 0) := by
  have key := dot_take_eq_sum σ b1 b2 n (le_of_eq hn1.symm) (le_of_eq hn2.symm)
  refine ⟨?_, ?_, ?_, ?_⟩
  · intro p1 p2 h1 h2
    have e1 := val_of_holds σ _ b1 n h1
    have e2 := val_of_holds σ _ b2 n h2
    simp only [State.val_of] at e1 e2
    simp only [dot_product_vari.of_ptrs, val_record, var_dot_vari, e1, e2, key]
  · intro v1 v2 s1 s2 h1 h2
    simp only [dot_product_vari.of_arrays, val_record, var_dot, val_of_holds σ _ _ n h1,
      val_of_holds σ _ _ n h2, key]
  · intro v1 v2 s1 s2 h1 h2
    subst h1 h2
    have t1 : (σ.block_val v1.data).take n = σ.block_val v1.data :=
      List.take_of_length_le (by rw [length_block_val, hn1])
    have t2 : (σ.block_val v2.data).take n = σ.block_val v2.data :=
      List.take_of_length_le (by rw [length_block_val, hn2])
    rw [t1, t2] at key
    simp only [dot_product_vari.of_eigen, val_record, var_dot_eigen, key]
  · intro h0
    subst h0
    simp

/-- C1 at a concrete input: handles to the nodes valued 2 and 3 against the
numbers 4 and 6 give `2 * 4 + 3 * 6`. -/
theorem dot_product_value_witness :
    (block.vis [0, 1] : block Int).size = 2 ∧ (block.dbl [4, 6] : block Int).size = 2 ∧
    (dot_product_vari.of_arrays σ0 (.vari_pp (.heap 0)) (.double_p (.heap 2)) 2 none none).2.val
        (dot_product_vari.of_arrays σ0 (.vari_pp (.heap 0)) (.double_p (.heap 2)) 2 none none).1
      = ∑ i in Finset.range 2, σ0.value_at (.vis [0, 1]) i * σ0.value_at (.dbl [4, 6]) i ∧
    ∑ i in Finset.range 2, σ0.value_at (.vis [0, 1]) i * σ0.value_at (.dbl [4, 6]) i = (26 : Int) :=
  ⟨rfl, rfl,
    (dot_product_value σ0 (.vis [0, 1]) (.dbl [4, 6]) 2 rfl rfl).2.1
      (.vari_pp (.heap 0)) (.double_p (.heap 2)) none none ⟨rfl, rfl⟩ ⟨rfl, rfl⟩,
    by decide⟩

/-- C2: for a dot-product node at `self` with both operands differentiable,
length `n` and output adjoint `a = adj(self)`, whose operand nodes `ps`, `qs`
precede it on the tape and are pairwise distinct, `chain()` adds into the
operand adjoints: for every `i < n` the adjoint of `ps[i]` grows by
`a * value(qs[i])` and that of `qs[i]` by `a * value(ps[i])`; the value and
adjoint of the node itself and every value are unchanged. -/
theorem chain_both_differentiable (σ : State R) (self : Nat) (v1 v2 : ptr) (n : Nat)
    (ps qs : List Nat)
    (hd : σ.dot self = some ⟨.vari_pp v1, .vari_pp v2, n⟩)
    (h1 : σ.vis v1 n = ps) (h2 : σ.vis v2 n = qs)
    (hl1 : ps.length = n) (hl2 : qs.length = n)
    (hop : ∀ p ∈ ps ++ qs, p < self)
    (hnd : (ps ++ qs).Nodup) :
    (∀ i, i < n →
      (chain σ self).adj (ps.getD i 0) = σ.adj (ps.getD i 0) + σ.adj self * σ.val (qs.getD i 0) ∧
      (chain σ self).adj (qs.getD i 0) = σ.adj (qs.getD i 0) + σ.adj self * σ.val (ps.getD i 0)) ∧
    (chain σ self).val self = σ.val self ∧
    (chain σ self).adj self = σ.adj self ∧
    (∀ p, (chain σ self).val p = σ.val p) := by
  have hs : self < σ.var_stack_.length := dot_lt_length σ self _ hd
  have hc : chain σ self = chain_vari_vari σ self v1 v2 n := by
    simp only [chain, op_of_dot σ self _ hd]
  have hself1 : self ∉ ps := fun h => absurd (hop self (List.mem_append_left _ h)) (lt_irrefl _)
  have hself2 : self ∉ qs := fun h => absurd (hop self (List.mem_append_right _ h)) (lt_irrefl _)
  have hnd1 : ps.Nodup := (List.nodup_append.mp hnd).1
  have hnd2 : qs.Nodup := (List.nodup_append.mp hnd).2.1
  have hdis : ∀ a, a ∈ ps → a ∈ qs → False := fun a ha hb => (List.nodup_append.mp hnd).2.2 ha hb
  have hadj : ∀ q, q < σ.var_stack_.length → (chain σ self).adj q
      = σ.adj q
        + ((ps.zip (qs.map σ.val)).map (fun p => if p.1 = q then σ.adj self * p.2 else 0)).sum
        + ((qs.zip (ps.map σ.val)).map (fun p => if p.1 = q then σ.adj self * p.2 else 0)).sum := by
    intro q hq
    rw [hc, chain_vari_vari_adj σ self v1 v2 n q hq (by rw [h1]; exact hself1), h1, h2]
  refine ⟨?_, ?_, ?_, ?_⟩
  · intro i hi
    have hp : ps[i]? = some (ps.getD i 0) := by
      simp [List.getD_eq_getElem?_getD, List.getElem?_eq_getElem (hl1 ▸ hi)]
    have hq : qs[i]? = some (qs.getD i 0) := by
      simp [List.getD_eq_getElem?_getD, List.getElem?_eq_getElem (hl2 ▸ hi)]
    have mp : ps.getD i 0 ∈ ps := List.getElem?_mem hp
    have mq : qs.getD i 0 ∈ qs := List.getElem?_mem hq
    constructor
    · rw [hadj _ (lt_trans (hop _ (List.mem_append_left _ mp)) hs),
        sum_zip_nodup _ _ ps hnd1 _ i (σ.val (qs.getD i 0)) hp (by rw [List.getElem?_map, hq]; rfl),
        sum_zip_not_mem _ _ qs (fun h => hdis _ mp h), add_zero]
    · rw [hadj _ (lt_trans (hop _ (List.mem_append_right _ mq)) hs),
        sum_zip_not_mem _ _ ps (fun h => hdis _ h mq),
        sum_zip_nodup _ _ qs hnd2 _ i (σ.val (ps.getD i 0)) hq (by rw [List.getElem?_map, hp]; rfl),
        add_zero]
  · rw [hc, chain_vari_vari_val]
  · rw [hadj self hs, sum_zip_not_mem _ _ ps hself1, sum_zip_not_mem _ _ qs hself2, add_zero,
      add_zero]
  · intro p
    rw [hc, chain_vari_vari_val]

/-- C2 at a concrete input: with output adjoint 6, the adjoints 10, 20, 30, 40
of the operands valued 2, 3, 5, 7 become 40, 62, 42, 58. -/
theorem chain_both_differentiable_witness :
    ((∀ i, i < 2 →
      (chain σ1 4).adj ([0, 1].getD i 0)
          = σ1.adj ([0, 1].getD i 0) + σ1.adj 4 * σ1.val ([2, 3].getD i 0) ∧
      (chain σ1 4).adj ([2, 3].getD i 0)
          = σ1.adj ([2, 3].getD i 0) + σ1.adj 4 * σ1.val ([0, 1].getD i 0)) ∧
    (chain σ1 4).val 4 = σ1.val 4 ∧
    (chain σ1 4).adj 4 = σ1.adj 4 ∧
    (∀ p, (chain σ1 4).val p = σ1.val p)) ∧
    [(chain σ1 4).adj 0, (chain σ1 4).adj 1, (chain σ1 4).adj 2, (chain σ1 4).adj 3]
      = [40, 62, 42, 58] :=
  ⟨chain_both_differentiable σ1 4 (.arena 0) (.arena 1) 2 [0, 1] [2, 3] rfl rfl rfl rfl rfl
    (by decide) (by decide), by decide⟩

/-- C4: for a dot-product node at `self` with one differentiable operand (node
pointers `ps`) and one plain-numeric operand (stored snapshot `cs`), in either
order, `chain()` with output adjoint `a = adj(self)` adds `a * cs[i]` to the
adjoint of `ps[i]` for every `i < n`: the adjoint of a node grows by the sum of
`a * cs[i]` over the positions holding it, which is `a * cs[i]` for the `i`-th
node when the nodes are distinct; no other adjoint, no value and no array
changes. -/
theorem chain_one_differentiable (σ : State R) (self : Nat) (pv pd : ptr) (n : Nat)
    (ps : List Nat) (cs : List R)
    (hd : σ.dot self = some ⟨.vari_pp pv, .double_p pd, n⟩
      ∨ σ.dot self = some ⟨.double_p pd, .vari_pp pv, n⟩)
    (h1 : σ.vis pv n = ps) (h2 : σ.dbl pd n = cs)
    (hl1 : ps.length = n) (hl2 : cs.length = n)
    (hv : ∀ p ∈ ps, p < σ.var_stack_.length) :
    (∀ q, q < σ.var_stack_.length →
      (chain σ self).adj q = σ.adj q + contrib (σ.adj self) q ps cs) ∧
    (ps.Nodup → ∀ i, i < n →
      (chain σ self).adj (ps.getD i 0) = σ.adj (ps.getD i 0) + σ.adj self * cs.getD i 0) ∧
    (∀ q, q ∉ ps → (chain σ self).adj q = σ.adj q) ∧
    (∀ q, (chain σ self).val q = σ.val q) ∧
    (chain σ self).memalloc_ = σ.memalloc_ ∧ (chain σ self).heap = σ.heap := by
  have hc : chain σ self = adj_add_dbl σ (σ.adj self) ps cs := by
    rcases hd with hd | hd
    · simp only [chain, op_of_dot σ self _ hd, chain_vari_double, h1, h2]
    · simp only [chain, op_of_dot σ self _ hd, chain_double_vari, h1, h2]
  have hadj : ∀ q, q < σ.var_stack_.length →
      (chain σ self).adj q = σ.adj q + contrib (σ.adj self) q ps cs := by
    intro q hq
    rw [hc, adj_add_dbl_adj _ _ _ _ σ hq, contrib]
  refine ⟨hadj, ?_, ?_, fun q => chain_val σ self q, chain_memalloc σ self, chain_heap σ self⟩
  · intro hnd i hi
    have hp : ps[i]? = some (ps.getD i 0) := by
      simp [List.getD_eq_getElem?_getD, List.getElem?_eq_getElem (hl1 ▸ hi)]
    have hx : cs[i]? = some (cs.getD i 0) := by
      simp [List.getD_eq_getElem?_getD, List.getElem?_eq_getElem (hl2 ▸ hi)]
    rw [hadj _ (hv _ (List.getElem?_mem hp)), contrib, sum_zip_nodup _ _ ps hnd cs i _ hp hx]
  · intro q hq
    by_cases hlt : q < σ.var_stack_.length
    · rw [hadj q hlt, contrib, sum_zip_not_mem _ _ ps hq, add_zero]
    · rw [adj_of_ge σ q (not_lt.mp hlt),
        adj_of_ge _ q (by rw [chain_length]; exact not_lt.mp hlt)]

/-- C4 at a concrete input: with output adjoint 6 and snapshot `[4, 6]`, the
adjoints 10 and 20 of the two operand nodes become 34 and 56. -/
theorem chain_one_differentiable_witness :
    ((∀ q, q < σ2.var_stack_.length →
      (chain σ2 3).adj q = σ2.adj q + contrib (σ2.adj 3) q [0, 1] [4, 6]) ∧
    ([0, 1].Nodup → ∀ i, i < 2 →
      (chain σ2 3).adj ([0, 1].getD i 0)
        = σ2.adj ([0, 1].getD i 0) + σ2.adj 3 * ([4, 6] : List Int).getD i 0) ∧
    (∀ q, q ∉ [0, 1] → (chain σ2 3).adj q = σ2.adj q) ∧
    (∀ q, (chain σ2 3).val q = σ2.val q) ∧
    (chain σ2 3).memalloc_ = σ2.memalloc_ ∧ (chain σ2 3).heap = σ2.heap) ∧
    [(chain σ2 3).adj 0, (chain σ2 3).adj 1, (chain σ2 3).adj 2, (chain σ2 3).adj 3]
      = [34, 56, 30, 6] :=
  ⟨chain_one_differentiable σ2 3 (.arena 0) (.arena 1) 2 [0, 1] [4, 6] (Or.inr rfl) rfl rfl rfl
    rfl (by decide), by decide⟩

/-- C3 fails as stated: for `dot_product(v, v)` with `v = [x]`, `value(x) = 3`, all
adjoints zeroed and the output seeded with 1, `chain()` leaves the adjoint 6 in
`x`, not `value(v2[0]) = 3`: the aliased operand receives both contributions. -/
theorem dot_product_gradient_aliased :
    dot_product_returns σ3 (.vis [0]) (.vis [0]) 1 r3
    ∧ (chain ((r3.2.set_zero_all_adjoints).set_adj r3.1.vi_ 1) r3.1.vi_).adj 0 = 6
    ∧ σ3.value_at (.vis [0]) 0 = 3
    ∧ ¬ (∀ i, i < 1 → ∀ p, (block.vis [0] : block Int).nodes[i]? = some p →
        (chain ((r3.2.set_zero_all_adjoints).set_adj r3.1.vi_ 1) r3.1.vi_).adj p
          = σ3.value_at (.vis [0]) i) := by
  refine ⟨Or.inl ⟨.vari_pp (.heap 0), .vari_pp (.heap 0), ⟨rfl, rfl⟩, ⟨rfl, rfl⟩, rfl⟩,
    by decide, by decide, ?_⟩
  intro h
  exact absurd (h 0 (by decide) 0 rfl) (by decide)

/-- C3: for equal-length operands `b1`, `b2` whose handles refer to nodes of the
tape and are pairwise distinct, after a successful `dot_product` (any of the
three overloads), with all adjoints zeroed, the output adjoint seeded to 1 and
the node's `chain()` run, the adjoint of `b1[i]` is `value(b2[i])` and the
adjoint of `b2[i]` is `value(b1[i])`, for every `i < n`. -/
theorem dot_product_gradient (σ : State R) (b1 b2 : block R) (n : Nat) (r : var × State R)
    (hn1 : b1.size = n) (hn2 : b2.size = n)
    (hr : dot_product_returns σ b1 b2 n r)
    (hv : ∀ p ∈ b1.nodes ++ b2.nodes, p < σ.var_stack_.length)
    (hnd : (b1.nodes ++ b2.nodes).Nodup) :
    ∀ i, i < n →
      (∀ p, b1.nodes[i]? = some p →
        (chain ((r.2.set_zero_all_adjoints).set_adj r.1.vi_ 1) r.1.vi_).adj p
          = σ.value_at b2 i) ∧
      (∀ p, b2.nodes[i]? = some p →
        (chain ((r.2.set_zero_all_adjoints).set_adj r.1.vi_ 1) r.1.vi_).adj p
          = σ.value_at b1 i) := by
  obtain ⟨m1, m2, e1, e2, hn, hvi, hst⟩ := returns_eq σ b1 b2 n r hn1 hn2 hr
  subst e1 e2
  obtain ⟨s1, s2, ex, heq, -⟩ := of_eigen_spec σ m1 m2 none none n hn hn1 hn2
    (fun s h => by simp [State.shared_v1] at h) (fun s h => by simp [State.shared_v2] at h)
  have hself : r.1.vi_ = σ.var_stack_.length := by rw [hvi, heq]
  have hlen : r.2.var_stack_.length = σ.var_stack_.length + 1 := by
    rw [hst, heq]; simp
  rw [hself]
  have hlz : r.2.set_zero_all_adjoints.var_stack_.length = σ.var_stack_.length + 1 := by
    rw [length_set_zero, hlen]
  have key : ∀ q, q < σ.var_stack_.length →
      (chain ((r.2.set_zero_all_adjoints).set_adj σ.var_stack_.length 1)
        σ.var_stack_.length).adj q
      = contrib 1 q m1.data.nodes (σ.block_val m2.data)
        + contrib 1 q m2.data.nodes (σ.block_val m1.data) := by
    intro q hq
    have hadj : ∀ p, ((r.2.set_zero_all_adjoints).set_adj σ.var_stack_.length 1).adj p
        = if p = σ.var_stack_.length then 1 else 0 := by
      intro p
      rw [adj_set_adj _ _ _ _ (by rw [hlz]; exact Nat.lt_succ_self _), adj_set_zero]
    rw [chain_adj_built σ _ m1 m2 none none n hn hn1 hn2
      (fun s h => by simp [State.shared_v1] at h) (fun s h => by simp [State.shared_v2] at h)
      hv (by rw [length_set_adj, hlz])
      (fun p => by rw [val_set_adj, val_set_zero, hst])
      (fun p => by rw [dot_set_adj, dot_set_zero, hst])
      (by rw [memalloc_set_adj, ← hst]; rfl)
      (Or.inl (by rw [heap_set_adj, ← hst]; rfl)) q (Nat.lt_succ_of_lt hq),
      hadj, hadj, if_neg (Nat.ne_of_lt hq), if_pos rfl, zero_add]
  have hnd1 : m1.data.nodes.Nodup := (List.nodup_append.mp hnd).1
  have hnd2 : m2.data.nodes.Nodup := (List.nodup_append.mp hnd).2.1
  have hdis : ∀ a, a ∈ m1.data.nodes → a ∈ m2.data.nodes → False :=
    fun a ha hb => (List.nodup_append.mp hnd).2.2 ha hb
  intro i hi
  constructor
  · intro p hp
    have mp : p ∈ m1.data.nodes := List.getElem?_mem hp
    rw [key p (hv p (List.mem_append_left _ mp)),
      contrib_nodup 1 p _ hnd1 _ i _ hp (block_val_getElem? σ m2.data i (hn2 ▸ hi)),
      contrib_not_mem 1 p _ (fun h => hdis p mp h), one_mul, add_zero]
  · intro p hp
    have mp : p ∈ m2.data.nodes := List.getElem?_mem hp
    rw [key p (hv p (List.mem_append_right _ mp)),
      contrib_not_mem 1 p _ (fun h => hdis p h mp),
      contrib_nodup 1 p _ hnd2 _ i _ hp (block_val_getElem? σ m1.data i (hn1 ▸ hi)),
      one_mul, zero_add]

/-- C3 at a concrete input: the handles `[0, 1]` against `[2, 3]` of nodes valued 2,
3, 5, 7 receive the gradients 5, 7, 2, 3. -/
theorem dot_product_gradient_witness :
    (∀ i, i < 2 →
      (∀ p, (block.vis [0, 1] : block Int).nodes[i]? = some p →
        (chain ((r0.2.set_zero_all_adjoints).set_adj r0.1.vi_ 1) r0.1.vi_).adj p
          = σ0.value_at (.vis [2, 3]) i) ∧
      (∀ p, (block.vis [2, 3] : block Int).nodes[i]? = some p →
        (chain ((r0.2.set_zero_all_adjoints).set_adj r0.1.vi_ 1) r0.1.vi_).adj p
          = σ0.value_at (.vis [0, 1]) i)) ∧
    [0, 1, 2, 3].map (chain ((r0.2.set_zero_all_adjoints).set_adj r0.1.vi_ 1) r0.1.vi_).adj
      = [5, 7, 2, 3] :=
  ⟨dot_product_gradient σ0 (.vis [0, 1]) (.vis [2, 3]) 2 r0 rfl rfl
    (Or.inl ⟨.vari_pp (.heap 0), .vari_pp (.heap 1), ⟨rfl, rfl⟩, ⟨rfl, rfl⟩, rfl⟩)
    (by decide) (by decide), by decide⟩

/-- C5: when the lengths of the two inputs differ, `dot_product` reports an error
and leaves the state (tape, arena, caller memory) exactly as it was, for the
Eigen overload (whatever the shapes) and for the `std::vector` overload; the
result is an error, never a product of a truncated length.  When the size check
is the one that fails, the error is the size mismatch of `v1` and `v2`. -/
theorem dot_product_size_mismatch (σ : State R) (n1 n2 : Nat) (hne : n1 ≠ n2) :
    (∀ v1 v2 : Eigen.Matrix R, v1.size = n1 → v2.size = n2 →
      ∃ e, dot_product_eigen σ v1 v2 = (.error e, σ)) ∧
    (∀ v1 v2 : Eigen.Matrix R, v1.size = n1 → v2.size = n2 →
      (v1.rows = 1 ∨ v1.cols = 1) → (v2.rows = 1 ∨ v2.cols = 1) →
      dot_product_eigen σ v1 v2 = (.error (.size_mismatch "dot_product" "v1" "v2"), σ)) ∧
    (∀ v1 v2 : std.vector, v1.size = n1 → v2.size = n2 →
      dot_product_vector σ v1 v2 = (.error (.size_mismatch "dot_product" "v1" "v2"), σ)) := by
  refine ⟨?_, ?_, ?_⟩
  · intro v1 v2 e1 e2
    have hs : ¬ v1.size = v2.size := by rw [e1, e2]; exact hne
    unfold dot_product_eigen check_vector check_matching_sizes
    by_cases c1 : v1.rows = 1 ∨ v1.cols = 1
    · by_cases c2 : v2.rows = 1 ∨ v2.cols = 1
      · exact ⟨_, by simp only [if_pos c1, if_pos c2, if_neg hs]; rfl⟩
      · exact ⟨_, by simp only [if_pos c1, if_neg c2]; rfl⟩
    · exact ⟨_, by simp only [if_neg c1]; rfl⟩
  · intro v1 v2 e1 e2 c1 c2
    have hs : ¬ v1.size = v2.size := by rw [e1, e2]; exact hne
    unfold dot_product_eigen check_vector check_matching_sizes
    simp only [if_pos c1, if_pos c2, if_neg hs]
  · intro v1 v2 e1 e2
    have hs : ¬ v1.size = v2.size := by rw [e1, e2]; exact hne
    unfold dot_product_vector check_matching_sizes
    simp only [if_neg hs]

/-- C5 at concrete inputs: a 1 x 2 row of handles against a 3 x 1 column of
numbers, and a vector of size 2 against one of size 3, in state `σ0`. -/
theorem dot_product_size_mismatch_witness :
    dot_product_eigen σ0 ⟨1, 2, .vis [0, 1]⟩ ⟨3, 1, .dbl [4, 6, 8]⟩
      = (.error (.size_mismatch "dot_product" "v1" "v2"), σ0) ∧
    dot_product_vector σ0 ⟨.vari_pp (.heap 0), 2⟩ ⟨.double_p (.heap 2), 3⟩
      = (.error (.size_mismatch "dot_product" "v1" "v2"), σ0) :=
  ⟨(dot_product_size_mismatch σ0 2 3 (by decide)).2.1 ⟨1, 2, .vis [0, 1]⟩
      ⟨3, 1, .dbl [4, 6, 8]⟩ rfl rfl (Or.inl rfl) (Or.inr rfl),
    (dot_product_size_mismatch σ0 2 3 (by decide)).2.2 ⟨.vari_pp (.heap 0), 2⟩
      ⟨.double_p (.heap 2), 3⟩ rfl rfl⟩

/-- C6: the Eigen overload checks the shape of `v1`, then the shape of `v2`, then
the sizes, and builds the node only when all three pass.  An operand with more
than one row and more than one column makes the call report an error and leave
the state as it was; the error names `v1` when `v1` is the offender, `v2` when
only `v2` is; with both vector-shaped, unequal sizes give the size mismatch and
equal sizes give the node of the Eigen constructor. -/
theorem dot_product_not_vector (σ : State R) (v1 v2 : Eigen.Matrix R) :
    (1 < v1.rows ∧ 1 < v1.cols →
      dot_product_eigen σ v1 v2 = (.error (.not_vector "dot_product" "v1"), σ)) ∧
    (1 < v2.rows ∧ 1 < v2.cols → ∃ e, dot_product_eigen σ v1 v2 = (.error e, σ)) ∧
    ((v1.rows = 1 ∨ v1.cols = 1) → 1 < v2.rows ∧ 1 < v2.cols →
      dot_product_eigen σ v1 v2 = (.error (.not_vector "dot_product" "v2"), σ)) ∧
    ((v1.rows = 1 ∨ v1.cols = 1) → (v2.rows = 1 ∨ v2.cols = 1) → v1.size ≠ v2.size →
      dot_product_eigen σ v1 v2 = (.error (.size_mismatch "dot_product" "v1" "v2"), σ)) ∧
    ((v1.rows = 1 ∨ v1.cols = 1) → (v2.rows = 1 ∨ v2.cols = 1) → v1.size = v2.size →
      dot_product_eigen σ v1 v2
        = (.ok ⟨(dot_product_vari.of_eigen σ v1 v2 none none).1⟩,
            (dot_product_vari.of_eigen σ v1 v2 none none).2)) ∧
    (∀ x τ, dot_product_eigen σ v1 v2 = (.ok x, τ) →
      (v1.rows = 1 ∨ v1.cols = 1) ∧ (v2.rows = 1 ∨ v2.cols = 1) ∧ v1.size = v2.size) := by
  have nv : ∀ m : Eigen.Matrix R, 1 < m.rows ∧ 1 < m.cols → ¬ (m.rows = 1 ∨ m.cols = 1) := by
    intro m h hc
    rcases hc with hc | hc <;> omega
  refine ⟨?_, ?_, ?_, ?_, ?_, ?_⟩
  · intro h
    unfold dot_product_eigen check_vector
    simp only [if_neg (nv v1 h)]
  · intro h
    unfold dot_product_eigen check_vector
    by_cases c1 : v1.rows = 1 ∨ v1.cols = 1
    · exact ⟨_, by simp only [if_pos c1, if_neg (nv v2 h)]; rfl⟩
    · exact ⟨_, by simp only [if_neg c1]; rfl⟩
  · intro c1 h
    unfold dot_product_eigen check_vector
    simp only [if_pos c1, if_neg (nv v2 h)]
  · intro c1 c2 hs
    unfold dot_product_eigen check_vector check_matching_sizes
    simp only [if_pos c1, if_pos c2, if_neg hs]
  · intro c1 c2 hs
    unfold dot_product_eigen check_vector check_matching_sizes
    simp only [if_pos c1, if_pos c2, if_pos hs]
  · intro x τ h
    unfold dot_product_eigen check_vector check_matching_sizes at h
    by_cases c1 : v1.rows = 1 ∨ v1.cols = 1
    · by_cases c2 : v2.rows = 1 ∨ v2.cols = 1
      · by_cases hs : v1.size = v2.size
        · exact ⟨c1, c2, hs⟩
        · simp [if_pos c1, if_pos c2, if_neg hs] at h
      · simp [if_pos c1, if_neg c2] at h
    · simp [if_neg c1] at h

/-- C6 at concrete inputs: a 2 x 2 matrix as first operand, and as second operand
of a 1 x 2 row, in state `σ0`. -/
theorem dot_product_not_vector_witness :
    dot_product_eigen σ0 ⟨2, 2, .vis [0, 1, 2, 3]⟩ ⟨2, 2, .dbl [4, 6, 8, 9]⟩
      = (.error (.not_vector "dot_product" "v1"), σ0) ∧
    dot_product_eigen σ0 ⟨1, 2, .vis [0, 1]⟩ ⟨2, 2, .dbl [4, 6, 8, 9]⟩
      = (.error (.not_vector "dot_product" "v2"), σ0) :=
  ⟨(dot_product_not_vector σ0 ⟨2, 2, .vis [0, 1, 2, 3]⟩ ⟨2, 2, .dbl [4, 6, 8, 9]⟩).1
      ⟨by decide, by decide⟩,
    (dot_product_not_vector σ0 ⟨1, 2, .vis [0, 1]⟩ ⟨2, 2, .dbl [4, 6, 8, 9]⟩).2.2.1
      (Or.inl rfl) ⟨by decide, by decide⟩⟩

/-- C7: the shared-snapshot path is value-transparent.  Let `b1`, `b2` be the
coefficient arrays of the operands, and let each sharing node given (`shared_v1`,
`shared_v2`, either or both) hold in its member an array equal to the operand it
stands for.  Then the node built with sharing and the node built without sharing
get the same reference, the same values and adjoints everywhere on the tape, and
for every output adjoint `a`, seeding it and running `chain()` leaves the same
adjoint in every node; this holds for the raw-array and the Eigen constructor. -/
theorem shared_snapshot_transparent (σ : State R) (b1 b2 : block R) (n : Nat)
    (sh1 sh2 : Option Nat) (hn1 : b1.size = n) (hn2 : b2.size = n)
    (hv : ∀ p ∈ b1.nodes ++ b2.nodes, p < σ.var_stack_.length)
    (hs1 : ∀ s d, sh1 = some s → σ.dot s = some d → σ.holds d.v1_ b1)
    (hs2 : ∀ s d, sh2 = some s → σ.dot s = some d → σ.holds d.v2_ b2) :
    (∀ v1 v2 : store, σ.holds v1 b1 → σ.holds v2 b2 →
      (dot_product_vari.of_arrays σ v1 v2 n sh1 sh2).1
          = (dot_product_vari.of_arrays σ v1 v2 n none none).1
      ∧ (∀ q, (dot_product_vari.of_arrays σ v1 v2 n sh1 sh2).2.val q
          = (dot_product_vari.of_arrays σ v1 v2 n none none).2.val q)
      ∧ (∀ q, (dot_product_vari.of_arrays σ v1 v2 n sh1 sh2).2.adj q
          = (dot_product_vari.of_arrays σ v1 v2 n none none).2.adj q)
      ∧ (∀ (a : R) (q : Nat),
          (seed_and_chain (dot_product_vari.of_arrays σ v1 v2 n sh1 sh2) a).adj q
            = (seed_and_chain (dot_product_vari.of_arrays σ v1 v2 n none none) a).adj q)) ∧
    (∀ m1 m2 : Eigen.Matrix R, m1.data = b1 → m2.data = b2 → m1.size = n →
      (dot_product_vari.of_eigen σ m1 m2 sh1 sh2).1
          = (dot_product_vari.of_eigen σ m1 m2 none none).1
      ∧ (∀ q, (dot_product_vari.of_eigen σ m1 m2 sh1 sh2).2.val q
          = (dot_product_vari.of_eigen σ m1 m2 none none).2.val q)
      ∧ (∀ q, (dot_product_vari.of_eigen σ m1 m2 sh1 sh2).2.adj q
          = (dot_product_vari.of_eigen σ m1 m2 none none).2.adj q)
      ∧ (∀ (a : R) (q : Nat),
          (seed_and_chain (dot_product_vari.of_eigen σ m1 m2 sh1 sh2) a).adj q
            = (seed_and_chain (dot_product_vari.of_eigen σ m1 m2 none none) a).adj q)) := by
  have eig : ∀ m1 m2 : Eigen.Matrix R, m1.data = b1 → m2.data = b2 → m1.size = n →
      (dot_product_vari.of_eigen σ m1 m2 sh1 sh2).1
          = (dot_product_vari.of_eigen σ m1 m2 none none).1
      ∧ (∀ q, (dot_product_vari.of_eigen σ m1 m2 sh1 sh2).2.val q
          = (dot_product_vari.of_eigen σ m1 m2 none none).2.val q)
      ∧ (∀ q, (dot_product_vari.of_eigen σ m1 m2 sh1 sh2).2.adj q
          = (dot_product_vari.of_eigen σ m1 m2 none none).2.adj q)
      ∧ (∀ (a : R) (q : Nat),
          (seed_and_chain (dot_product_vari.of_eigen σ m1 m2 sh1 sh2) a).adj q
            = (seed_and_chain (dot_product_vari.of_eigen σ m1 m2 none none) a).adj q) := by
    intro m1 m2 e1 e2 hn
    subst e1 e2
    have g1 := shared_v1_holds σ sh1 m1.data hs1
    have g2 := shared_v2_holds σ sh2 m2.data hs2
    have k1 := shared_v1_holds σ none m1.data (fun s d h => by simp at h)
    have k2 := shared_v2_holds σ none m2.data (fun s d h => by simp at h)
    obtain ⟨s1, s2, ex, heq, -⟩ := of_eigen_spec σ m1 m2 sh1 sh2 n hn hn1 hn2 g1 g2
    obtain ⟨t1, t2, ex', heq', -⟩ := of_eigen_spec σ m1 m2 none none n hn hn1 hn2 k1 k2
    have sA : (dot_product_vari.of_eigen σ m1 m2 sh1 sh2).2.var_stack_ = σ.var_stack_
        ++ [⟨var_dot_eigen σ m1 m2, 0, .dot_product ⟨s1, s2, n⟩⟩] := by rw [heq]
    have sB : (dot_product_vari.of_eigen σ m1 m2 none none).2.var_stack_ = σ.var_stack_
        ++ [⟨var_dot_eigen σ m1 m2, 0, .dot_product ⟨t1, t2, n⟩⟩] := by rw [heq']
    have eA : (dot_product_vari.of_eigen σ m1 m2 sh1 sh2).2.heap = σ.heap := by rw [heq]
    have eB : (dot_product_vari.of_eigen σ m1 m2 none none).2.heap = σ.heap := by rw [heq']
    have iA : (dot_product_vari.of_eigen σ m1 m2 sh1 sh2).1 = σ.var_stack_.length := by
      rw [heq]
    have iB : (dot_product_vari.of_eigen σ m1 m2 none none).1 = σ.var_stack_.length := by
      rw [heq']
    refine ⟨by rw [iA, iB], ?_, ?_, ?_⟩
    · intro q
      rw [val_built σ _ _ sA, val_built σ _ _ sB]
    · intro q
      rw [adj_built σ _ _ sA, adj_built σ _ _ sB]
    · intro a q
      simp only [seed_and_chain, iA, iB]
      rw [seeded_chain_adj σ _ m1 m2 sh1 sh2 n hn hn1 hn2 g1 g2 hv rfl rfl (Or.inl eA),
        seeded_chain_adj σ _ m1 m2 none none n hn hn1 hn2 k1 k2 hv rfl rfl (Or.inl eB)]
  refine ⟨?_, eig⟩
  intro v1 v2 h1 h2
  rw [of_arrays_eq_of_eigen σ v1 v2 n sh1 sh2 b1 b2 h1 h2 hn1 hn2,
    of_arrays_eq_of_eigen σ v1 v2 n none none b1 b2 h1 h2 hn1 hn2]
  exact eig ⟨n, 1, b1⟩ ⟨n, 1, b2⟩ rfl rfl (by simp [Eigen.Matrix.size])

/-- C7 at a concrete input: in the state left by `dot_product([0, 1], [2, 3])`,
whose node 4 holds snapshots of both arrays, a second node of the same arrays is
built sharing both snapshots of node 4 and built without sharing; seeded with 3,
`chain()` leaves the adjoint `3 * 5` in node 0 either way. -/
theorem shared_snapshot_transparent_witness :
    (seed_and_chain (dot_product_vari.of_arrays r0.2 (.vari_pp (.heap 0)) (.vari_pp (.heap 1)) 2
        (some 4) (some 4)) 3).adj 0
      = (seed_and_chain (dot_product_vari.of_arrays r0.2 (.vari_pp (.heap 0))
          (.vari_pp (.heap 1)) 2 none none) 3).adj 0 ∧
    (seed_and_chain (dot_product_vari.of_arrays r0.2 (.vari_pp (.heap 0)) (.vari_pp (.heap 1)) 2
        (some 4) (some 4)) 3).adj 0 = 15 ∧
    (dot_product_vari.of_arrays r0.2 (.vari_pp (.heap 0)) (.vari_pp (.heap 1)) 2
        (some 4) (some 4)).2.memalloc_.length = 2 ∧
    (dot_product_vari.of_arrays r0.2 (.vari_pp (.heap 0)) (.vari_pp (.heap 1)) 2
        none none).2.memalloc_.length = 4 :=
  ⟨((shared_snapshot_transparent r0.2 (.vis [0, 1]) (.vis [2, 3]) 2 (some 4) (some 4) rfl rfl
      (by decide)
      (fun s d h hd => by
        cases h
        have e : some (⟨.vari_pp (.arena 0), .vari_pp (.arena 1), 2⟩ : dot_product_vari)
            = some d := hd
        cases e
        exact ⟨rfl, rfl⟩)
      (fun s d h hd => by
        cases h
        have e : some (⟨.vari_pp (.arena 0), .vari_pp (.arena 1), 2⟩ : dot_product_vari)
            = some d := hd
        cases e
        exact ⟨rfl, rfl⟩)).1
      (.vari_pp (.heap 0)) (.vari_pp (.heap 1)) ⟨rfl, rfl⟩ ⟨rfl, rfl⟩).2.2.2 3 0,
    by decide, by decide, by decide⟩

/-- C7 fails when the array was overwritten after the sharing node was built.
Node 4 of `τ7` was built from the handle array at heap address 0 when it held
`[0, 1]`; the caller then overwrote that array with `[2, 3]`.  A second node
built from the same address has the value `5 * 4 + 7 * 6 = 62` with and without
sharing, but seeded with 1 its `chain()` adds `4` and `6` to nodes 0 and 1 when
it shares the snapshot of node 4, and to nodes 2 and 3 when it does not. -/
theorem shared_snapshot_stale :
    r8 = dot_product_vari.of_arrays σ0 (.vari_pp (.heap 0)) (.double_p (.heap 2)) 2 none none ∧
    r8.1 = 4 ∧ τ7.var_stack_ = r8.2.var_stack_ ∧ τ7.memalloc_ = r8.2.memalloc_ ∧
    (dot_product_vari.of_arrays τ7 (.vari_pp (.heap 0)) (.double_p (.heap 2)) 2
        (some 4) none).2.val 5 = 62 ∧
    (dot_product_vari.of_arrays τ7 (.vari_pp (.heap 0)) (.double_p (.heap 2)) 2
        none none).2.val 5 = 62 ∧
    [0, 1, 2, 3].map (seed_and_chain (dot_product_vari.of_arrays τ7 (.vari_pp (.heap 0))
        (.double_p (.heap 2)) 2 (some 4) none) 1).adj = [4, 6, 0, 0] ∧
    [0, 1, 2, 3].map (seed_and_chain (dot_product_vari.of_arrays τ7 (.vari_pp (.heap 0))
        (.double_p (.heap 2)) 2 none none) 1).adj = [0, 0, 4, 6] ∧
    (seed_and_chain (dot_product_vari.of_arrays τ7 (.vari_pp (.heap 0))
        (.double_p (.heap 2)) 2 (some 4) none) 1).adj 0
      ≠ (seed_and_chain (dot_product_vari.of_arrays τ7 (.vari_pp (.heap 0))
        (.double_p (.heap 2)) 2 none none) 1).adj 0 := by
  refine ⟨rfl, ?_, rfl, rfl, ?_, ?_, ?_, ?_, ?_⟩ <;> decide

/-- A node built by an Eigen constructor without sharing does not depend on
caller-owned memory: in any state with the tape and arena the constructor left,
its members point into the arena, to arrays equal to the operands at
construction, and `chain()` leaves the same adjoints and values. -/
theorem of_eigen_decoupled (σ : State R) (m1 m2 : Eigen.Matrix R) (n : Nat)
    (hn : m1.size = n) (hn1 : m1.data.size = n) (hn2 : m2.data.size = n)
    (hv : ∀ p ∈ m1.data.nodes ++ m2.data.nodes, p < σ.var_stack_.length)
    (τ : State R)
    (hstack : τ.var_stack_ = (dot_product_vari.of_eigen σ m1 m2 none none).2.var_stack_)
    (hmem : τ.memalloc_ = (dot_product_vari.of_eigen σ m1 m2 none none).2.memalloc_) :
    (∃ d, (dot_product_vari.of_eigen σ m1 m2 none none).2.dot
            (dot_product_vari.of_eigen σ m1 m2 none none).1 = some d
        ∧ τ.dot (dot_product_vari.of_eigen σ m1 m2 none none).1 = some d
        ∧ d.length_ = n
        ∧ (∃ a, d.v1_.addr = .arena a) ∧ (∃ a, d.v2_.addr = .arena a)
        ∧ (dot_product_vari.of_eigen σ m1 m2 none none).2.holds d.v1_ m1.data
        ∧ (dot_product_vari.of_eigen σ m1 m2 none none).2.holds d.v2_ m2.data
        ∧ τ.holds d.v1_ m1.data ∧ τ.holds d.v2_ m2.data) ∧
    (∀ (a : R) (q : Nat),
      (seed_and_chain ((dot_product_vari.of_eigen σ m1 m2 none none).1, τ) a).adj q
        = (seed_and_chain (dot_product_vari.of_eigen σ m1 m2 none none) a).adj q) ∧
    (∀ (a : R) (q : Nat),
      (seed_and_chain ((dot_product_vari.of_eigen σ m1 m2 none none).1, τ) a).val q
        = (seed_and_chain (dot_product_vari.of_eigen σ m1 m2 none none) a).val q) := by
  have k1 := shared_v1_holds σ none m1.data (fun s d h => by simp at h)
  have k2 := shared_v2_holds σ none m2.data (fun s d h => by simp at h)
  obtain ⟨s1, s2, ex, heq, hholds, ha1, ha2, -⟩ :=
    of_eigen_spec σ m1 m2 none none n hn hn1 hn2 k1 k2
  have i0 : (dot_product_vari.of_eigen σ m1 m2 none none).1 = σ.var_stack_.length := by
    rw [heq]
  have e0 : (dot_product_vari.of_eigen σ m1 m2 none none).2.heap = σ.heap := by
    rw [heq]
  have m0 : (dot_product_vari.of_eigen σ m1 m2 none none).2.memalloc_
      = σ.memalloc_ ++ ex := by rw [heq]
  have s0 : (dot_product_vari.of_eigen σ m1 m2 none none).2.var_stack_
      = σ.var_stack_ ++ [⟨var_dot_eigen σ m1 m2, 0, .dot_product ⟨s1, s2, n⟩⟩] := by
    rw [heq]
  have base := hholds _ m0 e0
  obtain ⟨a1, x1⟩ := ha1 rfl
  obtain ⟨a2, x2⟩ := ha2 rfl
  refine ⟨⟨⟨s1, s2, n⟩, ?_, ?_, rfl, ⟨a1, x1⟩, ⟨a2, x2⟩, base.1, base.2,
    holds_arena _ τ hmem s1 _ a1 x1 base.1, holds_arena _ τ hmem s2 _ a2 x2 base.2⟩, ?_, ?_⟩
  · rw [i0]
    simpa [vari.dot] using dot_append_new σ _ _ s0
  · rw [i0]
    simpa [vari.dot] using dot_append_new σ τ _ (hstack.trans s0)
  · intro a q
    simp only [seed_and_chain, i0]
    rw [seeded_chain_adj σ τ _ _ none none n hn hn1 hn2 k1 k2 hv hstack hmem (Or.inr ⟨rfl, rfl⟩),
      seeded_chain_adj σ _ _ _ none none n hn hn1 hn2 k1 k2 hv rfl rfl (Or.inl e0)]
  · intro a q
    simp only [seed_and_chain, chain_val, val_set_adj]
    simp only [State.val, hstack]

/-- C8 fails for the first constructor, which also builds a node without
sharing: it stores the caller's pointers and takes no snapshot.  For the node
`r_ptrs` of `[0, 1]` and `[2, 3]`, seeded with 1, `chain()` adds `5, 7, 2, 3` to
the adjoints of nodes 0 to 3; after the caller has replaced element 0 of the
first array by a handle to node 3, the same node adds `0, 7, 7, 8`. -/
theorem of_ptrs_follows_caller :
    r_ptrs = dot_product_vari.of_ptrs σ0 (.heap 0) (.heap 1) 2 ∧
    τ_ptrs.var_stack_ = r_ptrs.2.var_stack_ ∧ τ_ptrs.memalloc_ = r_ptrs.2.memalloc_ ∧
    r_ptrs.2.dot r_ptrs.1 = some ⟨.vari_pp (.heap 0), .vari_pp (.heap 1), 2⟩ ∧
    [0, 1, 2, 3].map (seed_and_chain r_ptrs 1).adj = [5, 7, 2, 3] ∧
    [0, 1, 2, 3].map (seed_and_chain (r_ptrs.1, τ_ptrs) 1).adj = [0, 7, 7, 8] ∧
    (seed_and_chain (r_ptrs.1, τ_ptrs) 1).adj 0 ≠ (seed_and_chain r_ptrs 1).adj 0 := by
  refine ⟨rfl, rfl, rfl, ?_, ?_, ?_, ?_⟩ <;> decide

/-- C8: the operand buffers of a node built without sharing by a constructor
that calls `initialize` (the raw-array constructor with a length, and the Eigen
constructors) are snapshots taken at construction.  Let the constructor run on
operands with coefficient arrays `b1`, `b2` of `n` elements, and let `τ` be any
state with the tape and arena it left, whatever the caller-owned memory has
become since (elements overwritten, handles replaced).  Then the node's members
point into the arena, to arrays equal to `b1` and `b2`, in the state the
constructor left and in `τ`, and for every output adjoint `chain()` leaves the
same adjoints and values in `τ` as in the untouched state. -/
theorem snapshot_decoupled (σ : State R) (b1 b2 : block R) (n : Nat)
    (hn1 : b1.size = n) (hn2 : b2.size = n)
    (hv : ∀ p ∈ b1.nodes ++ b2.nodes, p < σ.var_stack_.length) :
    (∀ (v1 v2 : store) (τ : State R), σ.holds v1 b1 → σ.holds v2 b2 →
      τ.var_stack_ = (dot_product_vari.of_arrays σ v1 v2 n none none).2.var_stack_ →
      τ.memalloc_ = (dot_product_vari.of_arrays σ v1 v2 n none none).2.memalloc_ →
        (∃ d, (dot_product_vari.of_arrays σ v1 v2 n none none).2.dot
                (dot_product_vari.of_arrays σ v1 v2 n none none).1 = some d
            ∧ τ.dot (dot_product_vari.of_arrays σ v1 v2 n none none).1 = some d
            ∧ d.length_ = n
            ∧ (∃ a, d.v1_.addr = .arena a) ∧ (∃ a, d.v2_.addr = .arena a)
            ∧ (dot_product_vari.of_arrays σ v1 v2 n none none).2.holds d.v1_ b1
            ∧ (dot_product_vari.of_arrays σ v1 v2 n none none).2.holds d.v2_ b2
            ∧ τ.holds d.v1_ b1 ∧ τ.holds d.v2_ b2) ∧
        (∀ (a : R) (q : Nat),
          (seed_and_chain ((dot_product_vari.of_arrays σ v1 v2 n none none).1, τ) a).adj q
            = (seed_and_chain (dot_product_vari.of_arrays σ v1 v2 n none none) a).adj q) ∧
        (∀ (a : R) (q : Nat),
          (seed_and_chain ((dot_product_vari.of_arrays σ v1 v2 n none none).1, τ) a).val q
            = (seed_and_chain (dot_product_vari.of_arrays σ v1 v2 n none none) a).val q)) ∧
    (∀ (m1 m2 : Eigen.Matrix R) (τ : State R), m1.data = b1 → m2.data = b2 → m1.size = n →
      τ.var_stack_ = (dot_product_vari.of_eigen σ m1 m2 none none).2.var_stack_ →
      τ.memalloc_ = (dot_product_vari.of_eigen σ m1 m2 none none).2.memalloc_ →
        (∃ d, (dot_product_vari.of_eigen σ m1 m2 none none).2.dot
                (dot_product_vari.of_eigen σ m1 m2 none none).1 = some d
            ∧ τ.dot (dot_product_vari.of_eigen σ m1 m2 none none).1 = some d
            ∧ d.length_ = n
            ∧ (∃ a, d.v1_.addr = .arena a) ∧ (∃ a, d.v2_.addr = .arena a)
            ∧ (dot_product_vari.of_eigen σ m1 m2 none none).2.holds d.v1_ b1
            ∧ (dot_product_vari.of_eigen σ m1 m2 none none).2.holds d.v2_ b2
            ∧ τ.holds d.v1_ b1 ∧ τ.holds d.v2_ b2) ∧
        (∀ (a : R) (q : Nat),
          (seed_and_chain ((dot_product_vari.of_eigen σ m1 m2 none none).1, τ) a).adj q
            = (seed_and_chain (dot_product_vari.of_eigen σ m1 m2 none none) a).adj q) ∧
        (∀ (a : R) (q : Nat),
          (seed_and_chain ((dot_product_vari.of_eigen σ m1 m2 none none).1, τ) a).val q
            = (seed_and_chain (dot_product_vari.of_eigen σ m1 m2 none none) a).val q)) := by
  constructor
  · intro v1 v2 τ h1 h2 hstack hmem
    rw [of_arrays_eq_of_eigen σ v1 v2 n none none b1 b2 h1 h2 hn1 hn2] at hstack hmem ⊢
    exact of_eigen_decoupled σ ⟨n, 1, b1⟩ ⟨n, 1, b2⟩ n (by simp [Eigen.Matrix.size]) hn1 hn2 hv
      τ hstack hmem
  · intro m1 m2 τ e1 e2 hn hstack hmem
    subst e1 e2
    exact of_eigen_decoupled σ m1 m2 n hn hn1 hn2 hv τ hstack hmem

/-- C8 at a concrete input: after the caller overwrites the handle array `[0, 1]`
with `[3, 3]` and the numbers `[4, 6]` with `[100, 200]`, the node built by the
raw-array constructor still adds `1 * 4` and `1 * 6` to the adjoints of nodes 0
and 1, and nothing to node 3. -/
theorem snapshot_decoupled_witness :
    (∀ (a : Int) (q : Nat), (seed_and_chain (r8.1, τ8) a).adj q = (seed_and_chain r8 a).adj q) ∧
    [0, 1, 2, 3].map (seed_and_chain (r8.1, τ8) 1).adj = [4, 6, 0, 0] :=
  ⟨((snapshot_decoupled σ0 (.vis [0, 1]) (.dbl [4, 6]) 2 rfl rfl (by decide)).1
      (.vari_pp (.heap 0)) (.double_p (.heap 2)) τ8 ⟨rfl, rfl⟩ ⟨rfl, rfl⟩ rfl rfl).2.1,
    by decide⟩

/-- C9: a successful `dot_product` call (any overload) on operands whose handles
refer to nodes of the tape appends exactly one node to the tape and returns a
handle to it; the operand references stored in that node are the operand
handles, all of them nodes that were on the tape before the call; and a tape
that satisfies the topological-order invariant satisfies it after the call. -/
theorem dot_product_appends_one (σ : State R) (b1 b2 : block R) (n : Nat)
    (r : var × State R) (hn1 : b1.size = n) (hn2 : b2.size = n)
    (hr : dot_product_returns σ b1 b2 n r)
    (hv : ∀ p ∈ b1.nodes ++ b2.nodes, p < σ.var_stack_.length) :
    r.1.vi_ = σ.var_stack_.length ∧
    (∃ nd, r.2.var_stack_ = σ.var_stack_ ++ [nd]) ∧
    r.2.var_stack_.length = σ.var_stack_.length + 1 ∧
    r.2.refs r.1.vi_ = b1.nodes ++ b2.nodes ∧
    (∀ p ∈ r.2.refs r.1.vi_, p < σ.var_stack_.length) ∧
    (σ.topological → r.2.topological) := by
  obtain ⟨m1, m2, e1, e2, hn, hvi, hst⟩ := returns_eq σ b1 b2 n r hn1 hn2 hr
  subst e1 e2
  have k1 := shared_v1_holds σ none m1.data (fun s d h => by simp at h)
  have k2 := shared_v2_holds σ none m2.data (fun s d h => by simp at h)
  obtain ⟨s1, s2, ex, heq, hholds, -⟩ := of_eigen_spec σ m1 m2 none none n hn hn1 hn2 k1 k2
  rw [heq] at hvi hst
  simp only at hvi hst
  have hs : r.2.var_stack_ = σ.var_stack_
      ++ [⟨var_dot_eigen σ m1 m2, 0, .dot_product ⟨s1, s2, n⟩⟩] := by rw [hst]
  have hm : r.2.memalloc_ = σ.memalloc_ ++ ex := by rw [hst]
  have hh : r.2.heap = σ.heap := by rw [hst]
  have hold := hholds r.2 hm hh
  have hop : r.2.op σ.var_stack_.length = .dot_product ⟨s1, s2, n⟩ := by
    simp [State.op, hs]
  have hrefs : r.2.refs σ.var_stack_.length = m1.data.nodes ++ m2.data.nodes := by
    simp only [State.refs, hop, State.operands]
    rw [operand_side r.2 s1 _ n hold.1 hn1, operand_side r.2 s2 _ n hold.2 hn2]
  refine ⟨hvi, ⟨_, hs⟩, by rw [hs]; simp, by rw [hvi]; exact hrefs, ?_, ?_⟩
  · intro p hp
    rw [hvi, hrefs] at hp
    exact hv p hp
  · intro htop self
    rcases Nat.lt_trichotomy self σ.var_stack_.length with hlt | heq' | hgt
    · obtain ⟨t1, t2⟩ := htop self
      have eo : r.2.op self = σ.op self := op_append_left σ r.2 _ hs self hlt
      have ed : r.2.dot self = σ.dot self := dot_append_left σ r.2 _ hs self hlt
      constructor
      · intro p hp
        apply t1 p
        simp only [State.refs, eo] at hp
        simp only [State.refs]
        cases ho : σ.op self with
        | vari => simp [ho] at hp
        | op_vari a b => simpa [ho] using hp
        | dot_product d =>
          have hd : σ.dot self = some d := by
            simp only [State.op, State.dot] at ho ⊢
            cases hx : σ.var_stack_[self]? with
            | none => simp [hx] at ho
            | some nd => simp only [hx] at ho; simp [vari.dot, ho]
          obtain ⟨l1, l2⟩ := t2 d hd
          simp only [ho] at hp
          rw [operands_mono σ r.2 ex hm hh d l1 l2] at hp
          exact hp
      · intro d hd
        rw [ed] at hd
        obtain ⟨l1, l2⟩ := t2 d hd
        constructor
        · cases hl : σ.load d.v1_.addr with
          | none => simp [hl] at l1
          | some b => simp [load_mono σ r.2 ex hm hh _ b hl]
        · cases hl : σ.load d.v2_.addr with
          | none => simp [hl] at l2
          | some b => simp [load_mono σ r.2 ex hm hh _ b hl]
    · subst heq'
      constructor
      · intro p hp
        rw [hrefs] at hp
        exact hv p hp
      · intro d hd
        have : r.2.dot σ.var_stack_.length = some ⟨s1, s2, n⟩ := by
          simpa [vari.dot] using dot_append_new σ r.2 _ hs
        rw [this] at hd
        obtain rfl := Option.some.inj hd
        exact ⟨by simp [hold.1.1], by simp [hold.2.1]⟩
    · have hge : r.2.var_stack_.length ≤ self := by rw [hs]; simp; omega
      constructor
      · intro p hp
        simp [State.refs, op_of_ge r.2 self hge] at hp
      · intro d hd
        rw [dot_of_ge r.2 self hge] at hd
        simp at hd

/-- C9 at a concrete input: `dot_product([0, 1], [2, 3])` on the four-node tape
of `σ0` returns the handle 4 to the fifth node, whose operand references are
0, 1, 2, 3. -/
theorem dot_product_appends_one_witness :
    r0.1.vi_ = 4 ∧ r0.2.var_stack_.length = 5 ∧ r0.2.refs r0.1.vi_ = [0, 1, 2, 3] ∧
    (σ0.topological → r0.2.topological) :=
  ⟨(dot_product_appends_one σ0 (.vis [0, 1]) (.vis [2, 3]) 2 r0 rfl rfl
      (Or.inl ⟨.vari_pp (.heap 0), .vari_pp (.heap 1), ⟨rfl, rfl⟩, ⟨rfl, rfl⟩, rfl⟩)
      (by decide)).1,
    (dot_product_appends_one σ0 (.vis [0, 1]) (.vis [2, 3]) 2 r0 rfl rfl
      (Or.inl ⟨.vari_pp (.heap 0), .vari_pp (.heap 1), ⟨rfl, rfl⟩, ⟨rfl, rfl⟩, rfl⟩)
      (by decide)).2.2.1,
    (dot_product_appends_one σ0 (.vis [0, 1]) (.vis [2, 3]) 2 r0 rfl rfl
      (Or.inl ⟨.vari_pp (.heap 0), .vari_pp (.heap 1), ⟨rfl, rfl⟩, ⟨rfl, rfl⟩, rfl⟩)
      (by decide)).2.2.2.1,
    (dot_product_appends_one σ0 (.vis [0, 1]) (.vis [2, 3]) 2 r0 rfl rfl
      (Or.inl ⟨.vari_pp (.heap 0), .vari_pp (.heap 1), ⟨rfl, rfl⟩, ⟨rfl, rfl⟩, rfl⟩)
      (by decide)).2.2.2.2.2⟩

end claims

section elementary_claims

variable {R : Type} [LinearOrderedField R]

/-- C10: for every argument `x` outside (-1, 1), `atanh` reports a domain error on
every scalar kind (plain numeric, reverse-mode, forward-mode, forward over
reverse) and leaves the state as it was, so no tape node is recorded; the
invalid inputs of the tests (-1.5, 72.3, and the integers -10 and 20) and of the
spec (1.5, -1.5) are such arguments; and for the valid inputs of the tests
(-0.5, 0, 0.5) no error is raised on any scalar kind, the reverse-mode overload
recording exactly one node. -/
theorem atanh_domain (f : R → R) :
    (∀ x : R, ¬ (-1 < x ∧ x < 1) →
      atanh f x = .error (.domain_error "atanh" "x")
      ∧ (∀ (σ : State R) (a : var), σ.val a.vi_ = x →
          atanh_var f σ a = (.error (.domain_error "atanh" "x"), σ))
      ∧ (∀ d : R, atanh_fvar f ⟨x, d⟩ = .error (.domain_error "atanh" "x"))
      ∧ (∀ (σ : State R) (v : fvar var), σ.val v.val_.vi_ = x →
          atanh_fvar_var f σ v = (.error (.domain_error "atanh" "x"), σ))) ∧
    (∀ x ∈ [(-3 / 2 : R), 723 / 10, 3 / 2], ¬ (-1 < x ∧ x < 1)) ∧
    (∀ n ∈ [(-10 : Int), 20],
      ¬ (-1 < (n : R) ∧ (n : R) < 1) ∧ atanh_int f n = .error (.domain_error "atanh" "x")) ∧
    (∀ x ∈ [(-1 / 2 : R), 0, 1 / 2],
      atanh f x = .ok (f x)
      ∧ (∀ (σ : State R) (a : var), σ.val a.vi_ = x →
          (atanh_var f σ a).1 = .ok ⟨σ.var_stack_.length⟩
          ∧ (atanh_var f σ a).2.var_stack_.length = σ.var_stack_.length + 1)
      ∧ (∀ d : R, atanh_fvar f ⟨x, d⟩ = .ok ⟨f x, 1 / (1 - x * x) * d⟩)
      ∧ (∀ (σ : State R) (v : fvar var), σ.val v.val_.vi_ = x →
          ∃ y, (atanh_fvar_var f σ v).1 = .ok y)) := by
  have bad : ∀ x : R, ¬ (-1 < x ∧ x < 1) → atanh f x = .error (.domain_error "atanh" "x") := by
    intro x hx
    simp only [atanh, if_neg hx]
  have good : ∀ x : R, (-1 < x ∧ x < 1) → atanh f x = .ok (f x) := by
    intro x hx
    simp only [atanh, if_pos hx]
  refine ⟨?_, ?_, ?_, ?_⟩
  · intro x hx
    refine ⟨bad x hx, ?_, ?_, ?_⟩
    · intro σ a ha
      simp only [atanh_var, ha, bad x hx]
    · intro d
      simp only [atanh_fvar, bad x hx]
    · intro σ v hv
      simp only [atanh_fvar_var, atanh_var, hv, bad x hx]
  · intro x hx
    simp only [List.mem_cons, List.mem_singleton, List.not_mem_nil, or_false] at hx
    rcases hx with rfl | rfl | rfl <;> norm_num
  · intro n hn
    simp only [List.mem_cons, List.mem_singleton, List.not_mem_nil, or_false] at hn
    rcases hn with rfl | rfl
    · have h : ¬ (-1 < ((-10 : Int) : R) ∧ ((-10 : Int) : R) < 1) := by norm_num
      exact ⟨h, bad _ h⟩
    · have h : ¬ (-1 < ((20 : Int) : R) ∧ ((20 : Int) : R) < 1) := by norm_num
      exact ⟨h, bad _ h⟩
  · intro x hx
    have hin : -1 < x ∧ x < 1 := by
      simp only [List.mem_cons, List.mem_singleton, List.not_mem_nil, or_false] at hx
      rcases hx with rfl | rfl | rfl <;> norm_num
    refine ⟨good x hin, ?_, ?_, ?_⟩
    · intro σ a ha
      simp [atanh_var, ha, good x hin, State.record]
    · intro d
      simp only [atanh_fvar, good x hin]
    · intro σ v hv
      exact ⟨_, by simp only [atanh_fvar_var, atanh_var, hv, good x hin]; rfl⟩

/-- C10 at concrete inputs over the rationals: at `x = 3 / 2` the plain overload
fails and the reverse-mode overload fails leaving the one-node tape as it was;
at `x = 1 / 2` the reverse-mode overload succeeds and the tape has two nodes. -/
theorem atanh_domain_witness :
    atanh (fun x : ℚ => x) (3 / 2) = .error (.domain_error "atanh" "x") ∧
    atanh_var (fun x : ℚ => x) ⟨[⟨3 / 2, 0, .vari⟩], [], []⟩ ⟨0⟩
      = (.error (.domain_error "atanh" "x"), ⟨[⟨3 / 2, 0, .vari⟩], [], []⟩) ∧
    (atanh_var (fun x : ℚ => x) ⟨[⟨1 / 2, 0, .vari⟩], [], []⟩ ⟨0⟩).2.var_stack_.length
      = 1 + 1 :=
  ⟨((atanh_domain (fun x : ℚ => x)).1 (3 / 2) (by norm_num)).1,
    ((atanh_domain (fun x : ℚ => x)).1 (3 / 2) (by norm_num)).2.1
      ⟨[⟨3 / 2, 0, .vari⟩], [], []⟩ ⟨0⟩ rfl,
    (((atanh_domain (fun x : ℚ => x)).2.2.2 (1 / 2) (by simp)).2.1
      ⟨[⟨1 / 2, 0, .vari⟩], [], []⟩ ⟨0⟩ rfl).2⟩

end elementary_claims

section aliasing_lemmas

variable {R : Type} [CommRing R]

theorem contrib_cons (a : R) (q p : Nat) (vd : List Nat) (x : R) (cs : List R) :
    contrib a q (p :: vd) (x :: cs) = (if p = q then a * x else 0) + contrib a q vd cs := by
  simp [contrib]

theorem contrib_nil_right (a : R) (q : Nat) (vd : List Nat) : contrib a q vd [] = 0 := by
  simp [contrib]

theorem contrib_scale (a : R) (q : Nat) (vd : List Nat) : ∀ cs : List R,
    contrib a q vd cs = a * contrib 1 q vd cs := by
  induction vd with
  | nil => intro cs; simp [contrib]
  | cons p vd ih =>
    intro cs
    cases cs with
    | nil => simp [contrib]
    | cons x cs =>
      rw [contrib_cons, contrib_cons, ih cs]
      by_cases h : p = q <;> simp [h, mul_add]

/-- The dot product as a function of the value of one node is a polynomial of
degree at most two in that value: moving the value of `q` by `h` adds `h` times
the partner sum and `h * h` times the number of positions where both operands
are `q`. -/
theorem dot_update (v : Nat → R) (q : Nat) (t : R) (ps : List Nat) : ∀ qs : List Nat,
    dot (ps.map (Function.update v q t)) (qs.map (Function.update v q t))
      = dot (ps.map v) (qs.map v) + (t - v q) * partner_sum v q ps qs
        + (t - v q) * (t - v q) * both_count q ps qs := by
  induction ps with
  | nil => intro qs; simp [dot, partner_sum, both_count, contrib]
  | cons p ps ih =>
    intro qs
    cases qs with
    | nil => simp [dot, partner_sum, both_count, contrib]
    | cons r qs =>
      have hp := ih qs
      simp only [partner_sum, both_count] at hp ⊢
      simp only [List.map_cons, dot_cons, contrib_cons, List.zip_cons_cons, List.sum_cons, hp]
      by_cases h1 : p = q <;> by_cases h2 : r = q <;>
        simp [h1, h2, Function.update_apply] <;> ring

end aliasing_lemmas

section aliasing_claim

/-- The partner sum is the partial derivative of the dot product with respect
to the value of the node. -/
theorem hasDerivAt_dot (v : Nat → ℝ) (q : Nat) (ps qs : List Nat) :
    HasDerivAt
      (fun t : ℝ => dot (ps.map (Function.update v q t)) (qs.map (Function.update v q t)))
      (partner_sum v q ps qs) (v q) := by
  have hf : (fun t : ℝ => dot (ps.map (Function.update v q t)) (qs.map (Function.update v q t)))
      = fun t : ℝ => dot (ps.map v) (qs.map v) + (t - v q) * partner_sum v q ps qs
          + (t - v q) * (t - v q) * both_count q ps qs := by
    funext t
    exact dot_update v q t ps qs
  rw [hf]
  have h1 : HasDerivAt (fun t : ℝ => t - v q) 1 (v q) := (hasDerivAt_id (v q)).sub_const (v q)
  have h2 := ((h1.mul_const (partner_sum v q ps qs)).const_add (dot (ps.map v) (qs.map v))).add
    ((h1.mul h1).mul_const (both_count q ps qs))
  simp only [sub_self, mul_zero, zero_mul, add_zero, one_mul, zero_add] at h2
  convert h2 using 1

/-- C17: aliased operands accumulate.  For a both-differentiable dot-product
node at `self` with operand nodes `ps`, `qs` (earlier on the tape) and output
adjoint `a = adj(self)`, `chain()` adds to the adjoint of every node `q` the
product of `a` and the sum of the partner values over all occurrences of `q` in
`ps` and `qs`; that sum is the partial derivative of
`∑ i, value(ps[i]) * value(qs[i])` with respect to the value of `q`; and when
`x` occurs at position `i` of both operands and nowhere else, `chain()` adds
`2 * a * value(x)` to the adjoint of `x`. -/
theorem chain_aliased (σ : State ℝ) (self : Nat) (v1 v2 : ptr) (n : Nat) (ps qs : List Nat)
    (hd : σ.dot self = some ⟨.vari_pp v1, .vari_pp v2, n⟩)
    (h1 : σ.vis v1 n = ps) (h2 : σ.vis v2 n = qs)
    (hop : ∀ p ∈ ps ++ qs, p < self) :
    (∀ q, q < σ.var_stack_.length →
      (chain σ self).adj q = σ.adj q + σ.adj self * partner_sum σ.val q ps qs) ∧
    (∀ q, HasDerivAt
      (fun t : ℝ => dot (ps.map (Function.update σ.val q t)) (qs.map (Function.update σ.val q t)))
      (partner_sum σ.val q ps qs) (σ.val q)) ∧
    (∀ (i x : Nat), ps[i]? = some x → qs[i]? = some x →
      (∀ j, j ≠ i → ps[j]? ≠ some x ∧ qs[j]? ≠ some x) →
      (chain σ self).adj x = σ.adj x + 2 * σ.adj self * σ.val x) := by
  have hs : self < σ.var_stack_.length := dot_lt_length σ self _ hd
  have hc : chain σ self = chain_vari_vari σ self v1 v2 n := by
    simp only [chain, op_of_dot σ self _ hd]
  have hself1 : self ∉ ps := fun h => absurd (hop self (List.mem_append_left _ h)) (lt_irrefl _)
  have gen : ∀ q, q < σ.var_stack_.length →
      (chain σ self).adj q = σ.adj q + σ.adj self * partner_sum σ.val q ps qs := by
    intro q hq
    have := chain_vari_vari_adj σ self v1 v2 n q hq (by rw [h1]; exact hself1)
    rw [h1, h2] at this
    rw [hc, this, partner_sum, mul_add, ← contrib_scale, ← contrib_scale, add_assoc]
    rfl
  refine ⟨gen, fun q => hasDerivAt_dot σ.val q ps qs, ?_⟩
  intro i x hp hq hno
  have hx : x < σ.var_stack_.length :=
    lt_trans (hop x (List.mem_append_left _ (List.getElem?_mem hp))) hs
  rw [gen x hx]
  have key : ∀ (ps qs : List Nat) (i : Nat), ps[i]? = some x → qs[i]? = some x →
      (∀ j, j ≠ i → ps[j]? ≠ some x ∧ qs[j]? ≠ some x) →
      partner_sum σ.val x ps qs = 2 * σ.val x := by
    intro ps
    induction ps with
    | nil => intro qs i h; simp at h
    | cons p ps ih =>
      intro qs i hp hq hno
      cases qs with
      | nil => simp at hq
      | cons r qs =>
        cases i with
        | zero =>
          simp only [List.getElem?_cons_zero, Option.some.injEq] at hp hq
          have n1 : x ∉ ps := fun hm => by
            obtain ⟨j, hj⟩ := List.mem_iff_getElem?.mp hm
            exact (hno (j + 1) (by omega)).1 (by simpa using hj)
          have n2 : x ∉ qs := fun hm => by
            obtain ⟨j, hj⟩ := List.mem_iff_getElem?.mp hm
            exact (hno (j + 1) (by omega)).2 (by simpa using hj)
          simp only [partner_sum, List.map_cons, contrib_cons, hp, hq, if_true,
            contrib_not_mem (1 : ℝ) x ps n1, contrib_not_mem (1 : ℝ) x qs n2]
          ring
        | succ i =>
          simp only [List.getElem?_cons_succ] at hp hq
          have e1 : p ≠ x := fun e => (hno 0 (by omega)).1 (by simp [e])
          have e2 : r ≠ x := fun e => (hno 0 (by omega)).2 (by simp [e])
          have := ih qs i hp hq (fun j hj => by
            have := hno (j + 1) (by omega)
            simpa using this)
          simp only [partner_sum, List.map_cons, contrib_cons, if_neg e1, if_neg e2, zero_add]
            at this ⊢
          exact this
  rw [key ps qs i hp hq hno]
  ring

/-- C17 at a concrete input: the node of `dot_product(v, v)` with `v = [x]`,
`value(x) = 3`, output adjoint 5 and `adj(x) = 10` before: `chain()` leaves
`10 + 2 * 5 * 3 = 40` in `x`. -/
theorem chain_aliased_witness :
    (chain σ17 1).adj 0 = σ17.adj 0 + 2 * σ17.adj 1 * σ17.val 0
    ∧ σ17.adj 0 + 2 * σ17.adj 1 * σ17.val 0 = 40 :=
  ⟨(chain_aliased σ17 1 (.arena 0) (.arena 1) 1 [0] [0] rfl rfl rfl (by decide)).2.2 0 0 rfl rfl
      (fun j hj => by
        cases j with
        | zero => exact absurd rfl hj
        | succ k => simp),
    by norm_num [State.adj, State.val, σ17]⟩

end aliasing_claim

section log_sum_exp_claims

/-- The code's branches are `m + log1p_exp(min(a, b) - m)` with `m = max(a, b)`. -/
theorem log_sum_exp_max_min {R : Type} [LinearOrderedField R] (L : R → R) (a b : R) :
    log_sum_exp L a b = max a b + L (min a b - max a b) := by
  unfold log_sum_exp
  by_cases h : a > b
  · rw [if_pos h, max_eq_left (le_of_lt h), min_eq_right (le_of_lt h)]
  · rw [if_neg h, max_eq_right (not_lt.mp h), min_eq_left (not_lt.mp h)]

/-- C14: with `log1p_exp(x) = ln(1 + exp(x))`, for all real `a` and `b` the
two-argument `log_sum_exp(a, b)` is `a + log1p_exp(b - a)` when `a > b` and
`b + log1p_exp(a - b)` otherwise, that is `m + log1p_exp(min(a, b) - m)` with
`m = max(a, b)`, and it equals `ln(exp(a) + exp(b))` in both branches. -/
theorem log_sum_exp_eq (L : ℝ → ℝ) (hL : ∀ x, L x = Real.log (1 + Real.exp x)) (a b : ℝ) :
    (a > b → log_sum_exp L a b = a + L (b - a)) ∧
    (¬ a > b → log_sum_exp L a b = b + L (a - b)) ∧
    log_sum_exp L a b = max a b + L (min a b - max a b) ∧
    log_sum_exp L a b = Real.log (Real.exp a + Real.exp b) := by
  have key : ∀ u v : ℝ, u + L (v - u) = Real.log (Real.exp u + Real.exp v) := by
    intro u v
    have hpos : 0 < 1 + Real.exp (v - u) := by positivity
    have e1 : Real.exp u * (1 + Real.exp (v - u)) = Real.exp u + Real.exp v := by
      rw [mul_add, mul_one, ← Real.exp_add]
      congr 2
      ring
    calc u + L (v - u) = Real.log (Real.exp u) + Real.log (1 + Real.exp (v - u)) := by
          rw [hL, Real.log_exp]
      _ = Real.log (Real.exp u * (1 + Real.exp (v - u))) :=
          (Real.log_mul (Real.exp_pos u).ne.symm hpos.ne.symm).symm
      _ = Real.log (Real.exp u + Real.exp v) := by rw [e1]
  refine ⟨fun h => by simp only [log_sum_exp, if_pos h],
    fun h => by simp only [log_sum_exp, if_neg h], log_sum_exp_max_min L a b, ?_⟩
  unfold log_sum_exp
  by_cases h : a > b
  · rw [if_pos h, key]
  · rw [if_neg h, key, add_comm]

/-- C14 at a concrete input: `log_sum_exp(0, 0) = ln(exp(0) + exp(0)) = ln 2`. -/
theorem log_sum_exp_eq_witness :
    log_sum_exp (fun x : ℝ => Real.log (1 + Real.exp x)) 0 0
      = Real.log (Real.exp 0 + Real.exp 0)
    ∧ Real.log (Real.exp 0 + Real.exp 0) = Real.log 2 :=
  ⟨(log_sum_exp_eq (fun x : ℝ => Real.log (1 + Real.exp x)) (fun _ => rfl) 0 0).2.2.2,
    by norm_num [Real.exp_zero]⟩

end log_sum_exp_claims
section log_sum_exp_lemmas

variable {R : Type} [LinearOrderedField R]

theorem max_step_none (m : WithBot R) : max_step m none = m := by
  have h : ¬ ((⊥ : WithBot R) > m) := not_lt_bot
  exact if_neg h

theorem max_step_bot_some (v : R) : max_step (⊥ : WithBot R) (some v) = some v := by
  have h : ((v : R) : WithBot R) > ⊥ := WithBot.bot_lt_coe v
  exact if_pos h

theorem max_step_some_some (m v : R) :
    max_step (some m : WithBot R) (some v) = some (max m v) := by
  unfold max_step
  by_cases h : v > m
  · have h1 : ((v : R) : WithBot R) > ((m : R) : WithBot R) := WithBot.coe_lt_coe.mpr h
    rw [max_eq_right (le_of_lt h)]
    exact if_pos h1
  · have h1 : ¬ (((v : R) : WithBot R) > ((m : R) : WithBot R)) :=
      fun c => h (WithBot.coe_lt_coe.mp c)
    rw [max_eq_left (not_lt.mp h)]
    exact if_neg h1

/-- Negative-infinite elements do not move the running maximum. -/
theorem foldl_max_step_reduce (x : List (WithBot R)) : ∀ m : WithBot R,
    x.foldl max_step m = (x.reduceOption.map some).foldl max_step m := by
  induction x with
  | nil => intro m; rfl
  | cons a x ih =>
    intro m
    match a with
    | none =>
      rw [List.foldl_cons, max_step_none, List.reduceOption_cons_of_none, ih]
    | some v =>
      rw [List.foldl_cons, List.reduceOption_cons_of_some, List.map_cons, List.foldl_cons, ih]

theorem foldl_max_step_some (xs : List R) : ∀ m : R,
    (xs.map some).foldl max_step (some m : WithBot R) = some (xs.foldl max m) := by
  induction xs with
  | nil => intro m; rfl
  | cons v xs ih =>
    intro m
    rw [List.map_cons, List.foldl_cons, max_step_some_some, ih, List.foldl_cons]

theorem le_foldl_max (xs : List R) : ∀ m : R, m ≤ xs.foldl max m := by
  induction xs with
  | nil => intro m; exact le_refl m
  | cons v xs ih =>
    intro m
    exact le_trans (le_max_left m v) (ih (max m v))

theorem mem_le_foldl_max (xs : List R) : ∀ m : R, ∀ y ∈ xs, y ≤ xs.foldl max m := by
  induction xs with
  | nil => intro m y hy; simp at hy
  | cons v xs ih =>
    intro m y hy
    rcases List.mem_cons.mp hy with rfl | h
    · exact le_trans (le_max_right m y) (le_foldl_max xs (max m y))
    · exact ih (max m v) y h

theorem foldl_max_mem (xs : List R) : ∀ m : R, xs.foldl max m = m ∨ xs.foldl max m ∈ xs := by
  induction xs with
  | nil => intro m; exact Or.inl rfl
  | cons v xs ih =>
    intro m
    rw [List.foldl_cons]
    rcases ih (max m v) with h | h
    · rcases max_choice m v with c | c
      · left; rw [h, c]
      · right; rw [h, c]; exact List.mem_cons_self v xs
    · right; exact List.mem_cons_of_mem v h

/-- The second loop adds `exp(v - max)` for every finite element `v`. -/
theorem foldl_sum_step (exp : R → R) (M : R) (x : List (WithBot R)) : ∀ s : R,
    x.foldl (sum_step exp (some M)) s
      = s + (x.reduceOption.map (fun v => exp (v - M))).sum := by
  induction x with
  | nil => intro s; simp [List.reduceOption]
  | cons a x ih =>
    intro s
    match a with
    | none =>
      rw [List.foldl_cons, List.reduceOption_cons_of_none, ← ih]
      rfl
    | some v =>
      rw [List.foldl_cons, List.reduceOption_cons_of_some, List.map_cons, List.sum_cons, ih]
      simp only [sum_step]
      ring

theorem map_getD_range {α : Type} (l : List α) (d : α) :
    (List.range l.length).map (fun i => l.getD i d) = l := by
  apply List.ext_getElem
  · simp
  · intro i h1 h2
    simp [List.getD_eq_getElem?_getD, List.getElem?_eq_getElem h2]

/-- The matrix overload, reading the coefficients by index, does what the vector
overload does on the list of coefficients. -/
theorem log_sum_exp_matrix_eq (exp log : R → R) (x : List (WithBot R)) :
    log_sum_exp_matrix exp log x.length (fun i => x.getD i ⊥) = log_sum_exp_vector exp log x := by
  have h1 : ∀ (f : WithBot R → WithBot R → WithBot R) (a : WithBot R),
      (List.range x.length).foldl (fun m i => f m (x.getD i ⊥)) a = x.foldl f a := by
    intro f a
    conv_rhs => rw [← map_getD_range x ⊥]
    rw [List.foldl_map]
  have h2 : ∀ (f : R → WithBot R → R) (a : R),
      (List.range x.length).foldl (fun m i => f m (x.getD i ⊥)) a = x.foldl f a := by
    intro f a
    conv_rhs => rw [← map_getD_range x ⊥]
    rw [List.foldl_map]
  simp only [log_sum_exp_matrix, log_sum_exp_vector, h1 max_step, h2]

/-- The value of the vector overload when the finite elements are `v :: t`. -/
theorem log_sum_exp_vector_finite (exp log : R → R) (x : List (WithBot R)) (v : R) (t : List R)
    (hx : x.reduceOption = v :: t) :
    log_sum_exp_vector exp log x
      = some (t.foldl max v + log (((v :: t).map (fun y => exp (y - t.foldl max v))).sum)) := by
  have hmax : x.foldl max_step ⊥ = some (t.foldl max v) := by
    rw [foldl_max_step_reduce, hx, List.map_cons, List.foldl_cons, max_step_bot_some,
      foldl_max_step_some]
  simp only [log_sum_exp_vector, hmax, foldl_sum_step, hx, zero_add, max_plus_log]

end log_sum_exp_lemmas
section log_sum_exp_vector_claim

theorem reduceOption_map_some {α : Type} (xs : List α) :
    (xs.map some).reduceOption = xs := by
  induction xs with
  | nil => rfl
  | cons v xs ih => rw [List.map_cons, List.reduceOption_cons_of_some, ih]

theorem sum_exp_pos (xs : List ℝ) (hne : xs ≠ []) : 0 < (xs.map Real.exp).sum := by
  apply List.sum_pos
  · intro y hy
    obtain ⟨z, _, rfl⟩ := List.mem_map.mp hy
    exact Real.exp_pos z
  · simpa using hne

theorem sum_exp_shift (xs : List ℝ) (M : ℝ) :
    (xs.map (fun y => Real.exp (y - M))).sum = Real.exp (-M) * (xs.map Real.exp).sum := by
  induction xs with
  | nil => simp
  | cons v xs ih =>
    simp only [List.map_cons, List.sum_cons, ih, mul_add]
    rw [sub_eq_add_neg, Real.exp_add, mul_comm]

/-- C15: let `x` be a sequence whose finite elements `xs` are not all absent (in
particular a non-empty sequence of finite values).  Then `log_sum_exp(x)` is
`max + ln(∑ exp(x_n - max))` over the finite elements, with `max` their maximum,
which equals `ln(∑ exp(x_n))`; elements equal to negative infinity are left out
of the sum, so the result is that of the finite elements alone; and the
Eigen-matrix overload, reading the coefficients in storage order, returns the
same. -/
theorem log_sum_exp_vector_eq (x : List (WithBot ℝ)) (xs : List ℝ)
    (hx : x.reduceOption = xs) (hne : xs ≠ []) :
    ∃ M ∈ xs, (∀ y ∈ xs, y ≤ M)
      ∧ log_sum_exp_vector Real.exp Real.log x
          = some (M + Real.log ((xs.map (fun y => Real.exp (y - M))).sum))
      ∧ M + Real.log ((xs.map (fun y => Real.exp (y - M))).sum)
          = Real.log ((xs.map Real.exp).sum)
      ∧ log_sum_exp_vector Real.exp Real.log x
          = log_sum_exp_vector Real.exp Real.log (xs.map some)
      ∧ log_sum_exp_matrix Real.exp Real.log x.length (fun i => x.getD i ⊥)
          = log_sum_exp_vector Real.exp Real.log x := by
  match xs, hne with
  | v :: t, _ =>
    refine ⟨t.foldl max v, ?_, ?_, log_sum_exp_vector_finite _ _ x v t hx, ?_, ?_,
      log_sum_exp_matrix_eq _ _ x⟩
    · rcases foldl_max_mem t v with h | h
      · rw [h]; exact List.mem_cons_self v t
      · exact List.mem_cons_of_mem v h
    · intro y hy
      rcases List.mem_cons.mp hy with rfl | h
      · exact le_foldl_max t y
      · exact mem_le_foldl_max t v y h
    · rw [sum_exp_shift, Real.log_mul (Real.exp_pos _).ne.symm
        (sum_exp_pos (v :: t) (List.cons_ne_nil v t)).ne.symm, Real.log_exp]
      ring
    · rw [log_sum_exp_vector_finite _ _ x v t hx,
        log_sum_exp_vector_finite _ _ ((v :: t).map some) v t (reduceOption_map_some _)]

/-- C15 at a concrete input: the sequence `0, -infinity, 0` has the finite
elements `0, 0`, and its `log_sum_exp` is `ln(exp(0) + exp(0))`. -/
theorem log_sum_exp_vector_eq_witness :
    ∃ M ∈ [(0 : ℝ), 0], (∀ y ∈ [(0 : ℝ), 0], y ≤ M)
      ∧ log_sum_exp_vector Real.exp Real.log ([some 0, ⊥, some 0] : List (WithBot ℝ))
          = some (M + Real.log (([(0 : ℝ), 0].map (fun y => Real.exp (y - M))).sum))
      ∧ M + Real.log (([(0 : ℝ), 0].map (fun y => Real.exp (y - M))).sum)
          = Real.log (([(0 : ℝ), 0].map Real.exp).sum)
      ∧ log_sum_exp_vector Real.exp Real.log ([some 0, ⊥, some 0] : List (WithBot ℝ))
          = log_sum_exp_vector Real.exp Real.log ([(0 : ℝ), 0].map some)
      ∧ log_sum_exp_matrix Real.exp Real.log ([some 0, ⊥, some 0] : List (WithBot ℝ)).length
            (fun i => ([some 0, ⊥, some 0] : List (WithBot ℝ)).getD i ⊥)
          = log_sum_exp_vector Real.exp Real.log ([some 0, ⊥, some 0] : List (WithBot ℝ)) :=
  log_sum_exp_vector_eq ([some 0, ⊥, some 0] : List (WithBot ℝ)) [0, 0] rfl (List.cons_ne_nil _ _)

end log_sum_exp_vector_claim

section sort_indices_claims

/-- C16: `sort_indices_desc(xs)` is `sort_indices<false>(xs)` and
`sort_indices_asc(xs)` is `sort_indices<true>(xs)`, both lists of integers.
Whatever `sort_indices` is, on the container `{0.5}` the result of
`sort_indices_desc` is not the sorted copy `{0.5}` of the container that its
documentation announces; and wherever the template argument makes a difference,
the two functions, documented with the same sentence, return different
results, so they cannot both return the container sorted in ascending order. -/
theorem sort_indices_desc_returns_indices (S : Bool → List ℚ → List Int) :
    (∀ xs, sort_indices_desc S xs = S false xs) ∧
    (∀ xs, sort_indices_asc S xs = S true xs) ∧
    (sort_indices_desc S [1 / 2]).map (fun i : Int => (i : ℚ)) ≠ [1 / 2] ∧
    (∀ xs, S true xs ≠ S false xs → sort_indices_desc S xs ≠ sort_indices_asc S xs) := by
  refine ⟨fun _ => rfl, fun _ => rfl, ?_, ?_⟩
  · intro h
    have hmem : (1 / 2 : ℚ) ∈ (sort_indices_desc S [1 / 2]).map (fun i : Int => (i : ℚ)) := by
      rw [h]
      exact List.mem_singleton.mpr rfl
    obtain ⟨i, _, hi⟩ := List.mem_map.mp hmem
    have h2 : (2 : ℚ) * (i : ℚ) = 1 := by rw [hi]; norm_num
    have h3 : (2 : Int) * i = 1 := by exact_mod_cast h2
    omega
  · intro xs h e
    exact h e.symm

end sort_indices_claims

section tape_lemmas_plain

variable {R : Type}

theorem op_set_adj (σ : State R) (vi : Nat) (a : R) (q : Nat) :
    (σ.set_adj vi a).op q = σ.op q := by
  unfold State.set_adj
  cases h : σ.var_stack_[vi]? with
  | none => rfl
  | some n =>
    simp only [State.op, List.getElem?_set]
    by_cases hpq : vi = q
    · subst hpq
      have hp : vi < σ.var_stack_.length := (List.getElem?_eq_some_iff.mp h).1
      simp [hp, h]
    · simp [hpq]

end tape_lemmas_plain

section tape_lemmas

variable {R : Type} [CommRing R]

theorem length_record (σ : State R) (x : R) (e : chainable R) :
    (σ.record x e).2.var_stack_.length = σ.var_stack_.length + 1 := by
  simp [State.record]

theorem fst_record (σ : State R) (x : R) (e : chainable R) :
    (σ.record x e).1 = σ.var_stack_.length := rfl

theorem op_record (σ : State R) (x : R) (e : chainable R) (i : Nat) :
    (σ.record x e).2.op i = if i = σ.var_stack_.length then e else σ.op i := by
  simp only [State.record, State.op]
  rcases Nat.lt_trichotomy i σ.var_stack_.length with h | h | h
  · rw [List.getElem?_append_left h, if_neg (Nat.ne_of_lt h)]
  · subst h
    simp
  · have h1 : (σ.var_stack_ ++ [{ val_ := x, adj_ := 0, op := e }])[i]? = none :=
      List.getElem?_eq_none_iff.mpr (by simp; omega)
    have h2 : σ.var_stack_[i]? = none := List.getElem?_eq_none_iff.mpr (by omega)
    rw [h1, h2, if_neg (by omega)]

theorem val_record_ite (σ : State R) (x : R) (e : chainable R) (i : Nat) :
    (σ.record x e).2.val i = if i = σ.var_stack_.length then x else σ.val i := by
  simp only [State.record, State.val]
  rcases Nat.lt_trichotomy i σ.var_stack_.length with h | h | h
  · rw [List.getElem?_append_left h, if_neg (Nat.ne_of_lt h)]
  · subst h
    simp
  · have h1 : (σ.var_stack_ ++ [{ val_ := x, adj_ := 0, op := e }])[i]? = none :=
      List.getElem?_eq_none_iff.mpr (by simp; omega)
    have h2 : σ.var_stack_[i]? = none := List.getElem?_eq_none_iff.mpr (by omega)
    rw [h1, h2, if_neg (by omega)]

theorem adj_record (σ : State R) (x : R) (e : chainable R) (i : Nat) :
    (σ.record x e).2.adj i = σ.adj i := by
  simp only [State.record, State.adj]
  rcases Nat.lt_trichotomy i σ.var_stack_.length with h | h | h
  · rw [List.getElem?_append_left h]
  · subst h
    simp
  · have h1 : (σ.var_stack_ ++ [{ val_ := x, adj_ := 0, op := e }])[i]? = none :=
      List.getElem?_eq_none_iff.mpr (by simp; omega)
    have h2 : σ.var_stack_[i]? = none := List.getElem?_eq_none_iff.mpr (by omega)
    rw [h1, h2]

theorem op_set_zero (σ : State R) (q : Nat) : σ.set_zero_all_adjoints.op q = σ.op q := by
  simp only [State.set_zero_all_adjoints, State.op, List.getElem?_map]
  cases σ.var_stack_[q]? <;> rfl

theorem add_adj_op (σ : State R) (p : Nat) (d : R) (q : Nat) :
    (σ.add_adj p d).op q = σ.op q := by
  unfold State.add_adj
  cases h : σ.var_stack_[p]? with
  | none => rfl
  | some n =>
    simp only [State.op, List.getElem?_set]
    by_cases hpq : p = q
    · subst hpq
      have hp : p < σ.var_stack_.length := (List.getElem?_eq_some_iff.mp h).1
      simp [hp, h]
    · simp [hpq]

theorem adj_add_dbl_op (a : R) (vd : List Nat) (q : Nat) : ∀ (cs : List R) (σ : State R),
    (adj_add_dbl σ a vd cs).op q = σ.op q := by
  induction vd with
  | nil => intro cs σ; rw [adj_add_dbl_nil]
  | cons p vd ih =>
    intro cs σ
    cases cs with
    | nil => rw [adj_add_dbl_nil_right]
    | cons x cs => rw [adj_add_dbl_cons, ih, add_adj_op]

theorem chain_op (σ : State R) (self q : Nat) : (chain σ self).op q = σ.op q := by
  unfold chain
  cases σ.op self with
  | vari => rfl
  | op_vari operands partials => simp only [chain_op_vari, adj_add_dbl_op]
  | dot_product d =>
    rcases d with ⟨s1, s2, n⟩
    cases s1 <;> cases s2 <;>
      simp only [chain_vari_vari, chain_double_vari, chain_vari_double, adj_add_val_eq,
        adj_add_dbl_op]

theorem set_of_getElem? {α : Type} (l : List α) (i : Nat) (a : α) (h : l[i]? = some a) :
    l.set i a = l := by
  apply List.ext_getElem?
  intro j
  rw [List.getElem?_set]
  by_cases hij : i = j
  · subst hij
    rw [if_pos rfl, if_pos (List.getElem?_eq_some_iff.mp h).1, h]
  · rw [if_neg hij]

theorem add_adj_zero (σ : State R) (p : Nat) : σ.add_adj p 0 = σ := by
  unfold State.add_adj
  cases h : σ.var_stack_[p]? with
  | none => rfl
  | some n =>
    have e : ({ n with adj_ := n.adj_ + 0 } : vari R) = n := by
      rw [add_zero]
    simp only [e, set_of_getElem? _ _ _ h]

theorem adj_add_dbl_zero (vd : List Nat) : ∀ (cs : List R) (σ : State R),
    adj_add_dbl σ 0 vd cs = σ := by
  induction vd with
  | nil => intro cs σ; rw [adj_add_dbl_nil]
  | cons p vd ih =>
    intro cs σ
    cases cs with
    | nil => rw [adj_add_dbl_nil_right]
    | cons x cs => rw [adj_add_dbl_cons, zero_mul, add_adj_zero, ih]

/-- A node whose adjoint is 0, or a plain `vari`, propagates nothing. -/
theorem chain_id (σ : State R) (self : Nat) (h : σ.adj self = 0 ∨ σ.op self = .vari) :
    chain σ self = σ := by
  unfold chain
  cases ho : σ.op self with
  | vari => rfl
  | op_vari operands partials =>
    rcases h with h | h
    · simp only [chain_op_vari, h, adj_add_dbl_zero]
    · rw [ho] at h; cases h
  | dot_product d =>
    rcases h with h | h
    · rcases d with ⟨s1, s2, n⟩
      cases s1 <;> cases s2 <;>
        simp only [chain_vari_vari, chain_double_vari, chain_vari_double, adj_add_val_eq, h,
          adj_add_dbl_zero]
    · rw [ho] at h; cases h

theorem sweep_nil (σ : State R) : sweep σ [] = σ := rfl

theorem sweep_cons (σ : State R) (i : Nat) (nodes : List Nat) :
    sweep σ (i :: nodes) = sweep (chain σ i) nodes := rfl

theorem sweep_append (σ : State R) (l1 l2 : List Nat) :
    sweep σ (l1 ++ l2) = sweep (sweep σ l1) l2 := by
  simp [sweep]

/-- Sweeping over nodes that all have adjoint 0 or are plain `vari` changes
nothing. -/
theorem sweep_id (nodes : List Nat) : ∀ σ : State R,
    (∀ i ∈ nodes, σ.adj i = 0 ∨ σ.op i = .vari) → sweep σ nodes = σ := by
  induction nodes with
  | nil => intro σ _; rfl
  | cons i nodes ih =>
    intro σ h
    rw [sweep_cons, chain_id σ i (h i (List.mem_cons_self i nodes))]
    exact ih σ (fun j hj => h j (List.mem_cons_of_mem i hj))

/-- The chain of a scalar operation node. -/
theorem chain_op_adj (σ : State R) (self : Nat) (operands : List Nat) (partials : List R)
    (h : σ.op self = .op_vari operands partials) (q : Nat) (hq : q < σ.var_stack_.length) :
    (chain σ self).adj q = σ.adj q + contrib (σ.adj self) q operands partials := by
  simp only [chain, h, chain_op_vari, adj_add_dbl_adj _ _ _ _ σ hq, contrib]

end tape_lemmas
section forward_over_reverse_lemmas

variable {R : Type} [LinearOrderedField R]

theorem range_succ_reverse (n : Nat) :
    (List.range (n + 1)).reverse = n :: (List.range n).reverse := by
  simp [List.range_succ]

/-- The adjoints after seeding: 1 at the output, 0 elsewhere. -/
theorem adj_seed (τ : State R) (out q : Nat) (h : out < τ.var_stack_.length) :
    ((τ.set_zero_all_adjoints).set_adj out 1).adj q = if q = out then 1 else 0 := by
  rw [adj_set_adj _ _ _ _ (by rw [length_set_zero]; exact h), adj_set_zero]

/-- The tape that `atanh` on a dual of reverse-mode scalars leaves behind: five
new nodes on top of the old tape. -/
theorem atanh_fvar_var_tape (f : R → R) (σ : State R) (x : fvar var)
    (hx : x.val_.vi_ < σ.var_stack_.length) (hd : x.d_.vi_ < σ.var_stack_.length)
    (hdom : -1 < σ.val x.val_.vi_ ∧ σ.val x.val_.vi_ < 1) :
    (atanh_fvar_var f σ x).1
        = .ok ⟨⟨σ.var_stack_.length⟩, ⟨σ.var_stack_.length + 4⟩⟩ ∧
      (atanh_fvar_var f σ x).2.var_stack_.length = σ.var_stack_.length + 5 ∧
      (∀ i, i < σ.var_stack_.length → (atanh_fvar_var f σ x).2.op i = σ.op i) ∧
      (atanh_fvar_var f σ x).2.val σ.var_stack_.length = f (σ.val x.val_.vi_) ∧
      (atanh_fvar_var f σ x).2.val (σ.var_stack_.length + 4)
        = 1 / (1 - σ.val x.val_.vi_ * σ.val x.val_.vi_) * σ.val x.d_.vi_ ∧
      (atanh_fvar_var f σ x).2.op σ.var_stack_.length
        = .op_vari [x.val_.vi_] [1 / (1 - σ.val x.val_.vi_ * σ.val x.val_.vi_)] ∧
      (atanh_fvar_var f σ x).2.op (σ.var_stack_.length + 1)
        = .op_vari [x.val_.vi_, x.val_.vi_] [σ.val x.val_.vi_, σ.val x.val_.vi_] ∧
      (atanh_fvar_var f σ x).2.op (σ.var_stack_.length + 2)
        = .op_vari [σ.var_stack_.length + 1] [-1] ∧
      (atanh_fvar_var f σ x).2.op (σ.var_stack_.length + 3)
        = .op_vari [σ.var_stack_.length + 2]
            [-1 / ((1 - σ.val x.val_.vi_ * σ.val x.val_.vi_)
              * (1 - σ.val x.val_.vi_ * σ.val x.val_.vi_))] ∧
      (atanh_fvar_var f σ x).2.op (σ.var_stack_.length + 4)
        = .op_vari [σ.var_stack_.length + 3, x.d_.vi_]
            [σ.val x.d_.vi_, 1 / (1 - σ.val x.val_.vi_ * σ.val x.val_.vi_)] := by
  have h0 : x.val_.vi_ ≠ σ.var_stack_.length := by omega
  have h1 : x.val_.vi_ ≠ σ.var_stack_.length + 1 := by omega
  have h2 : x.val_.vi_ ≠ σ.var_stack_.length + 2 := by omega
  have h3 : x.val_.vi_ ≠ σ.var_stack_.length + 3 := by omega
  have g0 : x.d_.vi_ ≠ σ.var_stack_.length := by omega
  have g1 : x.d_.vi_ ≠ σ.var_stack_.length + 1 := by omega
  have g2 : x.d_.vi_ ≠ σ.var_stack_.length + 2 := by omega
  have g3 : x.d_.vi_ ≠ σ.var_stack_.length + 3 := by omega
  refine ⟨?_, ?_, ?_, ?_, ?_, ?_, ?_, ?_, ?_, ?_⟩
  · simp [atanh_fvar_var, atanh_var, atanh, hdom, multiply, subtract_dv, divide_dv,
      val_record_ite, length_record, fst_record, Nat.add_assoc, h0, h1, h2, h3, g0, g1, g2, g3]
  · simp [atanh_fvar_var, atanh_var, atanh, hdom, multiply, subtract_dv, divide_dv,
      val_record_ite, length_record, fst_record, Nat.add_assoc, h0, h1, h2, h3, g0, g1, g2, g3]
  · intro i hi
    have i0 : i ≠ σ.var_stack_.length := by omega
    have i1 : i ≠ σ.var_stack_.length + 1 := by omega
    have i2 : i ≠ σ.var_stack_.length + 2 := by omega
    have i3 : i ≠ σ.var_stack_.length + 3 := by omega
    have i4 : i ≠ σ.var_stack_.length + 4 := by omega
    simp [atanh_fvar_var, atanh_var, atanh, hdom, multiply, subtract_dv, divide_dv,
      op_record, length_record, fst_record, Nat.add_assoc, i0, i1, i2, i3, i4]
  all_goals
    simp [atanh_fvar_var, atanh_var, atanh, hdom, multiply, subtract_dv, divide_dv,
      val_record_ite, op_record, length_record, fst_record, Nat.add_assoc,
      h0, h1, h2, h3, g0, g1, g2, g3]

theorem range_add_five_reverse (n : Nat) :
    (List.range (n + 5)).reverse
      = (n + 4) :: (n + 3) :: (n + 2) :: (n + 1) :: n :: (List.range n).reverse := by
  simp [List.range_succ]

/-- The state after the seed keeps length and dynamic types. -/
theorem seed_frame (τ : State R) (out : Nat) :
    ((τ.set_zero_all_adjoints).set_adj out 1).var_stack_.length = τ.var_stack_.length ∧
      ∀ q, ((τ.set_zero_all_adjoints).set_adj out 1).op q = τ.op q :=
  ⟨by rw [length_set_adj, length_set_zero], fun q => by rw [op_set_adj, op_set_zero]⟩

/-- One step of the sweep at a scalar-operation node: length and dynamic types
stay, and the adjoints gain the node's contributions. -/
theorem chain_node (s : State R) (self : Nat) (o : List Nat) (p : List R)
    (h : s.op self = .op_vari o p) :
    (chain s self).var_stack_.length = s.var_stack_.length ∧
      (∀ q, (chain s self).op q = s.op q) ∧
      ∀ q, q < s.var_stack_.length →
        (chain s self).adj q = s.adj q + contrib (s.adj self) q o p :=
  ⟨chain_length s self, chain_op s self, chain_op_adj s self o p h⟩

/-- The reverse-mode gradient of the value component of `atanh` on a dual of
reverse-mode scalars. -/
theorem atanh_fvar_var_grad_val (f : R → R) (σ : State R) (x : fvar var)
    (hx : x.val_.vi_ < σ.var_stack_.length) (hd : x.d_.vi_ < σ.var_stack_.length)
    (hleaf : σ.op x.val_.vi_ = .vari)
    (hdom : -1 < σ.val x.val_.vi_ ∧ σ.val x.val_.vi_ < 1) :
    (grad (atanh_fvar_var f σ x).2 σ.var_stack_.length).adj x.val_.vi_
      = 1 / (1 - σ.val x.val_.vi_ * σ.val x.val_.vi_) := by
  obtain ⟨-, hlen, hold, -, -, o0, -, -, -, -⟩ := atanh_fvar_var_tape f σ x hx hd hdom
  generalize (atanh_fvar_var f σ x).2 = τ at hlen hold o0 ⊢
  unfold grad
  rw [hlen, range_add_five_reverse]
  obtain ⟨l0, p0⟩ := seed_frame τ σ.var_stack_.length
  have a0 := fun q => adj_seed τ σ.var_stack_.length q (by omega)
  generalize (τ.set_zero_all_adjoints).set_adj σ.var_stack_.length 1 = s0 at l0 p0 a0 ⊢
  rw [sweep_cons, chain_id s0 _ (Or.inl (by rw [a0]; simp)),
    sweep_cons, chain_id s0 _ (Or.inl (by rw [a0]; simp)),
    sweep_cons, chain_id s0 _ (Or.inl (by rw [a0]; simp)),
    sweep_cons, chain_id s0 _ (Or.inl (by rw [a0]; simp)), sweep_cons]
  obtain ⟨-, p1, a1⟩ := chain_node s0 σ.var_stack_.length _ _ (by rw [p0, o0])
  rw [l0, hlen] at a1
  generalize chain s0 σ.var_stack_.length = s1 at p1 a1 ⊢
  rw [sweep_id _ s1]
  · rw [a1 _ (by omega), a0, a0]
    simp [contrib_cons, contrib_nil, Nat.ne_of_lt hx]
  · intro i hi
    have hi' : i < σ.var_stack_.length := by simpa using hi
    by_cases e : i = x.val_.vi_
    · right
      rw [e, p1, p0, hold _ hx, hleaf]
    · left
      rw [a1 _ (by omega), a0, a0]
      simp [contrib_cons, contrib_nil, Nat.ne_of_lt hi', Ne.symm e]

theorem range_add_six_reverse (n : Nat) :
    (List.range (n + 6)).reverse
      = (n + 5) :: (n + 4) :: (n + 3) :: (n + 2) :: (n + 1) :: n :: (List.range n).reverse := by
  simp [List.range_succ]

/-- The tape that `asinh` on a dual of reverse-mode scalars leaves behind: six
new nodes on top of the old tape. -/
theorem asinh_fvar_var_tape (g rt : R → R) (σ : State R) (x : fvar var)
    (hx : x.val_.vi_ < σ.var_stack_.length) (hd : x.d_.vi_ < σ.var_stack_.length) :
    (asinh_fvar_var g rt σ x).1 = ⟨⟨σ.var_stack_.length⟩, ⟨σ.var_stack_.length + 5⟩⟩ ∧
      (asinh_fvar_var g rt σ x).2.var_stack_.length = σ.var_stack_.length + 6 ∧
      (∀ i, i < σ.var_stack_.length → (asinh_fvar_var g rt σ x).2.op i = σ.op i) ∧
      (asinh_fvar_var g rt σ x).2.val σ.var_stack_.length = g (σ.val x.val_.vi_) ∧
      (asinh_fvar_var g rt σ x).2.val (σ.var_stack_.length + 5)
        = 1 / rt (1 + σ.val x.val_.vi_ * σ.val x.val_.vi_) * σ.val x.d_.vi_ ∧
      (asinh_fvar_var g rt σ x).2.op σ.var_stack_.length
        = .op_vari [x.val_.vi_] [1 / rt (1 + σ.val x.val_.vi_ * σ.val x.val_.vi_)] ∧
      (asinh_fvar_var g rt σ x).2.op (σ.var_stack_.length + 1)
        = .op_vari [x.val_.vi_, x.val_.vi_] [σ.val x.val_.vi_, σ.val x.val_.vi_] ∧
      (asinh_fvar_var g rt σ x).2.op (σ.var_stack_.length + 2)
        = .op_vari [σ.var_stack_.length + 1] [1] ∧
      (asinh_fvar_var g rt σ x).2.op (σ.var_stack_.length + 3)
        = .op_vari [σ.var_stack_.length + 2]
            [1 / (2 * rt (1 + σ.val x.val_.vi_ * σ.val x.val_.vi_))] ∧
      (asinh_fvar_var g rt σ x).2.op (σ.var_stack_.length + 4)
        = .op_vari [σ.var_stack_.length + 3]
            [-1 / (rt (1 + σ.val x.val_.vi_ * σ.val x.val_.vi_)
              * rt (1 + σ.val x.val_.vi_ * σ.val x.val_.vi_))] ∧
      (asinh_fvar_var g rt σ x).2.op (σ.var_stack_.length + 5)
        = .op_vari [σ.var_stack_.length + 4, x.d_.vi_]
            [σ.val x.d_.vi_, 1 / rt (1 + σ.val x.val_.vi_ * σ.val x.val_.vi_)] := by
  have h0 : x.val_.vi_ ≠ σ.var_stack_.length := by omega
  have h1 : x.val_.vi_ ≠ σ.var_stack_.length + 1 := by omega
  have h2 : x.val_.vi_ ≠ σ.var_stack_.length + 2 := by omega
  have h3 : x.val_.vi_ ≠ σ.var_stack_.length + 3 := by omega
  have h4 : x.val_.vi_ ≠ σ.var_stack_.length + 4 := by omega
  have g0 : x.d_.vi_ ≠ σ.var_stack_.length := by omega
  have g1 : x.d_.vi_ ≠ σ.var_stack_.length + 1 := by omega
  have g2 : x.d_.vi_ ≠ σ.var_stack_.length + 2 := by omega
  have g3 : x.d_.vi_ ≠ σ.var_stack_.length + 3 := by omega
  have g4 : x.d_.vi_ ≠ σ.var_stack_.length + 4 := by omega
  refine ⟨?_, ?_, ?_, ?_, ?_, ?_, ?_, ?_, ?_, ?_, ?_⟩
  · simp [asinh_fvar_var, asinh_var, asinh, multiply, add_dv, sqrt_var, divide_dv,
      val_record_ite, length_record, fst_record, Nat.add_assoc]
  · simp [asinh_fvar_var, asinh_var, asinh, multiply, add_dv, sqrt_var, divide_dv,
      val_record_ite, length_record, fst_record, Nat.add_assoc]
  · intro i hi
    have i0 : i ≠ σ.var_stack_.length := by omega
    have i1 : i ≠ σ.var_stack_.length + 1 := by omega
    have i2 : i ≠ σ.var_stack_.length + 2 := by omega
    have i3 : i ≠ σ.var_stack_.length + 3 := by omega
    have i4 : i ≠ σ.var_stack_.length + 4 := by omega
    have i5 : i ≠ σ.var_stack_.length + 5 := by omega
    simp [asinh_fvar_var, asinh_var, asinh, multiply, add_dv, sqrt_var, divide_dv,
      op_record, length_record, fst_record, Nat.add_assoc, i0, i1, i2, i3, i4, i5]
  all_goals
    simp [asinh_fvar_var, asinh_var, asinh, multiply, add_dv, sqrt_var, divide_dv,
      val_record_ite, op_record, length_record, fst_record, Nat.add_assoc,
      h0, h1, h2, h3, h4, g0, g1, g2, g3, g4]

/-- The reverse-mode gradient of the value component of `asinh` on a dual of
reverse-mode scalars. -/
theorem asinh_fvar_var_grad_val (g rt : R → R) (σ : State R) (x : fvar var)
    (hx : x.val_.vi_ < σ.var_stack_.length) (hd : x.d_.vi_ < σ.var_stack_.length)
    (hleaf : σ.op x.val_.vi_ = .vari) :
    (grad (asinh_fvar_var g rt σ x).2 σ.var_stack_.length).adj x.val_.vi_
      = 1 / rt (1 + σ.val x.val_.vi_ * σ.val x.val_.vi_) := by
  obtain ⟨-, hlen, hold, -, -, o0, -, -, -, -, -⟩ := asinh_fvar_var_tape g rt σ x hx hd
  generalize (asinh_fvar_var g rt σ x).2 = τ at hlen hold o0 ⊢
  unfold grad
  rw [hlen, range_add_six_reverse]
  obtain ⟨l0, p0⟩ := seed_frame τ σ.var_stack_.length
  have a0 := fun q => adj_seed τ σ.var_stack_.length q (by omega)
  generalize (τ.set_zero_all_adjoints).set_adj σ.var_stack_.length 1 = s0 at l0 p0 a0 ⊢
  rw [sweep_cons, chain_id s0 _ (Or.inl (by rw [a0]; simp)),
    sweep_cons, chain_id s0 _ (Or.inl (by rw [a0]; simp)),
    sweep_cons, chain_id s0 _ (Or.inl (by rw [a0]; simp)),
    sweep_cons, chain_id s0 _ (Or.inl (by rw [a0]; simp)),
    sweep_cons, chain_id s0 _ (Or.inl (by rw [a0]; simp)), sweep_cons]
  obtain ⟨-, p1, a1⟩ := chain_node s0 σ.var_stack_.length _ _ (by rw [p0, o0])
  rw [l0, hlen] at a1
  generalize chain s0 σ.var_stack_.length = s1 at p1 a1 ⊢
  rw [sweep_id _ s1]
  · rw [a1 _ (by omega), a0, a0]
    simp [contrib_cons, contrib_nil, Nat.ne_of_lt hx]
  · intro i hi
    have hi' : i < σ.var_stack_.length := by simpa using hi
    by_cases e : i = x.val_.vi_
    · right
      rw [e, p1, p0, hold _ hx, hleaf]
    · left
      rw [a1 _ (by omega), a0, a0]
      simp [contrib_cons, contrib_nil, Nat.ne_of_lt hi', Ne.symm e]

end forward_over_reverse_lemmas
section forward_claims

variable {R : Type} [LinearOrderedField R]

/-- C11: the forward-mode unary rule for `asinh` and `atanh`.  On a dual of plain
numbers `(x, d)`, `asinh` gives `(asinh(x), d / sqrt(1 + x * x))` and, for
`-1 < x < 1`, `atanh` gives `(atanh(x), d / (1 - x * x))`.  On a dual of
reverse-mode scalars whose value handle is an independent variable valued `x`
and whose tangent handle is valued `d`, the two components of the result have
these same values, and the reverse-mode gradient of the value component with
respect to `x` is `1 / sqrt(1 + x * x)` for `asinh` and `1 / (1 - x * x)` for
`atanh`. -/
theorem forward_unary_rule (f g rt : R → R) :
    (∀ x d : R, asinh_fvar g rt ⟨x, d⟩ = ⟨asinh g x, d / rt (1 + x * x)⟩ ∧ asinh g x = g x) ∧
    (∀ x d : R, -1 < x ∧ x < 1 →
      atanh_fvar f ⟨x, d⟩ = .ok ⟨f x, d / (1 - x * x)⟩ ∧ atanh f x = .ok (f x)) ∧
    (∀ (σ : State R) (v : fvar var),
      v.val_.vi_ < σ.var_stack_.length → v.d_.vi_ < σ.var_stack_.length →
      σ.op v.val_.vi_ = .vari →
        (asinh_fvar_var g rt σ v).2.val (asinh_fvar_var g rt σ v).1.val_.vi_
          = asinh g (σ.val v.val_.vi_) ∧
        (asinh_fvar_var g rt σ v).2.val (asinh_fvar_var g rt σ v).1.d_.vi_
          = σ.val v.d_.vi_ / rt (1 + σ.val v.val_.vi_ * σ.val v.val_.vi_) ∧
        (grad (asinh_fvar_var g rt σ v).2 (asinh_fvar_var g rt σ v).1.val_.vi_).adj v.val_.vi_
          = 1 / rt (1 + σ.val v.val_.vi_ * σ.val v.val_.vi_)) ∧
    (∀ (σ : State R) (v : fvar var),
      v.val_.vi_ < σ.var_stack_.length → v.d_.vi_ < σ.var_stack_.length →
      σ.op v.val_.vi_ = .vari → -1 < σ.val v.val_.vi_ ∧ σ.val v.val_.vi_ < 1 →
        ∃ a : fvar var, (atanh_fvar_var f σ v).1 = .ok a ∧
          (atanh_fvar_var f σ v).2.val a.val_.vi_ = f (σ.val v.val_.vi_) ∧
          (atanh_fvar_var f σ v).2.val a.d_.vi_
            = σ.val v.d_.vi_ / (1 - σ.val v.val_.vi_ * σ.val v.val_.vi_) ∧
          (grad (atanh_fvar_var f σ v).2 a.val_.vi_).adj v.val_.vi_
            = 1 / (1 - σ.val v.val_.vi_ * σ.val v.val_.vi_)) := by
  refine ⟨?_, ?_, ?_, ?_⟩
  · intro x d
    refine ⟨?_, rfl⟩
    simp only [asinh_fvar, one_div, div_eq_mul_inv, mul_comm, mul_one, one_mul]
  · intro x d hx
    have e : atanh f x = .ok (f x) := by simp only [atanh, if_pos hx]
    refine ⟨?_, e⟩
    simp only [atanh_fvar, e, one_div, div_eq_mul_inv, mul_comm, mul_one, one_mul]
  · intro σ v hx hd hleaf
    obtain ⟨h1, -, -, hv, ht, -⟩ := asinh_fvar_var_tape g rt σ v hx hd
    have hg := asinh_fvar_var_grad_val g rt σ v hx hd hleaf
    rw [h1]
    refine ⟨hv, ?_, hg⟩
    rw [ht, one_div, div_eq_mul_inv, mul_comm]
  · intro σ v hx hd hleaf hdom
    obtain ⟨h1, -, -, hv, ht, -⟩ := atanh_fvar_var_tape f σ v hx hd hdom
    have hg := atanh_fvar_var_grad_val f σ v hx hd hleaf hdom
    refine ⟨_, h1, hv, ?_, hg⟩
    rw [ht, one_div, div_eq_mul_inv, mul_comm]

/-- C11 at the inputs of the `atanh` test, `x = 1 / 2` and `d = 13 / 10`, with
the identity as numeric evaluator: the result is the pair of handles 2 and 6,
the tangent is `(13 / 10) / (1 - 1 / 2 * (1 / 2))`, and the gradient of the value
component is `1 / (1 - 1 / 2 * (1 / 2))`. -/
theorem forward_unary_rule_witness :
    ∃ a : fvar var, (atanh_fvar_var (fun t : ℚ => t) σ11 ⟨⟨0⟩, ⟨1⟩⟩).1 = .ok a ∧
      (atanh_fvar_var (fun t : ℚ => t) σ11 ⟨⟨0⟩, ⟨1⟩⟩).2.val a.val_.vi_ = σ11.val 0 ∧
      (atanh_fvar_var (fun t : ℚ => t) σ11 ⟨⟨0⟩, ⟨1⟩⟩).2.val a.d_.vi_
        = σ11.val 1 / (1 - σ11.val 0 * σ11.val 0) ∧
      (grad (atanh_fvar_var (fun t : ℚ => t) σ11 ⟨⟨0⟩, ⟨1⟩⟩).2 a.val_.vi_).adj 0
        = 1 / (1 - σ11.val 0 * σ11.val 0) :=
  (forward_unary_rule (fun t : ℚ => t) (fun t : ℚ => t) (fun t : ℚ => t)).2.2.2
    σ11 ⟨⟨0⟩, ⟨1⟩⟩ (by decide) (by decide) rfl (by norm_num [σ11, State.val])

end forward_claims
section second_derivative_lemmas

variable {R : Type} [LinearOrderedField R]

/-- The reverse-mode gradient of the tangent component of `atanh` on a dual of
reverse-mode scalars, with respect to the value handle. -/
theorem atanh_fvar_var_grad_d (f : R → R) (σ : State R) (x : fvar var)
    (hx : x.val_.vi_ < σ.var_stack_.length) (hd : x.d_.vi_ < σ.var_stack_.length)
    (hne : x.val_.vi_ ≠ x.d_.vi_)
    (hleaf : σ.op x.val_.vi_ = .vari) (hleaf_d : σ.op x.d_.vi_ = .vari)
    (hdom : -1 < σ.val x.val_.vi_ ∧ σ.val x.val_.vi_ < 1) :
    (grad (atanh_fvar_var f σ x).2 (σ.var_stack_.length + 4)).adj x.val_.vi_
      = σ.val x.d_.vi_ * (2 * σ.val x.val_.vi_
          / ((1 - σ.val x.val_.vi_ * σ.val x.val_.vi_)
            * (1 - σ.val x.val_.vi_ * σ.val x.val_.vi_))) := by
  obtain ⟨-, hlen, hold, -, -, o0, o1, o2, o3, o4⟩ := atanh_fvar_var_tape f σ x hx hd hdom
  generalize (atanh_fvar_var f σ x).2 = τ at hlen hold o0 o1 o2 o3 o4 ⊢
  unfold grad
  rw [hlen, range_add_five_reverse]
  obtain ⟨l0, p0⟩ := seed_frame τ (σ.var_stack_.length + 4)
  have a0 := fun q => adj_seed τ (σ.var_stack_.length + 4) q (by omega)
  generalize (τ.set_zero_all_adjoints).set_adj (σ.var_stack_.length + 4) 1 = s0 at l0 p0 a0 ⊢
  rw [hlen] at l0
  rw [sweep_cons]
  obtain ⟨l1, p1, a1⟩ := chain_node s0 (σ.var_stack_.length + 4) _ _ (by rw [p0, o4])
  generalize chain s0 (σ.var_stack_.length + 4) = s1 at l1 p1 a1 ⊢
  rw [sweep_cons]
  obtain ⟨l2, p2, a2⟩ := chain_node s1 (σ.var_stack_.length + 3) _ _ (by rw [p1, p0, o3])
  generalize chain s1 (σ.var_stack_.length + 3) = s2 at l2 p2 a2 ⊢
  rw [sweep_cons]
  obtain ⟨l3, p3, a3⟩ := chain_node s2 (σ.var_stack_.length + 2) _ _ (by rw [p2, p1, p0, o2])
  generalize chain s2 (σ.var_stack_.length + 2) = s3 at l3 p3 a3 ⊢
  rw [sweep_cons]
  obtain ⟨l4, p4, a4⟩ := chain_node s3 (σ.var_stack_.length + 1) _ _
    (by rw [p3, p2, p1, p0, o1])
  generalize chain s3 (σ.var_stack_.length + 1) = s4 at l4 p4 a4 ⊢
  rw [sweep_cons]
  obtain ⟨l5, p5, a5⟩ := chain_node s4 σ.var_stack_.length _ _
    (by rw [p4, p3, p2, p1, p0, o0])
  generalize chain s4 σ.var_stack_.length = s5 at l5 p5 a5 ⊢
  rw [l0] at a1
  rw [l1, l0] at l2 a2
  rw [l2] at l3 a3
  rw [l3] at l4 a4
  rw [l4] at a5
  have g3 : x.d_.vi_ ≠ σ.var_stack_.length + 3 := by omega
  have g2 : x.d_.vi_ ≠ σ.var_stack_.length + 2 := by omega
  have g1 : x.d_.vi_ ≠ σ.var_stack_.length + 1 := by omega
  have g0 : x.d_.vi_ ≠ σ.var_stack_.length := by omega
  have h1 : x.val_.vi_ ≠ σ.var_stack_.length + 1 := by omega
  have h0 : x.val_.vi_ ≠ σ.var_stack_.length := by omega
  generalize σ.val x.val_.vi_ = x0 at *
  generalize σ.val x.d_.vi_ = d0 at *
  have A1 : ∀ q, q < σ.var_stack_.length + 5 → s1.adj q
      = (if q = σ.var_stack_.length + 4 then 1 else 0)
        + (if σ.var_stack_.length + 3 = q then d0 else 0)
        + (if x.d_.vi_ = q then 1 / (1 - x0 * x0) else 0) := by
    intro q hq
    rw [a1 q hq, a0, a0]
    simp [contrib_cons, contrib_nil, add_assoc]
  have A2 : ∀ q, q < σ.var_stack_.length + 5 → s2.adj q
      = (if q = σ.var_stack_.length + 4 then 1 else 0)
        + (if σ.var_stack_.length + 3 = q then d0 else 0)
        + (if x.d_.vi_ = q then 1 / (1 - x0 * x0) else 0)
        + (if σ.var_stack_.length + 2 = q
            then d0 * (-1 / ((1 - x0 * x0) * (1 - x0 * x0))) else 0) := by
    intro q hq
    rw [a2 q hq, A1 q hq, A1 _ (by omega)]
    simp [contrib_cons, contrib_nil, g3]
  have A3 : ∀ q, q < σ.var_stack_.length + 5 → s3.adj q
      = (if q = σ.var_stack_.length + 4 then 1 else 0)
        + (if σ.var_stack_.length + 3 = q then d0 else 0)
        + (if x.d_.vi_ = q then 1 / (1 - x0 * x0) else 0)
        + (if σ.var_stack_.length + 2 = q
            then d0 * (-1 / ((1 - x0 * x0) * (1 - x0 * x0))) else 0)
        + (if σ.var_stack_.length + 1 = q
            then d0 * (-1 / ((1 - x0 * x0) * (1 - x0 * x0))) * -1 else 0) := by
    intro q hq
    rw [a3 q hq, A2 q hq, A2 _ (by omega)]
    simp [contrib_cons, contrib_nil, g2]
  have A4 : ∀ q, q < σ.var_stack_.length → s4.adj q
      = (if x.d_.vi_ = q then 1 / (1 - x0 * x0) else 0)
        + (if x.val_.vi_ = q
            then d0 * (2 * x0 / ((1 - x0 * x0) * (1 - x0 * x0))) else 0) := by
    intro q hq
    have q4 : q ≠ σ.var_stack_.length + 4 := by omega
    have q3 : σ.var_stack_.length + 3 ≠ q := by omega
    have q2 : σ.var_stack_.length + 2 ≠ q := by omega
    have q1 : σ.var_stack_.length + 1 ≠ q := by omega
    rw [a4 q (by omega), A3 q (by omega), A3 _ (by omega)]
    simp only [contrib_cons, contrib_nil, g1, q4, q3, q2, q1, if_false, if_true, add_zero,
      zero_add, Nat.add_right_cancel_iff, OfNat.ofNat_ne_one, Nat.succ_ne_self]
    simp
    by_cases e : x.val_.vi_ = q
    · simp only [e, if_true]
      ring
    · simp [e]
  have L4 : s4.adj σ.var_stack_.length = 0 := by
    rw [a4 _ (by omega), A3 _ (by omega), A3 _ (by omega)]
    simp [contrib_cons, contrib_nil, g0, h0, g1]
  have A5 : ∀ q, q < σ.var_stack_.length → s5.adj q = s4.adj q := by
    intro q hq
    rw [a5 q (by omega), L4]
    simp [contrib_cons, contrib_nil]
  rw [sweep_id _ s5]
  · rw [A5 _ hx, A4 _ hx]
    simp [Ne.symm hne]
  · intro i hi
    have hi' : i < σ.var_stack_.length := by simpa using hi
    by_cases e : i = x.val_.vi_
    · right
      rw [e, p5, p4, p3, p2, p1, p0, hold _ hx, hleaf]
    · by_cases e' : i = x.d_.vi_
      · right
        rw [e', p5, p4, p3, p2, p1, p0, hold _ hd, hleaf_d]
      · left
        rw [A5 _ hi', A4 _ hi']
        simp [Ne.symm e, Ne.symm e']

/-- The reverse-mode gradient of the tangent component of `asinh` on a dual of
reverse-mode scalars, with respect to the value handle; `r` is the square root
`rt (1 + x * x)`. -/
theorem asinh_fvar_var_grad_d (g rt : R → R) (σ : State R) (x : fvar var)
    (hx : x.val_.vi_ < σ.var_stack_.length) (hd : x.d_.vi_ < σ.var_stack_.length)
    (hne : x.val_.vi_ ≠ x.d_.vi_)
    (hleaf : σ.op x.val_.vi_ = .vari) (hleaf_d : σ.op x.d_.vi_ = .vari) :
    (grad (asinh_fvar_var g rt σ x).2 (σ.var_stack_.length + 5)).adj x.val_.vi_
      = σ.val x.d_.vi_ * (-σ.val x.val_.vi_
          / (rt (1 + σ.val x.val_.vi_ * σ.val x.val_.vi_)
            * rt (1 + σ.val x.val_.vi_ * σ.val x.val_.vi_)
            * rt (1 + σ.val x.val_.vi_ * σ.val x.val_.vi_))) := by
  obtain ⟨-, hlen, hold, -, -, o0, o1, o2, o3, o4, o5⟩ := asinh_fvar_var_tape g rt σ x hx hd
  generalize (asinh_fvar_var g rt σ x).2 = τ at hlen hold o0 o1 o2 o3 o4 o5 ⊢
  unfold grad
  rw [hlen, range_add_six_reverse]
  obtain ⟨l0, p0⟩ := seed_frame τ (σ.var_stack_.length + 5)
  have a0 := fun q => adj_seed τ (σ.var_stack_.length + 5) q (by omega)
  generalize (τ.set_zero_all_adjoints).set_adj (σ.var_stack_.length + 5) 1 = s0 at l0 p0 a0 ⊢
  rw [hlen] at l0
  rw [sweep_cons]
  obtain ⟨l1, p1, a1⟩ := chain_node s0 (σ.var_stack_.length + 5) _ _ (by rw [p0, o5])
  generalize chain s0 (σ.var_stack_.length + 5) = s1 at l1 p1 a1 ⊢
  rw [sweep_cons]
  obtain ⟨l2, p2, a2⟩ := chain_node s1 (σ.var_stack_.length + 4) _ _ (by rw [p1, p0, o4])
  generalize chain s1 (σ.var_stack_.length + 4) = s2 at l2 p2 a2 ⊢
  rw [sweep_cons]
  obtain ⟨l3, p3, a3⟩ := chain_node s2 (σ.var_stack_.length + 3) _ _ (by rw [p2, p1, p0, o3])
  generalize chain s2 (σ.var_stack_.length + 3) = s3 at l3 p3 a3 ⊢
  rw [sweep_cons]
  obtain ⟨l4, p4, a4⟩ := chain_node s3 (σ.var_stack_.length + 2) _ _
    (by rw [p3, p2, p1, p0, o2])
  generalize chain s3 (σ.var_stack_.length + 2) = s4 at l4 p4 a4 ⊢
  rw [sweep_cons]
  obtain ⟨l5, p5, a5⟩ := chain_node s4 (σ.var_stack_.length + 1) _ _
    (by rw [p4, p3, p2, p1, p0, o1])
  generalize chain s4 (σ.var_stack_.length + 1) = s5 at l5 p5 a5 ⊢
  rw [sweep_cons]
  obtain ⟨l6, p6, a6⟩ := chain_node s5 σ.var_stack_.length _ _
    (by rw [p5, p4, p3, p2, p1, p0, o0])
  generalize chain s5 σ.var_stack_.length = s6 at l6 p6 a6 ⊢
  rw [l0] at a1
  rw [l1, l0] at l2 a2
  rw [l2] at l3 a3
  rw [l3] at l4 a4
  rw [l4] at l5 a5
  rw [l5] at a6
  have g4 : x.d_.vi_ ≠ σ.var_stack_.length + 4 := by omega
  have g3 : x.d_.vi_ ≠ σ.var_stack_.length + 3 := by omega
  have g2 : x.d_.vi_ ≠ σ.var_stack_.length + 2 := by omega
  have g1 : x.d_.vi_ ≠ σ.var_stack_.length + 1 := by omega
  have g0 : x.d_.vi_ ≠ σ.var_stack_.length := by omega
  have h1 : x.val_.vi_ ≠ σ.var_stack_.length + 1 := by omega
  have h0 : x.val_.vi_ ≠ σ.var_stack_.length := by omega
  generalize σ.val x.d_.vi_ = d0 at *
  generalize rt (1 + σ.val x.val_.vi_ * σ.val x.val_.vi_) = r at *
  generalize σ.val x.val_.vi_ = x0 at *
  have A1 : ∀ q, q < σ.var_stack_.length + 6 → s1.adj q
      = (if q = σ.var_stack_.length + 5 then 1 else 0)
        + (if σ.var_stack_.length + 4 = q then d0 else 0)
        + (if x.d_.vi_ = q then 1 / r else 0) := by
    intro q hq
    rw [a1 q hq, a0, a0]
    simp [contrib_cons, contrib_nil, add_assoc]
  have A2 : ∀ q, q < σ.var_stack_.length + 6 → s2.adj q
      = (if q = σ.var_stack_.length + 5 then 1 else 0)
        + (if σ.var_stack_.length + 4 = q then d0 else 0)
        + (if x.d_.vi_ = q then 1 / r else 0)
        + (if σ.var_stack_.length + 3 = q then d0 * (-1 / (r * r)) else 0) := by
    intro q hq
    rw [a2 q hq, A1 q hq, A1 _ (by omega)]
    simp [contrib_cons, contrib_nil, g4]
  have A3 : ∀ q, q < σ.var_stack_.length + 6 → s3.adj q
      = (if q = σ.var_stack_.length + 5 then 1 else 0)
        + (if σ.var_stack_.length + 4 = q then d0 else 0)
        + (if x.d_.vi_ = q then 1 / r else 0)
        + (if σ.var_stack_.length + 3 = q then d0 * (-1 / (r * r)) else 0)
        + (if σ.var_stack_.length + 2 = q
            then d0 * (-1 / (r * r)) * (1 / (2 * r)) else 0) := by
    intro q hq
    rw [a3 q hq, A2 q hq, A2 _ (by omega)]
    simp [contrib_cons, contrib_nil, g3]
  have A4 : ∀ q, q < σ.var_stack_.length + 6 → s4.adj q
      = (if q = σ.var_stack_.length + 5 then 1 else 0)
        + (if σ.var_stack_.length + 4 = q then d0 else 0)
        + (if x.d_.vi_ = q then 1 / r else 0)
        + (if σ.var_stack_.length + 3 = q then d0 * (-1 / (r * r)) else 0)
        + (if σ.var_stack_.length + 2 = q
            then d0 * (-1 / (r * r)) * (1 / (2 * r)) else 0)
        + (if σ.var_stack_.length + 1 = q
            then d0 * (-1 / (r * r)) * (1 / (2 * r)) * 1 else 0) := by
    intro q hq
    rw [a4 q hq, A3 q hq, A3 _ (by omega)]
    simp [contrib_cons, contrib_nil, g2]
  have key : d0 * (-1 / (r * r)) * (1 / (2 * r)) * 1 * x0
      + d0 * (-1 / (r * r)) * (1 / (2 * r)) * 1 * x0 = d0 * (-x0 / (r * r * r)) := by
    by_cases hr : r = 0
    · simp [hr]
    · field_simp
      ring
  have A5 : ∀ q, q < σ.var_stack_.length → s5.adj q
      = (if x.d_.vi_ = q then 1 / r else 0)
        + (if x.val_.vi_ = q then d0 * (-x0 / (r * r * r)) else 0) := by
    intro q hq
    have q5 : q ≠ σ.var_stack_.length + 5 := by omega
    have q4 : σ.var_stack_.length + 4 ≠ q := by omega
    have q3 : σ.var_stack_.length + 3 ≠ q := by omega
    have q2 : σ.var_stack_.length + 2 ≠ q := by omega
    have q1 : σ.var_stack_.length + 1 ≠ q := by omega
    rw [a5 q (by omega), A4 q (by omega), A4 _ (by omega), ← key]
    by_cases e : x.val_.vi_ = q
    · simp [contrib_cons, contrib_nil, g1, q5, q4, q3, q2, q1, e]
    · simp [contrib_cons, contrib_nil, g1, q5, q4, q3, q2, q1, e]
  have L5 : s5.adj σ.var_stack_.length = 0 := by
    rw [a5 _ (by omega), A4 _ (by omega), A4 _ (by omega)]
    simp [contrib_cons, contrib_nil, g0, h0, g1]
  have A6 : ∀ q, q < σ.var_stack_.length → s6.adj q = s5.adj q := by
    intro q hq
    rw [a6 q (by omega), L5]
    simp [contrib_cons, contrib_nil]
  rw [sweep_id _ s6]
  · rw [A6 _ hx, A5 _ hx]
    simp [Ne.symm hne]
  · intro i hi
    have hi' : i < σ.var_stack_.length := by simpa using hi
    by_cases e : i = x.val_.vi_
    · right
      rw [e, p6, p5, p4, p3, p2, p1, p0, hold _ hx, hleaf]
    · by_cases e' : i = x.d_.vi_
      · right
        rw [e', p6, p5, p4, p3, p2, p1, p0, hold _ hd, hleaf_d]
      · left
        rw [A6 _ hi', A5 _ hi']
        simp [Ne.symm e, Ne.symm e']

end second_derivative_lemmas

section second_derivative_calculus

theorem rpow_three_halves (y : ℝ) (hy : 0 < y) :
    y ^ ((3 : ℝ) / 2) = Real.sqrt y * Real.sqrt y * Real.sqrt y := by
  have e : (3 : ℝ) / 2 = 1 / 2 + 1 / 2 + 1 / 2 := by norm_num
  rw [e, Real.rpow_add hy, Real.rpow_add hy, ← Real.sqrt_eq_rpow]

theorem one_add_sq_pos (x : ℝ) : 0 < 1 + x * x := by nlinarith [mul_self_nonneg x]

theorem hasDerivAt_inv_sqrt (x : ℝ) :
    HasDerivAt (fun t : ℝ => 1 / Real.sqrt (1 + t * t))
      (-x / (1 + x * x) ^ ((3 : ℝ) / 2)) x := by
  have hp := one_add_sq_pos x
  have h1 : HasDerivAt (fun t : ℝ => 1 + t * t) (x + x) x := by
    have := ((hasDerivAt_id x).mul (hasDerivAt_id x)).const_add 1
    simpa using this
  have h2 := h1.sqrt hp.ne.symm
  have hs : Real.sqrt (1 + x * x) ≠ 0 := (Real.sqrt_pos.mpr hp).ne.symm
  have h3 := h2.inv hs
  have e : (fun t : ℝ => 1 / Real.sqrt (1 + t * t)) = (fun t : ℝ => (Real.sqrt (1 + t * t))⁻¹) := by
    funext t
    rw [one_div]
  rw [e, rpow_three_halves _ hp]
  convert h3 using 1
  field_simp
  ring

theorem hasDerivAt_inv_one_sub_sq (x : ℝ) (h : 1 - x * x ≠ 0) :
    HasDerivAt (fun t : ℝ => 1 / (1 - t * t)) (2 * x / (1 - x * x) ^ 2) x := by
  have h1 : HasDerivAt (fun t : ℝ => 1 - t * t) (-(x + x)) x := by
    have := ((hasDerivAt_id x).mul (hasDerivAt_id x)).const_sub 1
    simpa using this
  have h3 := h1.inv h
  have e : (fun t : ℝ => 1 / (1 - t * t)) = (fun t : ℝ => (1 - t * t)⁻¹) := by
    funext t
    rw [one_div]
  rw [e]
  convert h3 using 1
  field_simp
  ring

theorem deriv_deriv_arsinh (x : ℝ) :
    deriv (deriv Real.arsinh) x = -x / (1 + x * x) ^ ((3 : ℝ) / 2) := by
  have e : deriv Real.arsinh = (fun t : ℝ => 1 / Real.sqrt (1 + t * t)) := by
    funext t
    rw [(Real.hasDerivAt_arsinh t).deriv, one_div, pow_two]
  rw [e]
  exact (hasDerivAt_inv_sqrt x).deriv

theorem asinh_factor_bound :
    |(-(3 / 2 : ℝ) / (1 + 3 / 2 * (3 / 2)) ^ ((3 : ℝ) / 2)) - (-0.25601548)| < 5 / 10 ^ 9 := by
  have hy : (1 : ℝ) + 3 / 2 * (3 / 2) = 13 / 4 := by norm_num
  rw [hy, rpow_three_halves _ (by norm_num), Real.mul_self_sqrt (by norm_num)]
  have lo : (1.80277563 : ℝ) < Real.sqrt (13 / 4) :=
    (Real.lt_sqrt (by norm_num)).mpr (by norm_num)
  have hi : Real.sqrt (13 / 4) < (1.8027756385 : ℝ) :=
    (Real.sqrt_lt' (by norm_num)).mpr (by norm_num)
  have hpos : (0 : ℝ) < Real.sqrt (13 / 4) := lt_trans (by norm_num) lo
  rw [abs_lt]
  constructor
  · rw [lt_sub_iff_add_lt, neg_div, lt_neg, div_lt_iff₀ (by positivity)]
    nlinarith
  · rw [sub_lt_iff_lt_add, neg_div, neg_lt, lt_div_iff₀ (by positivity)]
    nlinarith

theorem atanh_factor_bound :
    2 * (1 / 2 : ℝ) / (1 - 1 / 2 * (1 / 2)) ^ 2 = 16 / 9 ∧
      |(16 / 9 : ℝ) - 1.7777778| < 5 / 10 ^ 8 := by
  constructor
  · norm_num
  · rw [abs_lt]
    constructor <;> norm_num

end second_derivative_calculus

section second_derivative_claims

/-- C12: the second derivative by forward over reverse.  On a dual of
reverse-mode scalars whose value and tangent handles are distinct independent
variables valued `x` and `d`, the reverse-mode gradient with respect to `x` of
the tangent component of `asinh` is `d * (-x / (1 + x * x) ^ (3 / 2))` and, for
`-1 < x < 1`, that of `atanh` is `d * (2 * x / (1 - x * x) ^ 2)`.  The first
factor is the second derivative of the inverse hyperbolic sine, the second the
derivative of `1 / (1 - x * x)`; at `x = 3 / 2` the first factor rounds to
`-0.25601548` and at `x = 1 / 2` the second is `16 / 9`, which rounds to
`1.7777778`. -/
theorem second_derivative (f g : ℝ → ℝ) :
    (∀ (σ : State ℝ) (v : fvar var),
      v.val_.vi_ < σ.var_stack_.length → v.d_.vi_ < σ.var_stack_.length →
      v.val_.vi_ ≠ v.d_.vi_ → σ.op v.val_.vi_ = .vari → σ.op v.d_.vi_ = .vari →
        (grad (asinh_fvar_var g Real.sqrt σ v).2
            (asinh_fvar_var g Real.sqrt σ v).1.d_.vi_).adj v.val_.vi_
          = σ.val v.d_.vi_
            * (-σ.val v.val_.vi_
              / (1 + σ.val v.val_.vi_ * σ.val v.val_.vi_) ^ ((3 : ℝ) / 2))) ∧
    (∀ (σ : State ℝ) (v : fvar var),
      v.val_.vi_ < σ.var_stack_.length → v.d_.vi_ < σ.var_stack_.length →
      v.val_.vi_ ≠ v.d_.vi_ → σ.op v.val_.vi_ = .vari → σ.op v.d_.vi_ = .vari →
      -1 < σ.val v.val_.vi_ ∧ σ.val v.val_.vi_ < 1 →
        ∃ a : fvar var, (atanh_fvar_var f σ v).1 = .ok a ∧
          (grad (atanh_fvar_var f σ v).2 a.d_.vi_).adj v.val_.vi_
            = σ.val v.d_.vi_
              * (2 * σ.val v.val_.vi_
                / (1 - σ.val v.val_.vi_ * σ.val v.val_.vi_) ^ 2)) ∧
    (∀ x : ℝ, deriv (deriv Real.arsinh) x = -x / (1 + x * x) ^ ((3 : ℝ) / 2)) ∧
    (∀ x : ℝ, -1 < x ∧ x < 1 →
      HasDerivAt (fun t : ℝ => 1 / (1 - t * t)) (2 * x / (1 - x * x) ^ 2) x) ∧
    |(-(3 / 2 : ℝ) / (1 + 3 / 2 * (3 / 2)) ^ ((3 : ℝ) / 2)) - (-0.25601548)| < 5 / 10 ^ 9 ∧
    2 * (1 / 2 : ℝ) / (1 - 1 / 2 * (1 / 2)) ^ 2 = 16 / 9 ∧
    |(16 / 9 : ℝ) - 1.7777778| < 5 / 10 ^ 8 := by
  refine ⟨?_, ?_, deriv_deriv_arsinh, ?_, asinh_factor_bound, atanh_factor_bound⟩
  · intro σ v hx hd hne hleaf hleaf_d
    obtain ⟨h1, -⟩ := asinh_fvar_var_tape g Real.sqrt σ v hx hd
    rw [h1, rpow_three_halves _ (one_add_sq_pos _)]
    exact asinh_fvar_var_grad_d g Real.sqrt σ v hx hd hne hleaf hleaf_d
  · intro σ v hx hd hne hleaf hleaf_d hdom
    obtain ⟨h1, -⟩ := atanh_fvar_var_tape f σ v hx hd hdom
    refine ⟨_, h1, ?_⟩
    rw [pow_two]
    exact atanh_fvar_var_grad_d f σ v hx hd hne hleaf hleaf_d hdom
  · intro x hx
    apply hasDerivAt_inv_one_sub_sq
    nlinarith [hx.1, hx.2]

/-- C12 at the inputs of the `atanh` test, `x = 1 / 2` and `d = 13 / 10` on a
fresh tape of two independent variables, with the identity as numeric
evaluator: the gradient of the tangent component (node 6) with respect to `x`
is `13 / 10 * (16 / 9)`. -/
theorem second_derivative_witness :
    (grad (atanh_fvar_var (fun t : ℝ => t)
        ⟨[⟨1 / 2, 0, .vari⟩, ⟨13 / 10, 0, .vari⟩], [], []⟩ ⟨⟨0⟩, ⟨1⟩⟩).2 6).adj 0
      = 13 / 10 * (16 / 9) := by
  obtain ⟨a, ha, hg⟩ := (second_derivative (fun t : ℝ => t) (fun t : ℝ => t)).2.1
    ⟨[⟨1 / 2, 0, .vari⟩, ⟨13 / 10, 0, .vari⟩], [], []⟩ ⟨⟨0⟩, ⟨1⟩⟩
    (by decide) (by decide) (by decide) rfl rfl (by norm_num [State.val])
  have e := (atanh_fvar_var_tape (fun t : ℝ => t)
    ⟨[⟨1 / 2, 0, .vari⟩, ⟨13 / 10, 0, .vari⟩], [], []⟩ ⟨⟨0⟩, ⟨1⟩⟩
    (by decide) (by decide) (by norm_num [State.val])).1
  rw [e] at ha
  cases ha
  rw [show (6 : Nat) = 2 + 4 from rfl]
  refine hg.trans ?_
  norm_num [State.val]

end second_derivative_claims

section nested_lemmas_plain

variable {R : Type}

theorem extended_by_refl (σ : State R) : σ.extended_by σ :=
  ⟨[], (List.append_nil _).symm⟩

theorem extended_by_trans {σ τ υ : State R} (h1 : σ.extended_by τ) (h2 : τ.extended_by υ) :
    σ.extended_by υ := by
  obtain ⟨l1, e1⟩ := h1
  obtain ⟨l2, e2⟩ := h2
  exact ⟨l1 ++ l2, by rw [e2, e1, List.append_assoc]⟩

end nested_lemmas_plain

section nested_lemmas

variable {R : Type} [LinearOrderedField R]

theorem extended_by_record (σ : State R) (x : R) (e : chainable R) :
    σ.extended_by (σ.record x e).2 :=
  ⟨[⟨x, 0, e⟩], rfl⟩

theorem var_has_mono (σ τ : State R) (a : var) (w : R) (e : σ.extended_by τ)
    (h : var.has σ a w) : var.has τ a w := by
  obtain ⟨l, hl⟩ := e
  refine ⟨?_, ?_⟩
  · rw [hl, List.length_append]
    exact Nat.lt_of_lt_of_le h.1 (Nat.le_add_right _ _)
  · rw [val_append_left σ τ l hl _ h.1]
    exact h.2

/-- A freshly recorded node is on the tape and has the recorded value. -/
theorem var_has_record (σ : State R) (x : R) (e : chainable R) :
    var.has (σ.record x e).2 ⟨(σ.record x e).1⟩ x :=
  ⟨by rw [length_record, fst_record]; exact Nat.lt_succ_self _, val_record σ x e⟩

/-- The operations on reverse-mode scalars compute on the tape what the
operations on plain numbers compute. -/
theorem sim_var (f g rt : R → R) : sim (var_ops f g rt) (double_ops f g rt) var.has where
  mono := var_has_mono
  add σ σ' a b wa wb ha hb := by
    refine ⟨extended_by_record _ _ _, (var_has_record σ _ _).1, ?_⟩
    exact (val_record _ _ _).trans (by rw [ha.2, hb.2]; rfl)
  mul σ σ' a b wa wb ha hb := by
    refine ⟨extended_by_record _ _ _, (var_has_record σ _ _).1, ?_⟩
    exact (val_record _ _ _).trans (by rw [ha.2, hb.2]; rfl)
  add_d σ σ' c a wa ha := by
    refine ⟨extended_by_record _ _ _, (var_has_record σ _ _).1, ?_⟩
    exact (val_record _ _ _).trans (by rw [ha.2]; rfl)
  sub_d σ σ' c a wa ha := by
    refine ⟨extended_by_record _ _ _, (var_has_record σ _ _).1, ?_⟩
    exact (val_record _ _ _).trans (by rw [ha.2]; rfl)
  div_d σ σ' c a wa ha := by
    refine ⟨extended_by_record _ _ _, (var_has_record σ _ _).1, ?_⟩
    exact (val_record _ _ _).trans (by rw [ha.2]; rfl)
  sqrt σ σ' a wa ha := by
    refine ⟨extended_by_record _ _ _, (var_has_record σ _ _).1, ?_⟩
    exact (val_record _ _ _).trans (by rw [ha.2]; rfl)
  atanh σ σ' a wa w ha hw := by
    have e : stan.math.atanh f (σ.val a.vi_) = .ok w := by
      rw [ha.2]
      exact hw
    refine ⟨⟨(σ.record w (.op_vari [a.vi_] [1 / (1 - σ.val a.vi_ * σ.val a.vi_)])).1⟩, ?_, ?_, ?_⟩
    · simp only [var_ops, atanh_var, e]
    · simp only [var_ops, atanh_var, e]
      exact extended_by_record _ _ _
    · simp only [var_ops, atanh_var, e]
      exact var_has_record _ _ _
  asinh σ σ' a wa ha := by
    refine ⟨extended_by_record _ _ _, (var_has_record σ _ _).1, ?_⟩
    exact (val_record _ _ _).trans (by rw [ha.2]; rfl)

end nested_lemmas
section nested_simulation

variable {R : Type} [LinearOrderedField R] {T V : Type}

/-- The simulation lifts to duals: if `o` computes on handles what `p` computes
on values, the dual over `o` computes what the dual over `p` computes. -/
theorem sim_fvar (o : scalar_ops R T) (p : scalar_ops R V) (hh : State R → T → V → Prop)
    (h : sim o p hh) : sim (fvar_ops o) (fvar_ops p) (fvar.has hh) where
  mono σ τ a w e ha := ⟨h.mono σ τ _ _ e ha.1, h.mono σ τ _ _ e ha.2⟩
  add σ σ' a b wa wb ha hb := by
    obtain ⟨e1, v1⟩ := h.add σ σ' a.val_ b.val_ _ _ ha.1 hb.1
    obtain ⟨e2, v2⟩ := h.add (o.add σ a.val_ b.val_).2 (p.add σ' wa.val_ wb.val_).2
      a.d_ b.d_ _ _ (h.mono _ _ _ _ e1 ha.2) (h.mono _ _ _ _ e1 hb.2)
    exact ⟨extended_by_trans e1 e2, h.mono _ _ _ _ e2 v1, v2⟩
  mul σ σ' a b wa wb ha hb := by
    obtain ⟨e1, v1⟩ := h.mul σ σ' a.val_ b.val_ _ _ ha.1 hb.1
    obtain ⟨e2, v2⟩ := h.mul (o.mul σ a.val_ b.val_).2 (p.mul σ' wa.val_ wb.val_).2
      a.d_ b.val_ _ _ (h.mono _ _ _ _ e1 ha.2) (h.mono _ _ _ _ e1 hb.1)
    have e12 := extended_by_trans e1 e2
    obtain ⟨e3, v3⟩ := h.mul _ (p.mul (p.mul σ' wa.val_ wb.val_).2 wa.d_ wb.val_).2
      a.val_ b.d_ _ _ (h.mono _ _ _ _ e12 ha.1) (h.mono _ _ _ _ e12 hb.2)
    obtain ⟨e4, v4⟩ := h.add _
      (p.mul (p.mul (p.mul σ' wa.val_ wb.val_).2 wa.d_ wb.val_).2 wa.val_ wb.d_).2
      _ _ _ _ (h.mono _ _ _ _ e3 v2) v3
    exact ⟨extended_by_trans e12 (extended_by_trans e3 e4),
      h.mono _ _ _ _ (extended_by_trans e2 (extended_by_trans e3 e4)) v1, v4⟩
  add_d σ σ' c a wa ha := by
    obtain ⟨e1, v1⟩ := h.add_d σ σ' c a.val_ _ ha.1
    exact ⟨e1, v1, h.mono _ _ _ _ e1 ha.2⟩
  sub_d σ σ' c a wa ha := by
    obtain ⟨e1, v1⟩ := h.sub_d σ σ' c a.val_ _ ha.1
    obtain ⟨e2, v2⟩ := h.sub_d _ (p.sub_d σ' c wa.val_).2 0 a.d_ _ (h.mono _ _ _ _ e1 ha.2)
    exact ⟨extended_by_trans e1 e2, h.mono _ _ _ _ e2 v1, v2⟩
  div_d σ σ' c a wa ha := by
    obtain ⟨e1, v1⟩ := h.div_d σ σ' c a.val_ _ ha.1
    have a1 := h.mono _ _ _ _ e1 ha.1
    obtain ⟨e2, v2⟩ := h.mul _ (p.div_d σ' c wa.val_).2 a.val_ a.val_ _ _ a1 a1
    obtain ⟨e3, v3⟩ := h.div_d _ (p.mul (p.div_d σ' c wa.val_).2 wa.val_ wa.val_).2
      (-c) _ _ v2
    have e13 := extended_by_trans e1 (extended_by_trans e2 e3)
    obtain ⟨e4, v4⟩ := h.mul _
      (p.div_d (p.mul (p.div_d σ' c wa.val_).2 wa.val_ wa.val_).2 (-c)
        (p.mul (p.div_d σ' c wa.val_).2 wa.val_ wa.val_).1).2
      _ a.d_ _ _ v3 (h.mono _ _ _ _ e13 ha.2)
    exact ⟨extended_by_trans e13 e4,
      h.mono _ _ _ _ (extended_by_trans e2 (extended_by_trans e3 e4)) v1, v4⟩
  sqrt σ σ' a wa ha := by
    obtain ⟨e1, v1⟩ := h.sqrt σ σ' a.val_ _ ha.1
    obtain ⟨e2, v2⟩ := h.div_d _ (p.sqrt σ' wa.val_).2 (1 / 2) _ _ v1
    have e12 := extended_by_trans e1 e2
    obtain ⟨e3, v3⟩ := h.mul _ (p.div_d (p.sqrt σ' wa.val_).2 (1 / 2) (p.sqrt σ' wa.val_).1).2
      _ a.d_ _ _ v2 (h.mono _ _ _ _ e12 ha.2)
    exact ⟨extended_by_trans e12 e3, h.mono _ _ _ _ (extended_by_trans e2 e3) v1, v3⟩
  atanh σ σ' a wa w ha hw := by
    cases hp : p.atanh σ' wa.val_ with
    | mk r' σ1' =>
      cases r' with
      | error e =>
        simp only [fvar_ops, hp] at hw
        cases hw
      | ok y' =>
        simp only [fvar_ops, hp] at hw
        obtain ⟨y, hy, e0, v0⟩ := h.atanh σ σ' a.val_ wa.val_ y' ha.1 (by rw [hp])
        cases ho : o.atanh σ a.val_ with
        | mk r τ0 =>
          rw [ho] at hy e0 v0
          simp only at hy e0 v0
          subst hy
          have a0 := h.mono _ _ _ _ e0 ha.1
          obtain ⟨e1, v1⟩ := h.mul τ0 σ1' a.val_ a.val_ _ _ a0 a0
          obtain ⟨e2, v2⟩ := h.sub_d _ (p.mul σ1' wa.val_ wa.val_).2 1 _ _ v1
          obtain ⟨e3, v3⟩ := h.div_d _
            (p.sub_d (p.mul σ1' wa.val_ wa.val_).2 1 (p.mul σ1' wa.val_ wa.val_).1).2 1 _ _ v2
          have e03 := extended_by_trans e0 (extended_by_trans e1 (extended_by_trans e2 e3))
          obtain ⟨e4, v4⟩ := h.mul _
            (p.div_d
              (p.sub_d (p.mul σ1' wa.val_ wa.val_).2 1 (p.mul σ1' wa.val_ wa.val_).1).2 1
              (p.sub_d (p.mul σ1' wa.val_ wa.val_).2 1 (p.mul σ1' wa.val_ wa.val_).1).1).2
            _ a.d_ _ _ v3 (h.mono _ _ _ _ e03 ha.2)
          cases hw
          simp only [fvar_ops, ho]
          exact ⟨_, rfl, extended_by_trans e03 e4, h.mono _ _ _ _
            (extended_by_trans e1 (extended_by_trans e2 (extended_by_trans e3 e4))) v0, v4⟩
  asinh σ σ' a wa ha := by
    let Y := p.asinh σ' wa.val_
    let SQ := p.mul Y.2 wa.val_ wa.val_
    let S1 := p.add_d SQ.2 1 SQ.1
    let RT := p.sqrt S1.2 S1.1
    let FP := p.div_d RT.2 1 RT.1
    obtain ⟨e0, v0⟩ := h.asinh σ σ' a.val_ _ ha.1
    have a0 := h.mono _ _ _ _ e0 ha.1
    obtain ⟨e1, v1⟩ := h.mul _ Y.2 a.val_ a.val_ _ _ a0 a0
    obtain ⟨e2, v2⟩ := h.add_d _ SQ.2 1 _ _ v1
    obtain ⟨e3, v3⟩ := h.sqrt _ S1.2 _ _ v2
    obtain ⟨e4, v4⟩ := h.div_d _ RT.2 1 _ _ v3
    have e14 := extended_by_trans e1 (extended_by_trans e2 (extended_by_trans e3 e4))
    obtain ⟨e5, v5⟩ := h.mul _ FP.2 _ a.d_ _ _ v4
      (h.mono _ _ _ _ (extended_by_trans e0 e14) ha.2)
    exact ⟨extended_by_trans e0 (extended_by_trans e14 e5),
      h.mono _ _ _ _ (extended_by_trans e14 e5) v0, v5⟩

end nested_simulation
section nested_claims

variable {R : Type} [LinearOrderedField R]

/-- The dual over the reverse-mode operations is the forward-over-reverse
overload, and the dual over the plain operations is the forward-mode overload. -/
theorem fvar_ops_level_one (f g rt : R → R) (σ : State R) :
    (∀ v : fvar var, (fvar_ops (var_ops f g rt)).atanh σ v = atanh_fvar_var f σ v) ∧
    (∀ v : fvar var, (fvar_ops (var_ops f g rt)).asinh σ v = asinh_fvar_var g rt σ v) ∧
    (∀ v : fvar R, (fvar_ops (double_ops f g rt)).atanh σ v = (atanh_fvar f v, σ)) ∧
    (∀ v : fvar R, (fvar_ops (double_ops f g rt)).asinh σ v = (asinh_fvar g rt v, σ)) := by
  refine ⟨?_, fun v => rfl, ?_, fun v => rfl⟩
  · intro v
    simp only [fvar_ops, var_ops, atanh_fvar_var]
    rcases atanh_var f σ v.val_ with ⟨r, τ⟩
    cases r <;> rfl
  · intro v
    simp only [fvar_ops, double_ops, atanh_fvar]
    cases stan.math.atanh f v.val_ <;> rfl

/-- Nested duals over plain numbers, for `asinh`. -/
theorem nested_asinh_double (f g rt : R → R) (x d : R) (σ : State R) :
    (fvar_ops (fvar_ops (double_ops f g rt))).asinh σ ⟨⟨x, d⟩, ⟨0, 0⟩⟩
        = (⟨⟨g x, d * (1 / rt (1 + x * x))⟩, ⟨0, 0⟩⟩, σ) ∧
      (fvar_ops (fvar_ops (double_ops f g rt))).asinh σ ⟨⟨x, 0⟩, ⟨d, 0⟩⟩
        = (⟨⟨g x, 0⟩, ⟨d * (1 / rt (1 + x * x)), 0⟩⟩, σ) := by
  constructor <;> simp [fvar_ops, double_ops, asinh, mul_comm]

/-- Nested duals over plain numbers, for `atanh` inside its domain. -/
theorem nested_atanh_double (f g rt : R → R) (x d : R) (hdom : -1 < x ∧ x < 1)
    (σ : State R) :
    (fvar_ops (fvar_ops (double_ops f g rt))).atanh σ ⟨⟨x, d⟩, ⟨0, 0⟩⟩
        = (.ok ⟨⟨f x, d * (1 / (1 - x * x))⟩, ⟨0, 0⟩⟩, σ) ∧
      (fvar_ops (fvar_ops (double_ops f g rt))).atanh σ ⟨⟨x, 0⟩, ⟨d, 0⟩⟩
        = (.ok ⟨⟨f x, 0⟩, ⟨d * (1 / (1 - x * x)), 0⟩⟩, σ) := by
  constructor <;> simp [fvar_ops, double_ops, atanh, hdom, mul_comm]

/-- C13: nested duals compose the unary rule recursively.  For `asinh`, and for
`atanh` at `-1 < x < 1`, applied to a dual of duals with value `x`: when the inner
tangent is `d` and the outer tangent and the mixed component are 0, the result
has value `f(x)`, inner tangent `d * f'(x)`, outer tangent 0 and mixed component
0; when only the outer tangent is `d`, the result has inner tangent 0, outer
tangent `d * f'(x)` and mixed component 0.  This holds for duals of duals of
plain numbers, and for duals of duals of reverse-mode scalars on any tape, where
the components of the result have these values in the final state; here
`f'(x)` is `1 / sqrt(1 + x * x)` for `asinh` and `1 / (1 - x * x)` for `atanh`. -/
theorem nested_unary_rule (f g rt : R → R) (x d : R) :
    (∀ σ : State R,
      (fvar_ops (fvar_ops (double_ops f g rt))).asinh σ ⟨⟨x, d⟩, ⟨0, 0⟩⟩
          = (⟨⟨g x, d * (1 / rt (1 + x * x))⟩, ⟨0, 0⟩⟩, σ) ∧
        (fvar_ops (fvar_ops (double_ops f g rt))).asinh σ ⟨⟨x, 0⟩, ⟨d, 0⟩⟩
          = (⟨⟨g x, 0⟩, ⟨d * (1 / rt (1 + x * x)), 0⟩⟩, σ)) ∧
    (-1 < x ∧ x < 1 → ∀ σ : State R,
      (fvar_ops (fvar_ops (double_ops f g rt))).atanh σ ⟨⟨x, d⟩, ⟨0, 0⟩⟩
          = (.ok ⟨⟨f x, d * (1 / (1 - x * x))⟩, ⟨0, 0⟩⟩, σ) ∧
        (fvar_ops (fvar_ops (double_ops f g rt))).atanh σ ⟨⟨x, 0⟩, ⟨d, 0⟩⟩
          = (.ok ⟨⟨f x, 0⟩, ⟨d * (1 / (1 - x * x)), 0⟩⟩, σ)) ∧
    (∀ (σ : State R) (a : fvar (fvar var)),
      fvar.has (fvar.has var.has) σ a ⟨⟨x, d⟩, ⟨0, 0⟩⟩ →
        fvar.has (fvar.has var.has)
          ((fvar_ops (fvar_ops (var_ops f g rt))).asinh σ a).2
          ((fvar_ops (fvar_ops (var_ops f g rt))).asinh σ a).1
          ⟨⟨g x, d * (1 / rt (1 + x * x))⟩, ⟨0, 0⟩⟩) ∧
    (∀ (σ : State R) (a : fvar (fvar var)),
      fvar.has (fvar.has var.has) σ a ⟨⟨x, 0⟩, ⟨d, 0⟩⟩ →
        fvar.has (fvar.has var.has)
          ((fvar_ops (fvar_ops (var_ops f g rt))).asinh σ a).2
          ((fvar_ops (fvar_ops (var_ops f g rt))).asinh σ a).1
          ⟨⟨g x, 0⟩, ⟨d * (1 / rt (1 + x * x)), 0⟩⟩) ∧
    (-1 < x ∧ x < 1 → ∀ (σ : State R) (a : fvar (fvar var)),
      fvar.has (fvar.has var.has) σ a ⟨⟨x, d⟩, ⟨0, 0⟩⟩ →
        ∃ y, ((fvar_ops (fvar_ops (var_ops f g rt))).atanh σ a).1 = .ok y ∧
          fvar.has (fvar.has var.has)
            ((fvar_ops (fvar_ops (var_ops f g rt))).atanh σ a).2 y
            ⟨⟨f x, d * (1 / (1 - x * x))⟩, ⟨0, 0⟩⟩) ∧
    (-1 < x ∧ x < 1 → ∀ (σ : State R) (a : fvar (fvar var)),
      fvar.has (fvar.has var.has) σ a ⟨⟨x, 0⟩, ⟨d, 0⟩⟩ →
        ∃ y, ((fvar_ops (fvar_ops (var_ops f g rt))).atanh σ a).1 = .ok y ∧
          fvar.has (fvar.has var.has)
            ((fvar_ops (fvar_ops (var_ops f g rt))).atanh σ a).2 y
            ⟨⟨f x, 0⟩, ⟨d * (1 / (1 - x * x)), 0⟩⟩) := by
  have s2 := sim_fvar _ _ _ (sim_fvar _ _ _ (sim_var f g rt))
  refine ⟨nested_asinh_double f g rt x d, nested_atanh_double f g rt x d, ?_, ?_, ?_, ?_⟩
  · intro σ a ha
    have := (s2.asinh σ σ a _ ha).2
    rw [(nested_asinh_double f g rt x d σ).1] at this
    exact this
  · intro σ a ha
    have := (s2.asinh σ σ a _ ha).2
    rw [(nested_asinh_double f g rt x d σ).2] at this
    exact this
  · intro hdom σ a ha
    obtain ⟨y, hy, -, hv⟩ := s2.atanh σ σ a _ _ ha
      (congrArg Prod.fst (nested_atanh_double f g rt x d hdom σ).1)
    exact ⟨y, hy, hv⟩
  · intro hdom σ a ha
    obtain ⟨y, hy, -, hv⟩ := s2.atanh σ σ a _ _ ha
      (congrArg Prod.fst (nested_atanh_double f g rt x d hdom σ).2)
    exact ⟨y, hy, hv⟩

/-- C13 at the inputs of the `atanh` test: value `1 / 2`, inner tangent 1, outer
tangent and mixed component 0, as four independent variables on a fresh tape,
with the identity as numeric evaluator. -/
theorem nested_unary_rule_witness :
    ∃ y, ((fvar_ops (fvar_ops (var_ops (fun t : ℚ => t) (fun t : ℚ => t) (fun t : ℚ => t)))).atanh
        σ13 ⟨⟨⟨0⟩, ⟨1⟩⟩, ⟨⟨2⟩, ⟨3⟩⟩⟩).1 = .ok y ∧
      fvar.has (fvar.has var.has)
        ((fvar_ops (fvar_ops (var_ops (fun t : ℚ => t) (fun t : ℚ => t) (fun t : ℚ => t)))).atanh
          σ13 ⟨⟨⟨0⟩, ⟨1⟩⟩, ⟨⟨2⟩, ⟨3⟩⟩⟩).2 y
        ⟨⟨1 / 2, 1 * (1 / (1 - 1 / 2 * (1 / 2)))⟩, ⟨0, 0⟩⟩ :=
  (nested_unary_rule (fun t : ℚ => t) (fun t : ℚ => t) (fun t : ℚ => t) (1 / 2) 1).2.2.2.2.1
    (by norm_num) σ13 ⟨⟨⟨0⟩, ⟨1⟩⟩, ⟨⟨2⟩, ⟨3⟩⟩⟩
    ⟨⟨⟨by decide, rfl⟩, ⟨by decide, rfl⟩⟩, ⟨⟨by decide, rfl⟩, ⟨by decide, rfl⟩⟩⟩

end nested_claims

end stan.math
